import Mathlib

/-! A shallow embedding of the `sat` propositional-logic solver (pl.c, dpll.c).

The C structures become Lean structures, `(count, pointer)` pairs become lists,
the 128-entry `dictionary` becomes a map from index to stored byte, loops
become structural recursions over the scanned list, and the mutually recursive
`dpll_try` / `dpll_step` become a fuel-indexed recursion that threads the
working set explicitly.
-/

/-! ## pl.h : constants and data model -/

/-- The value of `PL_FALSE`. -/
@[reducible] def PL_FALSE : Nat := 0
/-- The value of `PL_TRUE`. -/
@[reducible] def PL_TRUE : Nat := 1
/-- The value of `PL_UNDEFINED`. -/
@[reducible] def PL_UNDEFINED : Nat := 2
/-- The value of `PL_UNUSED` (declared, never written by the sources). -/
@[reducible] def PL_UNUSED : Nat := 3
/-- The value of `PL_MAX_VARS`. -/
@[reducible] def PL_MAX_VARS : Nat := 128

/-- The cast `(uint8_t)x` of a character code. -/
def u8 (x : Nat) : Nat := x % 256

/-- The cast `(uint32_t)x` of a character code. -/
def u32 (x : Nat) : Nat := x % 4294967296

/-- The struct `PL_LITERAL`: `var` is the C field `variable` (a character code),
`negated` is the `uint8_t` flag. -/
structure PL_LITERAL where
  var : Nat
  negated : Nat
deriving DecidableEq, Repr

/-- The struct `PL_DISJUNCTION`: the `count` literals behind `literals`. -/
structure PL_DISJUNCTION where
  literals : List PL_LITERAL
deriving DecidableEq, Repr

/-- The struct `PL_CONJUNCTION`: the `count` disjunctions behind `disjunctions`. -/
structure PL_CONJUNCTION where
  disjunctions : List PL_DISJUNCTION
deriving DecidableEq, Repr

/-- The struct `PL_INTERPRETATION`: `dictionary i` is the byte stored at index `i`
(only the indices below `PL_MAX_VARS` exist in the C array). -/
structure PL_INTERPRETATION where
  dictionary : Nat → Nat

/-- The field `count` of a disjunction. -/
def PL_DISJUNCTION.count (d : PL_DISJUNCTION) : Nat := d.literals.length

/-- The field `count` of a conjunction. -/
def PL_CONJUNCTION.count (c : PL_CONJUNCTION) : Nat := c.disjunctions.length

/-- The assignment `inter->dictionary[i] = v`. -/
def PL_INTERPRETATION.set (inter : PL_INTERPRETATION) (i v : Nat) : PL_INTERPRETATION :=
  { dictionary := fun j => if j = i then v else inter.dictionary j }

/-! ## pl.c : the parser -/

/-- The function `is_letter` of pl.c, on a character code. -/
def is_letter (c : Nat) : Nat :=
  if (c ≥ 97 ∧ c ≤ 122) ∨ (c ≥ 65 ∧ c ≤ 90) then 1 else 0

/-- The loop of `count_tokens` over the characters before the terminating NUL,
carrying `count`. -/
def count_tokens_loop (delim : Nat) : List Nat → Nat → Nat
  | [], count => count
  | c :: tmp, count =>
    if c = delim then count_tokens_loop delim tmp (count + 1)
    else count_tokens_loop delim tmp count

/-- The function `count_tokens` of pl.c; `str` lists the character codes before
the terminating NUL. -/
def count_tokens (str : List Nat) (delim : Nat) : Nat :=
  count_tokens_loop delim str 1

/-- The function `strtok_r` of pl.c on the text still to be scanned (the argument
`str`, or `*nextp` when `str` is `NULL`): `none` is the returned `NULL`, otherwise
the pair is the returned token and the text left behind `*nextp`. -/
def strtok_r (str : List Nat) (delim : List Nat) : Option (List Nat × List Nat) :=
  let s := str.dropWhile (fun c => delim.contains c)
  match s with
  | [] => none
  | _ :: _ =>
    let ret := s.takeWhile (fun c => !delim.contains c)
    match s.dropWhile (fun c => !delim.contains c) with
    | [] => some (ret, [])
    | _ :: rest => some (ret, rest)

/-- The loop of `parse_literal` over the characters of the token. -/
def parse_literal_loop : List Nat → PL_LITERAL → PL_LITERAL
  | [], literal => literal
  | c :: tmp, literal =>
    if c = 126 then parse_literal_loop tmp { literal with negated := 1 }
    else if is_letter c ≠ 0 then { literal with var := c }
    else parse_literal_loop tmp literal

/-- The function `parse_literal` of pl.c; `literal` is the output slot as it was
before the call. -/
def parse_literal (str : List Nat) (literal : PL_LITERAL) : PL_LITERAL :=
  parse_literal_loop str { literal with negated := 0 }

/-- The `while (token)` loop of `parse_disjunction`: `str` is the text left to
`strtok_r`, `literals` the array allocated by `calloc`. The bound `fuel` limits
the number of iterations and `none` means it was reached. -/
def parse_disjunction_loop : Nat → List Nat → Nat → List PL_LITERAL → Option (List PL_LITERAL)
  | 0, _, _, _ => none
  | fuel + 1, str, index, literals =>
    match strtok_r str [118] with
    | none => some literals
    | some (token, rest) =>
      parse_disjunction_loop fuel rest (index + 1)
        (literals.set index (parse_literal token (literals.getD index { var := 0, negated := 0 })))

/-- The function `parse_disjunction` of pl.c: `count` is `count_tokens(str, 'v')`,
the array starts zero-filled. -/
def parse_disjunction (fuel : Nat) (str : List Nat) : Option PL_DISJUNCTION :=
  match parse_disjunction_loop fuel str 0
      (List.replicate (count_tokens str 118) { var := 0, negated := 0 }) with
  | none => none
  | some literals => some { literals := literals }

/-- The `while (token)` loop of `pl_parse`, with the array of disjunctions
allocated by `calloc`. -/
def pl_parse_loop : Nat → List Nat → Nat → List PL_DISJUNCTION → Option (List PL_DISJUNCTION)
  | 0, _, _, _ => none
  | fuel + 1, str, index, disjunctions =>
    match strtok_r str [94] with
    | none => some disjunctions
    | some (token, rest) =>
      match parse_disjunction (fuel + 1) token with
      | none => none
      | some d => pl_parse_loop fuel rest (index + 1) (disjunctions.set index d)

/-- The function `pl_parse` of pl.c: `count` is `count_tokens(str, '^')`, the array
starts zero-filled (count 0, no literals). -/
def pl_parse (fuel : Nat) (str : List Nat) : Option PL_CONJUNCTION :=
  match pl_parse_loop fuel str 0
      (List.replicate (count_tokens str 94) { literals := [] }) with
  | none => none
  | some disjunctions => some { disjunctions := disjunctions }

/-! ## pl.c : the ternary evaluator -/

/-- The function `lit_satisfied` of pl.c. -/
def lit_satisfied (lit : PL_LITERAL) (inter : PL_INTERPRETATION) : Nat :=
  let result := inter.dictionary (u8 lit.var)
  if result = PL_UNDEFINED then PL_UNDEFINED
  else if lit.negated ≠ 0 then (if result = PL_TRUE then PL_FALSE else PL_TRUE)
  else result

/-- The loop of `disj_satisfied` over the literals still to be scanned. -/
def disj_satisfied_loop (inter : PL_INTERPRETATION) : List PL_LITERAL → Nat
  | [] => PL_FALSE
  | literal :: rest =>
    let result := lit_satisfied literal inter
    if result ≠ PL_FALSE then result else disj_satisfied_loop inter rest

/-- The function `disj_satisfied` of pl.c. -/
def disj_satisfied (disj : PL_DISJUNCTION) (inter : PL_INTERPRETATION) : Nat :=
  disj_satisfied_loop inter disj.literals

/-- The loop of `pl_is_satisfied` over the disjunctions still to be scanned. -/
def pl_is_satisfied_loop (inter : PL_INTERPRETATION) : List PL_DISJUNCTION → Nat
  | [] => PL_TRUE
  | disjunction :: rest =>
    let result := disj_satisfied disjunction inter
    if result ≠ PL_TRUE then result else pl_is_satisfied_loop inter rest

/-- The function `pl_is_satisfied` of pl.c. -/
def pl_is_satisfied (conj : PL_CONJUNCTION) (inter : PL_INTERPRETATION) : Nat :=
  pl_is_satisfied_loop inter conj.disjunctions

/-- Modelled from the spec: `pl_is_disjunction_satisfied` is declared in pl.h and
called by dpll.c, but no definition of it is among the sources. The specification
(section 4.1) gives one clause evaluator, the first-non-False scan, and says that
the unit and pure-literal scans use it; that evaluator is `disj_satisfied`. -/
def pl_is_disjunction_satisfied (d : PL_DISJUNCTION) (i : PL_INTERPRETATION) : Nat :=
  disj_satisfied d i

/-! ## pl.c : the brute-force solver -/

/-- The inner loop of `create_interpretation`: every literal of one disjunction
stores `v` at its variable. -/
def fill_literals (v : Nat) : List PL_LITERAL → PL_INTERPRETATION → PL_INTERPRETATION
  | [], result => result
  | literal :: rest, result => fill_literals v rest (result.set (u8 literal.var) v)

/-- The outer loop of `create_interpretation`. -/
def fill_disjunctions (v : Nat) : List PL_DISJUNCTION → PL_INTERPRETATION → PL_INTERPRETATION
  | [], result => result
  | disjunction :: rest, result =>
    fill_disjunctions v rest (fill_literals v disjunction.literals result)

/-- The function `create_interpretation` of pl.c: every entry `PL_UNDEFINED`, then
every used variable `PL_FALSE`. -/
def create_interpretation (conjunction : PL_CONJUNCTION) : PL_INTERPRETATION :=
  fill_disjunctions PL_FALSE conjunction.disjunctions { dictionary := fun _ => PL_UNDEFINED }

/-- Modelled from the spec: `pl_create_interpretation` is declared in pl.h and
called by `pl_dpll`, but no definition of it is among the sources. The
specification has the search start from an all-undefined assignment in which
absent variables are Undefined; following `create_interpretation`, every entry
is `PL_UNDEFINED` and every used variable then receives the default `d`. -/
def pl_create_interpretation (c : PL_CONJUNCTION) (d : Nat) : PL_INTERPRETATION :=
  fill_disjunctions d c.disjunctions { dictionary := fun _ => PL_UNDEFINED }

/-- The loop of `step_brute_force` over the indices still to be visited; the
first component is the returned flag. -/
def step_brute_force_loop : List Nat → PL_INTERPRETATION → Nat × PL_INTERPRETATION
  | [], inter => (1, inter)
  | i :: rest, inter =>
    if inter.dictionary i = PL_UNDEFINED then step_brute_force_loop rest inter
    else if inter.dictionary i = PL_TRUE then
      step_brute_force_loop rest (inter.set i PL_FALSE)
    else (0, inter.set i PL_TRUE)

/-- The function `step_brute_force` of pl.c (the conjunction argument is unused
there). -/
def step_brute_force (_conj : PL_CONJUNCTION) (inter : PL_INTERPRETATION) :
    Nat × PL_INTERPRETATION :=
  step_brute_force_loop (List.range PL_MAX_VARS) inter

/-- The `while` loop of `pl_brute_force`; `fuel` bounds the number of iterations
and `none` means the bound was reached. The inner `Option` is the returned
pointer, `none` standing for `NULL`. -/
def pl_brute_force_loop (conjunction : PL_CONJUNCTION) :
    Nat → PL_INTERPRETATION → Option (Option PL_INTERPRETATION)
  | 0, _ => none
  | fuel + 1, inter =>
    if pl_is_satisfied conjunction inter ≠ PL_TRUE then
      let r := step_brute_force conjunction inter
      if r.1 ≠ 0 then some none
      else pl_brute_force_loop conjunction fuel r.2
    else some (some inter)

/-- The function `pl_brute_force` of pl.c. -/
def pl_brute_force (fuel : Nat) (conjunction : PL_CONJUNCTION) :
    Option (Option PL_INTERPRETATION) :=
  pl_brute_force_loop conjunction fuel (create_interpretation conjunction)

/-! ## dpll.c : the DPLL search -/

/-- The struct `PL_DPLL`: the working set of the search. `vars` and `vars_count` are the C fields
`variables` and `variables_count`, written by `pl_dpll`. -/
structure PL_DPLL where
  conjunction : PL_CONJUNCTION
  interpretation : PL_INTERPRETATION
  vars : List Nat
  vars_count : Nat

/-- The assignment `dpll->interpretation->dictionary[i] = v`. -/
def PL_DPLL.assign (dpll : PL_DPLL) (i v : Nat) : PL_DPLL :=
  { dpll with interpretation := dpll.interpretation.set i v }

/-- The inner loop of `dpll_find_unit`: scans the literals of one disjunction,
carrying `(match, unset)`. -/
def dpll_find_unit_count (inter : PL_INTERPRETATION) :
    List PL_LITERAL → Option PL_LITERAL × Nat → Option PL_LITERAL × Nat
  | [], acc => acc
  | literal :: rest, acc =>
    if inter.dictionary (u8 literal.var) = PL_UNDEFINED then
      dpll_find_unit_count inter rest (some literal, acc.2 + 1)
    else dpll_find_unit_count inter rest acc

/-- The outer loop of `dpll_find_unit` over the disjunctions still to be scanned. -/
def dpll_find_unit_loop (inter : PL_INTERPRETATION) : List PL_DISJUNCTION → Option PL_LITERAL
  | [] => none
  | disjunction :: rest =>
    if pl_is_disjunction_satisfied disjunction inter = PL_TRUE then
      dpll_find_unit_loop inter rest
    else
      let r := dpll_find_unit_count inter disjunction.literals (none, 0)
      if r.1.isSome ∧ r.2 = 1 then r.1 else dpll_find_unit_loop inter rest

/-- The function `dpll_find_unit` of dpll.c. -/
def dpll_find_unit (dpll : PL_DPLL) : Option PL_LITERAL :=
  dpll_find_unit_loop dpll.interpretation dpll.conjunction.disjunctions

/-- The inner loop of `dpll_find_pure_for_variable` over the literals of one
disjunction, carrying `match`. The outer `none` is the early `return NULL`. -/
def dpll_find_pure_literals (var : Nat) :
    List PL_LITERAL → Option PL_LITERAL → Option (Option PL_LITERAL)
  | [], m => some m
  | literal :: rest, m =>
    if literal.var ≠ var then dpll_find_pure_literals var rest m
    else
      match m with
      | none => dpll_find_pure_literals var rest (some literal)
      | some found =>
        if found.negated ≠ literal.negated then none
        else dpll_find_pure_literals var rest m

/-- The outer loop of `dpll_find_pure_for_variable`, carrying `match`. -/
def dpll_find_pure_for_variable_loop (inter : PL_INTERPRETATION) (var : Nat) :
    List PL_DISJUNCTION → Option PL_LITERAL → Option PL_LITERAL
  | [], m => m
  | disjunction :: rest, m =>
    if pl_is_disjunction_satisfied disjunction inter = PL_TRUE then
      dpll_find_pure_for_variable_loop inter var rest m
    else
      match dpll_find_pure_literals var disjunction.literals m with
      | none => none
      | some m1 => dpll_find_pure_for_variable_loop inter var rest m1

/-- The function `dpll_find_pure_for_variable` of dpll.c. -/
def dpll_find_pure_for_variable (dpll : PL_DPLL) (var : Nat) : Option PL_LITERAL :=
  dpll_find_pure_for_variable_loop dpll.interpretation var
    dpll.conjunction.disjunctions none

/-- The loop of `dpll_find_pure` over the indices still to be visited. -/
def dpll_find_pure_loop (dpll : PL_DPLL) : List Nat → Option PL_LITERAL
  | [] => none
  | i :: rest =>
    if dpll.interpretation.dictionary i = PL_UNDEFINED then
      match dpll_find_pure_for_variable dpll i with
      | some literal => some literal
      | none => dpll_find_pure_loop dpll rest
    else dpll_find_pure_loop dpll rest

/-- The function `dpll_find_pure` of dpll.c. -/
def dpll_find_pure (dpll : PL_DPLL) : Option PL_LITERAL :=
  dpll_find_pure_loop dpll (List.range PL_MAX_VARS)

/-- The loop of `dpll_find_unset` over the indices still to be visited. -/
def dpll_find_unset_loop (dpll : PL_DPLL) : List Nat → Nat
  | [] => 0
  | i :: rest =>
    if dpll.interpretation.dictionary i = PL_UNDEFINED then i
    else dpll_find_unset_loop dpll rest

/-- The function `dpll_find_unset` of dpll.c. -/
def dpll_find_unset (dpll : PL_DPLL) : Nat :=
  dpll_find_unset_loop dpll (List.range PL_MAX_VARS)

/-- The function `dpll_try` of dpll.c; `step` is the recursive call to
`dpll_step`. A result `none` means that the recursion bound was reached; otherwise
the pair is the returned flag and the working set after the call. -/
def dpll_try (step : PL_DPLL → Option (Nat × PL_DPLL)) (dpll : PL_DPLL)
    (var value : Nat) : Option (Nat × PL_DPLL) :=
  match step (dpll.assign (u32 var) value) with
  | none => none
  | some (r, dpll1) =>
    if r ≠ 0 then some (1, dpll1)
    else some (0, dpll1.assign (u32 var) PL_UNDEFINED)

/-- The function `dpll_step` of dpll.c; `fuel` bounds the recursion depth. -/
def dpll_step : Nat → PL_DPLL → Option (Nat × PL_DPLL)
  | 0, _ => none
  | fuel + 1, dpll =>
    let result := pl_is_satisfied dpll.conjunction dpll.interpretation
    if result = PL_TRUE then some (1, dpll)
    else if result = PL_FALSE then some (0, dpll)
    else
      match dpll_find_unit dpll with
      | some literal =>
        dpll_try (dpll_step fuel) dpll literal.var
          (if literal.negated ≠ 0 then PL_FALSE else PL_TRUE)
      | none =>
        match dpll_find_pure dpll with
        | some literal =>
          dpll_try (dpll_step fuel) dpll literal.var
            (if literal.negated ≠ 0 then PL_FALSE else PL_TRUE)
        | none =>
          let var := dpll_find_unset dpll
          match dpll_try (dpll_step fuel) dpll var PL_TRUE with
          | none => none
          | some (r, dpll1) =>
            if r ≠ 0 then some (1, dpll1)
            else dpll_try (dpll_step fuel) dpll1 var PL_FALSE

/-- The working set built by the first lines of `pl_dpll`: the fresh
interpretation, and the indices holding `PL_UNDEFINED` collected in `variables`. -/
def pl_dpll_init (conjunction : PL_CONJUNCTION) : PL_DPLL :=
  let interpretation := pl_create_interpretation conjunction PL_UNDEFINED
  let vars :=
    (List.range PL_MAX_VARS).filter (fun i => interpretation.dictionary i = PL_UNDEFINED)
  { conjunction := conjunction, interpretation := interpretation,
    vars := vars, vars_count := vars.length }

/-- The function `pl_dpll` of dpll.c. The outer `Option` is `none` when the
recursion bound was reached; the inner one is the returned pointer, `none`
standing for `NULL`. -/
def pl_dpll (fuel : Nat) (conjunction : PL_CONJUNCTION) : Option (Option PL_INTERPRETATION) :=
  match dpll_step fuel (pl_dpll_init conjunction) with
  | none => none
  | some (r, dpll1) => if r ≠ 0 then some (some dpll1.interpretation) else some none

/-- Modelled from the spec: `pl_create_interpretation`, whose definition is not
among the sources, with the byte it leaves at the indices that are no variable of
the conjunction taken as the parameter `unused`; `pl_create_interpretation` is the
instance `unused = PL_UNDEFINED`, and pl.h also declares the marker `PL_UNUSED`. -/
def pl_create_interpretation_marked (unused : Nat) (c : PL_CONJUNCTION) (d : Nat) :
    PL_INTERPRETATION :=
  fill_disjunctions d c.disjunctions { dictionary := fun _ => unused }

/-- The working set built by the first lines of `pl_dpll` when the fresh
interpretation holds `unused` at the indices that are no variable of the
conjunction. -/
def pl_dpll_init_marked (unused : Nat) (conjunction : PL_CONJUNCTION) : PL_DPLL :=
  let interpretation := pl_create_interpretation_marked unused conjunction PL_UNDEFINED
  let vars :=
    (List.range PL_MAX_VARS).filter (fun i => interpretation.dictionary i = PL_UNDEFINED)
  { conjunction := conjunction, interpretation := interpretation,
    vars := vars, vars_count := vars.length }

/-! ## Vocabulary of the statements -/

/-- The first `PL_MAX_VARS` entries of the dictionary, as a list. -/
def PL_INTERPRETATION.entries (inter : PL_INTERPRETATION) : List Nat :=
  (List.range PL_MAX_VARS).map inter.dictionary

/-- Every literal of the conjunction, in source order. -/
def PL_CONJUNCTION.all_literals (c : PL_CONJUNCTION) : List PL_LITERAL :=
  c.disjunctions.flatMap (fun d => d.literals)

/-- The variables of the conjunction index into `0..127`. -/
def vars_in_range (c : PL_CONJUNCTION) : Prop :=
  ∀ d ∈ c.disjunctions, ∀ l ∈ d.literals, l.var < PL_MAX_VARS

instance (c : PL_CONJUNCTION) : Decidable (vars_in_range c) := by
  unfold vars_in_range; infer_instance

/-- Every one of the 128 entries is `PL_FALSE`, `PL_TRUE` or `PL_UNDEFINED`. -/
def ternary (inter : PL_INTERPRETATION) : Prop :=
  ∀ i, i < PL_MAX_VARS → inter.dictionary i ≤ PL_UNDEFINED

/-- The number of `PL_UNDEFINED` entries among the 128. -/
def count_undefined (inter : PL_INTERPRETATION) : Nat :=
  ((List.range PL_MAX_VARS).filter (fun i => inter.dictionary i = PL_UNDEFINED)).length

/-- A literal is true under a two-valued assignment of the variables. -/
def lit_true (a : Nat → Bool) (l : PL_LITERAL) : Prop :=
  if l.negated ≠ 0 then a l.var = false else a l.var = true

instance (a : Nat → Bool) (l : PL_LITERAL) : Decidable (lit_true a l) := by
  unfold lit_true; infer_instance

/-- The two-valued assignment makes every clause contain a true literal. -/
def satisfies (a : Nat → Bool) (c : PL_CONJUNCTION) : Prop :=
  ∀ d ∈ c.disjunctions, ∃ l ∈ d.literals, lit_true a l

/-- Some two-valued assignment makes every clause contain a true literal. -/
def satisfiable (c : PL_CONJUNCTION) : Prop := ∃ a : Nat → Bool, satisfies a c

/-- The number read off the entries at the listed indices that are not
`PL_UNDEFINED`: the first listed index is the least significant bit, `PL_TRUE` is
the bit 1 and any other value the bit 0. -/
def counter_value (inter : PL_INTERPRETATION) : List Nat → Nat
  | [] => 0
  | i :: rest =>
    if inter.dictionary i = PL_UNDEFINED then counter_value inter rest
    else (if inter.dictionary i = PL_TRUE then 1 else 0) + 2 * counter_value inter rest

/-- The number of entries at the listed indices that are not `PL_UNDEFINED`. -/
def counter_width (inter : PL_INTERPRETATION) : List Nat → Nat
  | [] => 0
  | i :: rest =>
    if inter.dictionary i = PL_UNDEFINED then counter_width inter rest
    else counter_width inter rest + 1

/-- The interpretation gives every variable of the conjunction the value `PL_TRUE`
or `PL_FALSE`. -/
def assigns_variables (inter : PL_INTERPRETATION) (c : PL_CONJUNCTION) : Prop :=
  ∀ l ∈ c.all_literals,
    inter.dictionary (u8 l.var) = PL_TRUE ∨ inter.dictionary (u8 l.var) = PL_FALSE

/-- The literals of the clauses that `pl_is_disjunction_satisfied` does not
report `PL_TRUE`, in source order. -/
def open_literals (inter : PL_INTERPRETATION) (c : PL_CONJUNCTION) : List PL_LITERAL :=
  (c.disjunctions.filter
    (fun d => decide (pl_is_disjunction_satisfied d inter ≠ PL_TRUE))).flatMap
      (fun d => d.literals)

/-- The occurrences of the variable `v` in the clauses not reported `PL_TRUE`. -/
def occurrences (inter : PL_INTERPRETATION) (c : PL_CONJUNCTION) (v : Nat) :
    List PL_LITERAL :=
  (open_literals inter c).filter (fun l => decide (l.var = v))

/-- The variable `v` occurs in a clause not reported `PL_TRUE`, and all its
occurrences in such clauses carry the same `negated` flag. -/
def pure_variable (inter : PL_INTERPRETATION) (c : PL_CONJUNCTION) (v : Nat) : Prop :=
  occurrences inter c v ≠ [] ∧
    ∀ l ∈ occurrences inter c v, ∀ m ∈ occurrences inter c v, l.negated = m.negated

/-- The literals of a clause whose variable holds `PL_UNDEFINED`, in order. -/
def unset_literals (inter : PL_INTERPRETATION) (d : PL_DISJUNCTION) : List PL_LITERAL :=
  d.literals.filter (fun l => decide (inter.dictionary (u8 l.var) = PL_UNDEFINED))

/-- The clause is not reported `PL_TRUE` and exactly one of its literals has a
variable holding `PL_UNDEFINED`. -/
def unit_clause (inter : PL_INTERPRETATION) (d : PL_DISJUNCTION) : Prop :=
  pl_is_disjunction_satisfied d inter ≠ PL_TRUE ∧ (unset_literals inter d).length = 1

instance (inter : PL_INTERPRETATION) (d : PL_DISJUNCTION) : Decidable (unit_clause inter d) := by
  unfold unit_clause; infer_instance

/-- The two-valued assignment `a` extends the interpretation: at every entry that
is not `PL_UNDEFINED`, `a` is true exactly when the entry is `PL_TRUE`. -/
def completes (a : Nat → Bool) (inter : PL_INTERPRETATION) : Prop :=
  ∀ i, i < PL_MAX_VARS → inter.dictionary i ≠ PL_UNDEFINED →
    (a i = true ↔ inter.dictionary i = PL_TRUE)

/-- The interpretation `b` agrees with `a` on every one of the 128 entries where
`a` is not `PL_UNDEFINED`. -/
def extends_defined (a b : PL_INTERPRETATION) : Prop :=
  ∀ i, i < PL_MAX_VARS → a.dictionary i ≠ PL_UNDEFINED → b.dictionary i = a.dictionary i

/-- The entries at the variables of the conjunction are `PL_FALSE`, `PL_TRUE` or
`PL_UNDEFINED`. -/
def used_ternary (inter : PL_INTERPRETATION) (c : PL_CONJUNCTION) : Prop :=
  ∀ d ∈ c.disjunctions, ∀ l ∈ d.literals, inter.dictionary l.var ≤ PL_UNDEFINED

instance (inter : PL_INTERPRETATION) (c : PL_CONJUNCTION) : Decidable (used_ternary inter c) := by
  unfold used_ternary; infer_instance

/-! ## Sample formulas -/

/-- The literal `A`. -/
def litA : PL_LITERAL := { var := 65, negated := 0 }
/-- The literal `~A`. -/
def litNotA : PL_LITERAL := { var := 65, negated := 1 }
/-- The literal `B`. -/
def litB : PL_LITERAL := { var := 66, negated := 0 }
/-- The literal `~B`. -/
def litNotB : PL_LITERAL := { var := 66, negated := 1 }

/-- The formula `(A)`. -/
def conj_A : PL_CONJUNCTION := ⟨[⟨[litA]⟩]⟩
/-- The formula `(A) ^ (~A)`. -/
def conj_A_notA : PL_CONJUNCTION := ⟨[⟨[litA]⟩, ⟨[litNotA]⟩]⟩
/-- The formula `(A v B)`. -/
def conj_AorB : PL_CONJUNCTION := ⟨[⟨[litA, litB]⟩]⟩
/-- The formula `(B) ^ (A v B) ^ (~A)`. -/
def conj_unit_trap : PL_CONJUNCTION := ⟨[⟨[litB]⟩, ⟨[litA, litB]⟩, ⟨[litNotA]⟩]⟩
/-- The formula `(A v B) ^ (~A v ~B)`. -/
def conj_xor : PL_CONJUNCTION := ⟨[⟨[litA, litB]⟩, ⟨[litNotA, litNotB]⟩]⟩


/-- The formula `(A v B) ^ (~A v B)`. -/
def conj_forced_B : PL_CONJUNCTION := ⟨[⟨[litA, litB]⟩, ⟨[litNotA, litB]⟩]⟩
/-- The text `A^^B`. -/
def text_A_hat_hat_B : List Nat := [65, 94, 94, 66]
/-- The text `B ^ A v B ^ ~A`. -/
def text_unit_trap : List Nat :=
  [66, 32, 94, 32, 65, 32, 118, 32, 66, 32, 94, 32, 126, 65]
/-- The working set of `(B) ^ (A v B) ^ (~A)` after the unit `B` was assigned. -/
def dpll_after_B : PL_DPLL := (pl_dpll_init conj_unit_trap).assign 66 PL_TRUE

/-! ## Basic facts about casts and dictionary updates -/

theorem u8_of_lt {x : Nat} (h : x < PL_MAX_VARS) : u8 x = x := by
  unfold u8
  exact Nat.mod_eq_of_lt (lt_trans h (by decide))

theorem u32_of_lt {x : Nat} (h : x < PL_MAX_VARS) : u32 x = x := by
  unfold u32
  exact Nat.mod_eq_of_lt (lt_trans h (by decide))

theorem set_dictionary (inter : PL_INTERPRETATION) (i v j : Nat) :
    (inter.set i v).dictionary j = if j = i then v else inter.dictionary j := rfl

theorem set_dictionary_same (inter : PL_INTERPRETATION) (i v : Nat) :
    (inter.set i v).dictionary i = v := by
  simp [set_dictionary]

theorem set_dictionary_other (inter : PL_INTERPRETATION) {i j : Nat} (v : Nat) (h : j ≠ i) :
    (inter.set i v).dictionary j = inter.dictionary j := by
  simp [set_dictionary, h]

theorem interpretation_ext {a b : PL_INTERPRETATION}
    (h : ∀ i, a.dictionary i = b.dictionary i) : a = b := by
  cases a; cases b
  congr
  exact funext h

theorem set_set_undefined (inter : PL_INTERPRETATION) (i v : Nat)
    (h : inter.dictionary i = PL_UNDEFINED) :
    (inter.set i v).set i PL_UNDEFINED = inter := by
  apply interpretation_ext
  intro j
  by_cases hj : j = i
  · subst hj; simp [set_dictionary, h]
  · simp [set_dictionary, hj]

theorem assign_interpretation (dpll : PL_DPLL) (i v : Nat) :
    (dpll.assign i v).interpretation = dpll.interpretation.set i v := rfl

theorem assign_conjunction (dpll : PL_DPLL) (i v : Nat) :
    (dpll.assign i v).conjunction = dpll.conjunction := rfl

theorem assign_assign_undefined (dpll : PL_DPLL) (i v : Nat)
    (h : dpll.interpretation.dictionary i = PL_UNDEFINED) :
    (dpll.assign i v).assign i PL_UNDEFINED = dpll := by
  cases dpll with
  | mk c inter vs n =>
    simp only [PL_DPLL.assign]
    congr
    exact set_set_undefined inter i v h

/-! ## The evaluator scans -/

theorem disj_satisfied_loop_find (inter : PL_INTERPRETATION) (ls : List PL_LITERAL) :
    disj_satisfied_loop inter ls =
      match ls.find? (fun l => decide (lit_satisfied l inter ≠ PL_FALSE)) with
      | some l => lit_satisfied l inter
      | none => PL_FALSE := by
  induction ls with
  | nil => rfl
  | cons l rest ih =>
    by_cases h : lit_satisfied l inter = PL_FALSE
    · simp [disj_satisfied_loop, List.find?, h, ih]
    · simp [disj_satisfied_loop, List.find?, h]

theorem pl_is_satisfied_loop_find (inter : PL_INTERPRETATION) (ds : List PL_DISJUNCTION) :
    pl_is_satisfied_loop inter ds =
      match ds.find? (fun d => decide (disj_satisfied d inter ≠ PL_TRUE)) with
      | some d => disj_satisfied d inter
      | none => PL_TRUE := by
  induction ds with
  | nil => rfl
  | cons d rest ih =>
    by_cases h : disj_satisfied d inter = PL_TRUE
    · simp [pl_is_satisfied_loop, List.find?, h, ih]
    · simp [pl_is_satisfied_loop, List.find?, h]

/-- A disjunction evaluates to a value other than `PL_FALSE` exactly through a
literal with that value. -/
theorem disj_satisfied_loop_ne_false (inter : PL_INTERPRETATION) (ls : List PL_LITERAL)
    (h : disj_satisfied_loop inter ls ≠ PL_FALSE) :
    ∃ l ∈ ls, lit_satisfied l inter = disj_satisfied_loop inter ls := by
  induction ls with
  | nil => exact absurd rfl h
  | cons l rest ih =>
    by_cases hl : lit_satisfied l inter = PL_FALSE
    · have e : disj_satisfied_loop inter (l :: rest) = disj_satisfied_loop inter rest := by
        simp [disj_satisfied_loop, hl]
      rw [e] at h ⊢
      obtain ⟨x, hx, hv⟩ := ih h
      exact ⟨x, List.mem_cons_of_mem _ hx, hv⟩
    · refine ⟨l, List.mem_cons_self _ _, ?_⟩
      simp [disj_satisfied_loop, hl]

/-- When the conjunction evaluates `PL_TRUE`, every disjunction does. -/
theorem pl_is_satisfied_loop_true (inter : PL_INTERPRETATION) (ds : List PL_DISJUNCTION)
    (h : pl_is_satisfied_loop inter ds = PL_TRUE) :
    ∀ d ∈ ds, disj_satisfied d inter = PL_TRUE := by
  induction ds with
  | nil => intro d hd; cases hd
  | cons d rest ih =>
    by_cases hd : disj_satisfied d inter = PL_TRUE
    · have e : pl_is_satisfied_loop inter (d :: rest) = pl_is_satisfied_loop inter rest := by
        simp [pl_is_satisfied_loop, hd]
      rw [e] at h
      intro x hx
      rcases List.mem_cons.mp hx with rfl | hx
      · exact hd
      · exact ih h x hx
    · have e : pl_is_satisfied_loop inter (d :: rest) = disj_satisfied d inter := by
        simp [pl_is_satisfied_loop, hd]
      rw [e] at h
      exact absurd h hd

/-- When the conjunction evaluates to something other than `PL_TRUE`, that value
is the value of one of its disjunctions. -/
theorem pl_is_satisfied_loop_ne_true (inter : PL_INTERPRETATION) (ds : List PL_DISJUNCTION)
    (h : pl_is_satisfied_loop inter ds ≠ PL_TRUE) :
    ∃ d ∈ ds, disj_satisfied d inter = pl_is_satisfied_loop inter ds := by
  induction ds with
  | nil => exact absurd rfl h
  | cons d rest ih =>
    by_cases hd : disj_satisfied d inter = PL_TRUE
    · have e : pl_is_satisfied_loop inter (d :: rest) = pl_is_satisfied_loop inter rest := by
        simp [pl_is_satisfied_loop, hd]
      rw [e] at h ⊢
      obtain ⟨x, hx, hv⟩ := ih h
      exact ⟨x, List.mem_cons_of_mem _ hx, hv⟩
    · refine ⟨d, List.mem_cons_self _ _, ?_⟩
      simp [pl_is_satisfied_loop, hd]

/-- A literal that evaluates `PL_TRUE` has a defined variable and is true under
the two-valued reading of the dictionary. -/
theorem lit_satisfied_true (l : PL_LITERAL) (inter : PL_INTERPRETATION)
    (h : lit_satisfied l inter = PL_TRUE) :
    inter.dictionary (u8 l.var) ≠ PL_UNDEFINED ∧
      (if l.negated ≠ 0 then inter.dictionary (u8 l.var) ≠ PL_TRUE
        else inter.dictionary (u8 l.var) = PL_TRUE) := by
  unfold lit_satisfied at h
  simp only at h
  by_cases hu : inter.dictionary (u8 l.var) = PL_UNDEFINED
  · simp [hu] at h
  · refine ⟨hu, ?_⟩
    by_cases hn : l.negated = 0
    · simpa [hu, hn] using h
    · by_cases ht : inter.dictionary (u8 l.var) = PL_TRUE
      · simp [hu, hn, ht] at h
      · simp [hn, ht]

/-! ## The three searches of dpll.c -/

theorem dpll_find_unit_count_some (inter : PL_INTERPRETATION) (ls : List PL_LITERAL) :
    ∀ (acc : Option PL_LITERAL × Nat) (l : PL_LITERAL),
      (dpll_find_unit_count inter ls acc).1 = some l →
      acc.1 = some l ∨ (l ∈ ls ∧ inter.dictionary (u8 l.var) = PL_UNDEFINED) := by
  induction ls with
  | nil => intro acc l h; exact Or.inl h
  | cons x rest ih =>
    intro acc l h
    by_cases hx : inter.dictionary (u8 x.var) = PL_UNDEFINED
    · simp only [dpll_find_unit_count, hx, if_true] at h
      rcases ih _ l h with h1 | ⟨h1, h2⟩
      · simp only [Option.some.injEq] at h1
        subst h1
        exact Or.inr ⟨List.mem_cons_self _ _, hx⟩
      · exact Or.inr ⟨List.mem_cons_of_mem _ h1, h2⟩
    · simp only [dpll_find_unit_count, hx, if_false] at h
      rcases ih _ l h with h1 | ⟨h1, h2⟩
      · exact Or.inl h1
      · exact Or.inr ⟨List.mem_cons_of_mem _ h1, h2⟩

/-- The literal returned by the unit search belongs to a clause of the formula
and its variable is `PL_UNDEFINED`. -/
theorem dpll_find_unit_loop_some (inter : PL_INTERPRETATION) (ds : List PL_DISJUNCTION)
    (l : PL_LITERAL) (h : dpll_find_unit_loop inter ds = some l) :
    ∃ d ∈ ds, l ∈ d.literals ∧ inter.dictionary (u8 l.var) = PL_UNDEFINED := by
  induction ds with
  | nil => simp [dpll_find_unit_loop] at h
  | cons d rest ih =>
    have lift : (∃ d ∈ rest, l ∈ d.literals ∧ inter.dictionary (u8 l.var) = PL_UNDEFINED) →
        ∃ d1 ∈ d :: rest, l ∈ d1.literals ∧ inter.dictionary (u8 l.var) = PL_UNDEFINED := by
      rintro ⟨d1, h1, h2⟩
      exact ⟨d1, List.mem_cons_of_mem _ h1, h2⟩
    by_cases hd : pl_is_disjunction_satisfied d inter = PL_TRUE
    · simp only [dpll_find_unit_loop, hd, if_true] at h
      exact lift (ih h)
    · simp only [dpll_find_unit_loop, hd, if_false] at h
      by_cases hc : (dpll_find_unit_count inter d.literals (none, 0)).1.isSome = true ∧
          (dpll_find_unit_count inter d.literals (none, 0)).2 = 1
      · rw [if_pos hc] at h
        rcases dpll_find_unit_count_some inter d.literals _ l h with h1 | h1
        · cases h1
        · exact ⟨d, List.mem_cons_self _ _, h1⟩
      · rw [if_neg hc] at h
        exact lift (ih h)

theorem dpll_find_pure_literals_some (var : Nat) (ls : List PL_LITERAL) :
    ∀ (m : Option PL_LITERAL) (l : PL_LITERAL),
      dpll_find_pure_literals var ls m = some (some l) →
      m = some l ∨ (l ∈ ls ∧ l.var = var) := by
  induction ls with
  | nil =>
    intro m l h
    simp only [dpll_find_pure_literals, Option.some.injEq] at h
    exact Or.inl h
  | cons x rest ih =>
    intro m l h
    by_cases hx : x.var = var
    · cases m with
      | none =>
        simp only [dpll_find_pure_literals, hx, ne_eq, not_true_eq_false, if_false] at h
        rcases ih _ l h with h1 | ⟨h1, h2⟩
        · simp only [Option.some.injEq] at h1
          subst h1
          exact Or.inr ⟨List.mem_cons_self _ _, hx⟩
        · exact Or.inr ⟨List.mem_cons_of_mem _ h1, h2⟩
      | some found =>
        simp only [dpll_find_pure_literals, hx, ne_eq, not_true_eq_false, if_false] at h
        by_cases hn : found.negated = x.negated
        · simp only [hn, not_true_eq_false, if_false] at h
          rcases ih _ l h with h1 | ⟨h1, h2⟩
          · exact Or.inl h1
          · exact Or.inr ⟨List.mem_cons_of_mem _ h1, h2⟩
        · simp [hn] at h
    · simp only [dpll_find_pure_literals, ne_eq, hx, not_false_eq_true, if_true] at h
      rcases ih _ l h with h1 | ⟨h1, h2⟩
      · exact Or.inl h1
      · exact Or.inr ⟨List.mem_cons_of_mem _ h1, h2⟩

theorem dpll_find_pure_for_variable_loop_some (inter : PL_INTERPRETATION) (var : Nat)
    (ds : List PL_DISJUNCTION) :
    ∀ (m : Option PL_LITERAL) (l : PL_LITERAL),
      dpll_find_pure_for_variable_loop inter var ds m = some l →
      m = some l ∨ ∃ d ∈ ds, l ∈ d.literals ∧ l.var = var := by
  induction ds with
  | nil => intro m l h; exact Or.inl h
  | cons d rest ih =>
    intro m l h
    have lift : ∀ m1, (m1 = some l ∨ ∃ d ∈ rest, l ∈ d.literals ∧ l.var = var) →
        m1 = some l ∨ ∃ d1 ∈ d :: rest, l ∈ d1.literals ∧ l.var = var := by
      rintro m1 (h1 | ⟨d1, h1, h2⟩)
      · exact Or.inl h1
      · exact Or.inr ⟨d1, List.mem_cons_of_mem _ h1, h2⟩
    by_cases hd : pl_is_disjunction_satisfied d inter = PL_TRUE
    · simp only [dpll_find_pure_for_variable_loop, hd, if_true] at h
      exact lift m (ih m l h)
    · simp only [dpll_find_pure_for_variable_loop, hd, if_false] at h
      cases hm : dpll_find_pure_literals var d.literals m with
      | none => simp [hm] at h
      | some m1 =>
        simp only [hm] at h
        rcases ih m1 l h with h1 | ⟨d1, h1, h2⟩
        · subst h1
          rcases dpll_find_pure_literals_some var d.literals m l hm with h2 | h2
          · exact Or.inl h2
          · exact Or.inr ⟨d, List.mem_cons_self _ _, h2⟩
        · exact Or.inr ⟨d1, List.mem_cons_of_mem _ h1, h2⟩

/-- The literal returned by the pure-literal search belongs to a clause of the
formula, and its variable is one of the visited indices holding `PL_UNDEFINED`. -/
theorem dpll_find_pure_loop_some (dpll : PL_DPLL) (idx : List Nat) (l : PL_LITERAL)
    (h : dpll_find_pure_loop dpll idx = some l) :
    l.var ∈ idx ∧ dpll.interpretation.dictionary l.var = PL_UNDEFINED ∧
      ∃ d ∈ dpll.conjunction.disjunctions, l ∈ d.literals := by
  induction idx with
  | nil => simp [dpll_find_pure_loop] at h
  | cons i rest ih =>
    by_cases hi : dpll.interpretation.dictionary i = PL_UNDEFINED
    · simp only [dpll_find_pure_loop, hi, if_true] at h
      cases hp : dpll_find_pure_for_variable dpll i with
      | none =>
        simp only [hp] at h
        obtain ⟨h1, h2⟩ := ih h
        exact ⟨List.mem_cons_of_mem _ h1, h2⟩
      | some x =>
        simp only [hp, Option.some.injEq] at h
        subst h
        unfold dpll_find_pure_for_variable at hp
        rcases dpll_find_pure_for_variable_loop_some _ _ _ _ _ hp with h1 | ⟨d, h1, h2, h3⟩
        · cases h1
        · subst h3
          exact ⟨List.mem_cons_self _ _, hi, d, h1, h2⟩
    · simp only [dpll_find_pure_loop, hi, if_false] at h
      obtain ⟨h1, h2⟩ := ih h
      exact ⟨List.mem_cons_of_mem _ h1, h2⟩

/-- The index returned by `dpll_find_unset` is the first visited index holding
`PL_UNDEFINED`, when there is one. -/
theorem dpll_find_unset_loop_spec (dpll : PL_DPLL) (idx : List Nat)
    (h : ∃ i ∈ idx, dpll.interpretation.dictionary i = PL_UNDEFINED) :
    dpll_find_unset_loop dpll idx ∈ idx ∧
      dpll.interpretation.dictionary (dpll_find_unset_loop dpll idx) = PL_UNDEFINED := by
  induction idx with
  | nil => obtain ⟨i, hi, _⟩ := h; cases hi
  | cons j rest ih =>
    by_cases hj : dpll.interpretation.dictionary j = PL_UNDEFINED
    · have e : dpll_find_unset_loop dpll (j :: rest) = j := by
        simp [dpll_find_unset_loop, hj]
      rw [e]
      exact ⟨List.mem_cons_self _ _, hj⟩
    · have e : dpll_find_unset_loop dpll (j :: rest) = dpll_find_unset_loop dpll rest := by
        simp [dpll_find_unset_loop, hj]
      rw [e]
      obtain ⟨i, hi, hu⟩ := h
      rcases List.mem_cons.mp hi with rfl | hi
      · exact absurd hu hj
      · obtain ⟨h1, h2⟩ := ih ⟨i, hi, hu⟩
        exact ⟨List.mem_cons_of_mem _ h1, h2⟩

/-- Without any `PL_UNDEFINED` entry among the visited indices, `dpll_find_unset`
falls through to the character `0`. -/
theorem dpll_find_unset_loop_none (dpll : PL_DPLL) (idx : List Nat)
    (h : ∀ i ∈ idx, dpll.interpretation.dictionary i ≠ PL_UNDEFINED) :
    dpll_find_unset_loop dpll idx = 0 := by
  induction idx with
  | nil => rfl
  | cons j rest ih =>
    have hj := h j (List.mem_cons_self _ _)
    simp only [dpll_find_unset_loop, hj, if_false]
    exact ih (fun i hi => h i (List.mem_cons_of_mem _ hi))

/-! ## Undefined entries -/

theorem lit_satisfied_cases (l : PL_LITERAL) (inter : PL_INTERPRETATION)
    (h : inter.dictionary (u8 l.var) ≤ PL_UNDEFINED) :
    lit_satisfied l inter = PL_TRUE ∨ lit_satisfied l inter = PL_FALSE ∨
      inter.dictionary (u8 l.var) = PL_UNDEFINED := by
  unfold lit_satisfied
  simp only
  generalize inter.dictionary (u8 l.var) = x at h
  have hx : x = 0 ∨ x = 1 ∨ x = 2 := by unfold PL_UNDEFINED at h; omega
  rcases hx with rfl | rfl | rfl
  · by_cases hn : l.negated = 0 <;> simp [hn]
  · by_cases hn : l.negated = 0 <;> simp [hn]
  · simp

/-- When the formula evaluates neither `PL_TRUE` nor `PL_FALSE` under a
three-valued interpretation, some literal of the formula has a `PL_UNDEFINED`
variable. -/
theorem undefined_of_not_decided (conj : PL_CONJUNCTION) (inter : PL_INTERPRETATION)
    (ht : ternary inter) (hr : vars_in_range conj)
    (h1 : pl_is_satisfied conj inter ≠ PL_TRUE) (h0 : pl_is_satisfied conj inter ≠ PL_FALSE) :
    ∃ i ∈ List.range PL_MAX_VARS, inter.dictionary i = PL_UNDEFINED := by
  unfold pl_is_satisfied at h1 h0
  obtain ⟨d, hd, hv⟩ := pl_is_satisfied_loop_ne_true inter conj.disjunctions h1
  rw [← hv] at h0 h1
  unfold disj_satisfied at h0 h1
  obtain ⟨l, hl, hlv⟩ := disj_satisfied_loop_ne_false inter d.literals h0
  have hlt := hr d hd l hl
  have e := u8_of_lt hlt
  rcases lit_satisfied_cases l inter (by rw [e]; exact ht _ hlt) with h | h | h
  · exact absurd (hlv ▸ h) h1
  · exact absurd (hlv ▸ h) h0
  · exact ⟨l.var, List.mem_range.mpr hlt, e ▸ h⟩

theorem filter_length_le (p q : Nat → Bool) (L : List Nat)
    (hpq : ∀ x, q x = true → p x = true) :
    (L.filter q).length ≤ (L.filter p).length := by
  induction L with
  | nil => simp
  | cons x rest ih =>
    by_cases hq : q x = true
    · have hp := hpq x hq
      simp only [List.filter_cons, hq, hp, if_true, List.length_cons]
      omega
    · by_cases hp : p x = true
      · simp only [List.filter_cons, hq, hp, if_true, List.length_cons]
        simp only [Bool.false_eq_true, ↓reduceIte]
        omega
      · simp only [List.filter_cons, hq, hp]
        simpa using ih

theorem filter_length_lt (p q : Nat → Bool) (L : List Nat)
    (hpq : ∀ x, q x = true → p x = true) (i : Nat) (hi : i ∈ L)
    (hp : p i = true) (hq : q i = false) :
    (L.filter q).length < (L.filter p).length := by
  induction L with
  | nil => cases hi
  | cons x rest ih =>
    have hle := filter_length_le p q rest hpq
    rcases List.mem_cons.mp hi with rfl | hi
    · simp only [List.filter_cons, hq, hp, if_true, List.length_cons]
      simp only [Bool.false_eq_true, ↓reduceIte]
      omega
    · have := ih hi
      by_cases hqx : q x = true
      · have hpx := hpq x hqx
        simp only [List.filter_cons, hqx, hpx, if_true, List.length_cons]
        omega
      · by_cases hpx : p x = true
        · simp only [List.filter_cons, hqx, hpx, if_true, List.length_cons]
          simp only [Bool.false_eq_true, ↓reduceIte]
          omega
        · simp only [List.filter_cons, hqx, hpx]
          simpa using this

/-- Storing a truth value at an index that held `PL_UNDEFINED` strictly lowers the
number of `PL_UNDEFINED` entries. -/
theorem count_undefined_set_lt (inter : PL_INTERPRETATION) (i v : Nat)
    (hi : i < PL_MAX_VARS) (hu : inter.dictionary i = PL_UNDEFINED) (hv : v ≠ PL_UNDEFINED) :
    count_undefined (inter.set i v) < count_undefined inter := by
  unfold count_undefined
  apply filter_length_lt _ _ _ _ i (List.mem_range.mpr hi)
  · simp [hu]
  · simp [set_dictionary, hv]
  · intro x hx
    by_cases hxi : x = i
    · subst hxi; simp [hu]
    · simpa [set_dictionary, hxi] using hx

theorem count_undefined_le (inter : PL_INTERPRETATION) :
    count_undefined inter ≤ PL_MAX_VARS := by
  unfold count_undefined
  calc ((List.range PL_MAX_VARS).filter _).length
      ≤ (List.range PL_MAX_VARS).length := List.length_filter_le _ _
    _ = PL_MAX_VARS := List.length_range _

theorem ternary_set (inter : PL_INTERPRETATION) (i v : Nat) (ht : ternary inter)
    (hv : v ≤ PL_UNDEFINED) : ternary (inter.set i v) := by
  intro j hj
  by_cases hji : j = i
  · simp [set_dictionary, hji, hv]
  · simpa [set_dictionary, hji] using ht j hj

/-! ## The recursion of `dpll_try` and `dpll_step` -/

theorem dpll_step_zero (dpll : PL_DPLL) : dpll_step 0 dpll = none := rfl

theorem dpll_step_succ (fuel : Nat) (dpll : PL_DPLL) :
    dpll_step (fuel + 1) dpll =
      if pl_is_satisfied dpll.conjunction dpll.interpretation = PL_TRUE then some (1, dpll)
      else if pl_is_satisfied dpll.conjunction dpll.interpretation = PL_FALSE then some (0, dpll)
      else
        match dpll_find_unit dpll with
        | some literal =>
          dpll_try (dpll_step fuel) dpll literal.var
            (if literal.negated ≠ 0 then PL_FALSE else PL_TRUE)
        | none =>
          match dpll_find_pure dpll with
          | some literal =>
            dpll_try (dpll_step fuel) dpll literal.var
              (if literal.negated ≠ 0 then PL_FALSE else PL_TRUE)
          | none =>
            match dpll_try (dpll_step fuel) dpll (dpll_find_unset dpll) PL_TRUE with
            | none => none
            | some (r, dpll1) =>
              if r ≠ 0 then some (1, dpll1)
              else dpll_try (dpll_step fuel) dpll1 (dpll_find_unset dpll) PL_FALSE := rfl

theorem dpll_try_eq (step : PL_DPLL → Option (Nat × PL_DPLL)) (dpll : PL_DPLL)
    (var value : Nat) :
    dpll_try step dpll var value =
      match step (dpll.assign (u32 var) value) with
      | none => none
      | some (r, dpll1) =>
        if r ≠ 0 then some (1, dpll1)
        else some (0, dpll1.assign (u32 var) PL_UNDEFINED) := rfl

/-- A returning `dpll_try` returns 0 or 1, keeps the formula, and returns 1 only
with an interpretation under which the formula evaluates `PL_TRUE`, provided the
recursive call does. -/
theorem dpll_try_sound (step : PL_DPLL → Option (Nat × PL_DPLL))
    (hstep : ∀ d r d1, step d = some (r, d1) →
      (r = 0 ∨ r = 1) ∧ d1.conjunction = d.conjunction ∧
        (r ≠ 0 → pl_is_satisfied d.conjunction d1.interpretation = PL_TRUE))
    (dpll : PL_DPLL) (var value r : Nat) (d1 : PL_DPLL)
    (h : dpll_try step dpll var value = some (r, d1)) :
    (r = 0 ∨ r = 1) ∧ d1.conjunction = dpll.conjunction ∧
      (r ≠ 0 → pl_is_satisfied dpll.conjunction d1.interpretation = PL_TRUE) := by
  rw [dpll_try_eq] at h
  cases hs : step (dpll.assign (u32 var) value) with
  | none => simp [hs] at h
  | some out =>
    obtain ⟨r2, d2⟩ := out
    obtain ⟨_, hc, hsat⟩ := hstep _ _ _ hs
    rw [assign_conjunction] at hc hsat
    simp only [hs] at h
    by_cases hr : r2 = 0
    · simp only [hr, ne_eq, not_true_eq_false, if_false, Option.some.injEq, Prod.mk.injEq] at h
      obtain ⟨h1, h2⟩ := h
      subst h1 h2
      exact ⟨Or.inl rfl, by rw [assign_conjunction]; exact hc, fun hne => absurd rfl hne⟩
    · simp only [ne_eq, hr, not_false_eq_true, if_true, Option.some.injEq, Prod.mk.injEq] at h
      obtain ⟨h1, h2⟩ := h
      subst h1 h2
      exact ⟨Or.inr rfl, hc, fun _ => hsat hr⟩

/-- A returning `dpll_step` returns 0 or 1, keeps the formula, and returns 1 only
with an interpretation under which the formula evaluates `PL_TRUE`. -/
theorem dpll_step_sound : ∀ (fuel : Nat) (d : PL_DPLL) (r : Nat) (d1 : PL_DPLL),
    dpll_step fuel d = some (r, d1) →
    (r = 0 ∨ r = 1) ∧ d1.conjunction = d.conjunction ∧
      (r ≠ 0 → pl_is_satisfied d.conjunction d1.interpretation = PL_TRUE) := by
  intro fuel
  induction fuel with
  | zero => intro d r d1 h; simp [dpll_step_zero] at h
  | succ fuel ih =>
    intro d r d1 h
    rw [dpll_step_succ] at h
    by_cases h1 : pl_is_satisfied d.conjunction d.interpretation = PL_TRUE
    · simp only [h1, if_true, Option.some.injEq, Prod.mk.injEq] at h
      obtain ⟨e1, e2⟩ := h
      subst e1 e2
      exact ⟨Or.inr rfl, rfl, fun _ => h1⟩
    · by_cases h0 : pl_is_satisfied d.conjunction d.interpretation = PL_FALSE
      · rw [if_neg h1, if_pos h0] at h
        simp only [Option.some.injEq, Prod.mk.injEq] at h
        obtain ⟨e1, e2⟩ := h
        subst e1 e2
        exact ⟨Or.inl rfl, rfl, fun hne => absurd rfl hne⟩
      · rw [if_neg h1, if_neg h0] at h
        cases hu : dpll_find_unit d with
        | some l =>
          simp only [hu] at h
          exact dpll_try_sound _ ih _ _ _ _ _ h
        | none =>
          simp only [hu] at h
          cases hp : dpll_find_pure d with
          | some l =>
            simp only [hp] at h
            exact dpll_try_sound _ ih _ _ _ _ _ h
          | none =>
            simp only [hp] at h
            cases ht : dpll_try (dpll_step fuel) d (dpll_find_unset d) PL_TRUE with
            | none => simp [ht] at h
            | some out =>
              obtain ⟨r2, d2⟩ := out
              obtain ⟨_, hc, hsat⟩ := dpll_try_sound _ ih _ _ _ _ _ ht
              simp only [ht] at h
              by_cases hr : r2 = 0
              · simp only [hr, ne_eq, not_true_eq_false, if_false] at h
                obtain ⟨k1, k2, k3⟩ := dpll_try_sound _ ih _ _ _ _ _ h
                rw [hc] at k2 k3
                exact ⟨k1, k2, k3⟩
              · simp only [ne_eq, hr, not_false_eq_true, if_true, Option.some.injEq,
                  Prod.mk.injEq] at h
                obtain ⟨e1, e2⟩ := h
                subst e1 e2
                exact ⟨Or.inr rfl, hc, fun _ => hsat hr⟩

/-- A failing `dpll_try` on a variable that held `PL_UNDEFINED` leaves the working
set as it was, provided a failing recursive call does. -/
theorem dpll_try_restores (step : PL_DPLL → Option (Nat × PL_DPLL))
    (hstep : ∀ d d1, ternary d.interpretation → vars_in_range d.conjunction →
      step d = some (0, d1) → d1 = d)
    (dpll : PL_DPLL) (var value : Nat) (d1 : PL_DPLL)
    (ht : ternary dpll.interpretation) (hr : vars_in_range dpll.conjunction)
    (hv : value ≤ PL_UNDEFINED)
    (hu : dpll.interpretation.dictionary (u32 var) = PL_UNDEFINED)
    (h : dpll_try step dpll var value = some (0, d1)) : d1 = dpll := by
  rw [dpll_try_eq] at h
  cases hs : step (dpll.assign (u32 var) value) with
  | none => simp [hs] at h
  | some out =>
    obtain ⟨r2, d2⟩ := out
    simp only [hs] at h
    by_cases hr2 : r2 = 0
    · subst hr2
      simp only [ne_eq, not_true_eq_false, if_false, Option.some.injEq, Prod.mk.injEq,
        true_and] at h
      have e := hstep (dpll.assign (u32 var) value) d2 (ternary_set _ _ _ ht hv) hr hs
      rw [← h, e]
      exact assign_assign_undefined dpll _ _ hu
    · simp [hr2] at h

/-- A failing `dpll_step` leaves the working set as it was. -/
theorem dpll_step_restores : ∀ (fuel : Nat) (d d1 : PL_DPLL),
    ternary d.interpretation → vars_in_range d.conjunction →
    dpll_step fuel d = some (0, d1) → d1 = d := by
  intro fuel
  induction fuel with
  | zero => intro d d1 _ _ h; simp [dpll_step_zero] at h
  | succ fuel ih =>
    intro d d1 ht hr h
    rw [dpll_step_succ] at h
    by_cases h1 : pl_is_satisfied d.conjunction d.interpretation = PL_TRUE
    · simp [h1] at h
    · by_cases h0 : pl_is_satisfied d.conjunction d.interpretation = PL_FALSE
      · rw [if_neg h1, if_pos h0] at h
        simp only [Option.some.injEq, Prod.mk.injEq, true_and] at h
        exact h.symm
      · rw [if_neg h1, if_neg h0] at h
        have hval : ∀ l : PL_LITERAL, (if l.negated ≠ 0 then PL_FALSE else PL_TRUE) ≤ PL_UNDEFINED := by
          intro l; split <;> decide
        cases hu : dpll_find_unit d with
        | some l =>
          simp only [hu] at h
          obtain ⟨c, hc, hl, hud⟩ := dpll_find_unit_loop_some _ _ _ hu
          have hlt := hr c hc l hl
          rw [u8_of_lt hlt] at hud
          exact dpll_try_restores _ ih d _ _ d1 ht hr (hval l) (by rw [u32_of_lt hlt]; exact hud) h
        | none =>
          simp only [hu] at h
          cases hp : dpll_find_pure d with
          | some l =>
            simp only [hp] at h
            obtain ⟨hmem, hud, _⟩ := dpll_find_pure_loop_some _ _ _ hp
            have hlt := List.mem_range.mp hmem
            exact dpll_try_restores _ ih d _ _ d1 ht hr (hval l)
              (by rw [u32_of_lt hlt]; exact hud) h
          | none =>
            simp only [hp] at h
            obtain ⟨hmem, hud⟩ := dpll_find_unset_loop_spec d _
              (undefined_of_not_decided _ _ ht hr h1 h0)
            have hlt := List.mem_range.mp hmem
            have hud2 : d.interpretation.dictionary (u32 (dpll_find_unset d)) = PL_UNDEFINED := by
              unfold dpll_find_unset
              rw [u32_of_lt hlt]; exact hud
            cases htry : dpll_try (dpll_step fuel) d (dpll_find_unset d) PL_TRUE with
            | none => simp [htry] at h
            | some out =>
              obtain ⟨r2, d2⟩ := out
              simp only [htry] at h
              by_cases hr2 : r2 = 0
              · subst hr2
                simp only [ne_eq, not_true_eq_false, if_false] at h
                have e := dpll_try_restores _ ih d _ _ d2 ht hr (by decide) hud2 htry
                subst e
                exact dpll_try_restores _ ih d2 _ _ d1 ht hr (by decide) hud2 h
              · simp [hr2] at h

/-- A returning `dpll_try` keeps every entry three-valued, provided the recursive
call does. -/
theorem dpll_try_ternary (step : PL_DPLL → Option (Nat × PL_DPLL))
    (hstep : ∀ d r d1, ternary d.interpretation → step d = some (r, d1) →
      ternary d1.interpretation)
    (dpll : PL_DPLL) (var value r : Nat) (d1 : PL_DPLL)
    (ht : ternary dpll.interpretation) (hv : value ≤ PL_UNDEFINED)
    (h : dpll_try step dpll var value = some (r, d1)) : ternary d1.interpretation := by
  rw [dpll_try_eq] at h
  cases hs : step (dpll.assign (u32 var) value) with
  | none => simp [hs] at h
  | some out =>
    obtain ⟨r2, d2⟩ := out
    have t2 := hstep (dpll.assign (u32 var) value) r2 d2 (ternary_set _ _ _ ht hv) hs
    simp only [hs] at h
    by_cases hr : r2 = 0
    · simp only [hr, ne_eq, not_true_eq_false, if_false, Option.some.injEq, Prod.mk.injEq] at h
      rw [← h.2]
      exact ternary_set _ _ _ t2 (le_refl _)
    · simp only [ne_eq, hr, not_false_eq_true, if_true, Option.some.injEq, Prod.mk.injEq] at h
      rw [← h.2]
      exact t2

/-- A returning `dpll_step` keeps every entry three-valued. -/
theorem dpll_step_ternary : ∀ (fuel : Nat) (d : PL_DPLL) (r : Nat) (d1 : PL_DPLL),
    ternary d.interpretation → dpll_step fuel d = some (r, d1) →
    ternary d1.interpretation := by
  intro fuel
  induction fuel with
  | zero => intro d r d1 _ h; simp [dpll_step_zero] at h
  | succ fuel ih =>
    intro d r d1 ht h
    have hval : ∀ l : PL_LITERAL,
        (if l.negated ≠ 0 then PL_FALSE else PL_TRUE) ≤ PL_UNDEFINED := by
      intro l; split <;> decide
    rw [dpll_step_succ] at h
    by_cases h1 : pl_is_satisfied d.conjunction d.interpretation = PL_TRUE
    · rw [if_pos h1] at h
      simp only [Option.some.injEq, Prod.mk.injEq] at h
      rw [← h.2]; exact ht
    · by_cases h0 : pl_is_satisfied d.conjunction d.interpretation = PL_FALSE
      · rw [if_neg h1, if_pos h0] at h
        simp only [Option.some.injEq, Prod.mk.injEq] at h
        rw [← h.2]; exact ht
      · rw [if_neg h1, if_neg h0] at h
        cases hu : dpll_find_unit d with
        | some l =>
          simp only [hu] at h
          exact dpll_try_ternary _ ih d _ _ r d1 ht (hval l) h
        | none =>
          simp only [hu] at h
          cases hp : dpll_find_pure d with
          | some l =>
            simp only [hp] at h
            exact dpll_try_ternary _ ih d _ _ r d1 ht (hval l) h
          | none =>
            simp only [hp] at h
            cases htry : dpll_try (dpll_step fuel) d (dpll_find_unset d) PL_TRUE with
            | none => simp [htry] at h
            | some out =>
              obtain ⟨r2, d2⟩ := out
              have t2 := dpll_try_ternary _ ih d _ _ r2 d2 ht (by decide) htry
              simp only [htry] at h
              by_cases hr2 : r2 = 0
              · simp only [hr2, ne_eq, not_true_eq_false, if_false] at h
                exact dpll_try_ternary _ ih d2 _ _ r d1 t2 (by decide) h
              · simp only [ne_eq, hr2, not_false_eq_true, if_true, Option.some.injEq,
                  Prod.mk.injEq] at h
                rw [← h.2]; exact t2

/-- The call `dpll_try` returns when the recursive call returns on every working
set with fewer `PL_UNDEFINED` entries. -/
theorem dpll_try_returns (step : PL_DPLL → Option (Nat × PL_DPLL)) (fuel : Nat)
    (hstep : ∀ d, ternary d.interpretation → vars_in_range d.conjunction →
      count_undefined d.interpretation < fuel → ∃ out, step d = some out)
    (dpll : PL_DPLL) (var value : Nat)
    (ht : ternary dpll.interpretation) (hr : vars_in_range dpll.conjunction)
    (hv : value ≤ PL_UNDEFINED) (hne : value ≠ PL_UNDEFINED)
    (hlt : u32 var < PL_MAX_VARS)
    (hu : dpll.interpretation.dictionary (u32 var) = PL_UNDEFINED)
    (hc : count_undefined dpll.interpretation < fuel + 1) :
    ∃ out, dpll_try step dpll var value = some out := by
  have hdec := count_undefined_set_lt dpll.interpretation (u32 var) value hlt hu hne
  obtain ⟨out, hs⟩ := hstep (dpll.assign (u32 var) value) (ternary_set _ _ _ ht hv) hr
    (by rw [assign_interpretation]; omega)
  obtain ⟨r2, d2⟩ := out
  rw [dpll_try_eq, hs]
  by_cases hr2 : r2 = 0
  · exact ⟨(0, d2.assign (u32 var) PL_UNDEFINED), by simp [hr2]⟩
  · exact ⟨(1, d2), by simp [hr2]⟩

/-- The call `dpll_step` returns as soon as the recursion bound exceeds the number
of `PL_UNDEFINED` entries. -/
theorem dpll_step_returns : ∀ (fuel : Nat) (d : PL_DPLL),
    ternary d.interpretation → vars_in_range d.conjunction →
    count_undefined d.interpretation < fuel → ∃ out, dpll_step fuel d = some out := by
  intro fuel
  induction fuel with
  | zero => intro d _ _ h; exact absurd h (Nat.not_lt_zero _)
  | succ fuel ih =>
    intro d ht hr hc
    have hval : ∀ l : PL_LITERAL,
        (if l.negated ≠ 0 then PL_FALSE else PL_TRUE) ≤ PL_UNDEFINED ∧
        (if l.negated ≠ 0 then PL_FALSE else PL_TRUE) ≠ PL_UNDEFINED := by
      intro l; split <;> decide
    rw [dpll_step_succ]
    by_cases h1 : pl_is_satisfied d.conjunction d.interpretation = PL_TRUE
    · rw [if_pos h1]; exact ⟨_, rfl⟩
    · by_cases h0 : pl_is_satisfied d.conjunction d.interpretation = PL_FALSE
      · rw [if_neg h1, if_pos h0]; exact ⟨_, rfl⟩
      · rw [if_neg h1, if_neg h0]
        cases hu : dpll_find_unit d with
        | some l =>
          simp only []
          obtain ⟨c, hcm, hl, hud⟩ := dpll_find_unit_loop_some _ _ _ hu
          have hlt := hr c hcm l hl
          rw [u8_of_lt hlt] at hud
          exact dpll_try_returns _ fuel ih d _ _ ht hr (hval l).1 (hval l).2
            (by rw [u32_of_lt hlt]; exact hlt) (by rw [u32_of_lt hlt]; exact hud) hc
        | none =>
          simp only []
          cases hp : dpll_find_pure d with
          | some l =>
            simp only []
            obtain ⟨hmem, hud, _⟩ := dpll_find_pure_loop_some _ _ _ hp
            have hlt := List.mem_range.mp hmem
            exact dpll_try_returns _ fuel ih d _ _ ht hr (hval l).1 (hval l).2
              (by rw [u32_of_lt hlt]; exact hlt) (by rw [u32_of_lt hlt]; exact hud) hc
          | none =>
            simp only []
            obtain ⟨hmem, hud⟩ := dpll_find_unset_loop_spec d _
              (undefined_of_not_decided _ _ ht hr h1 h0)
            have hlt := List.mem_range.mp hmem
            have hlt2 : u32 (dpll_find_unset d) < PL_MAX_VARS := by
              unfold dpll_find_unset
              rw [u32_of_lt hlt]; exact hlt
            have hud2 : d.interpretation.dictionary (u32 (dpll_find_unset d)) = PL_UNDEFINED := by
              unfold dpll_find_unset
              rw [u32_of_lt hlt]; exact hud
            obtain ⟨out, htry⟩ := dpll_try_returns _ fuel ih d (dpll_find_unset d) PL_TRUE ht hr
              (by decide) (by decide) hlt2 hud2 hc
            obtain ⟨r2, d2⟩ := out
            rw [htry]
            by_cases hr2 : r2 = 0
            · subst hr2
              have e := dpll_try_restores _ (dpll_step_restores fuel) d _ _ d2 ht hr
                (by decide) hud2 htry
              subst e
              simp only [ne_eq, not_true_eq_false, if_false]
              exact dpll_try_returns _ fuel ih d2 (dpll_find_unset d2) PL_FALSE ht hr
                (by decide) (by decide) hlt2 hud2 hc
            · exact ⟨(1, d2), by simp [hr2]⟩

/-- The result of `dpll_try` does not depend on the recursion bound once the
recursive call has returned. -/
theorem dpll_try_mono (step1 step2 : PL_DPLL → Option (Nat × PL_DPLL))
    (hstep : ∀ d out, step1 d = some out → step2 d = some out)
    (dpll : PL_DPLL) (var value : Nat) (out : Nat × PL_DPLL)
    (h : dpll_try step1 dpll var value = some out) :
    dpll_try step2 dpll var value = some out := by
  rw [dpll_try_eq] at h ⊢
  cases hs : step1 (dpll.assign (u32 var) value) with
  | none => simp [hs] at h
  | some o =>
    rw [hstep _ _ hs]
    rw [hs] at h
    exact h

/-- The result of `dpll_step` does not depend on the recursion bound once it has
returned. -/
theorem dpll_step_mono : ∀ (fuel : Nat) (d : PL_DPLL) (out : Nat × PL_DPLL),
    dpll_step fuel d = some out → dpll_step (fuel + 1) d = some out := by
  intro fuel
  induction fuel with
  | zero => intro d out h; simp [dpll_step_zero] at h
  | succ fuel ih =>
    intro d out h
    rw [dpll_step_succ] at h ⊢
    by_cases h1 : pl_is_satisfied d.conjunction d.interpretation = PL_TRUE
    · rw [if_pos h1] at h ⊢; exact h
    · by_cases h0 : pl_is_satisfied d.conjunction d.interpretation = PL_FALSE
      · rw [if_neg h1, if_pos h0] at h ⊢; exact h
      · rw [if_neg h1, if_neg h0] at h ⊢
        cases hu : dpll_find_unit d with
        | some l =>
          simp only [hu] at h ⊢
          exact dpll_try_mono _ _ ih _ _ _ _ h
        | none =>
          simp only [hu] at h ⊢
          cases hp : dpll_find_pure d with
          | some l =>
            simp only [hp] at h ⊢
            exact dpll_try_mono _ _ ih _ _ _ _ h
          | none =>
            simp only [hp] at h ⊢
            cases htry : dpll_try (dpll_step fuel) d (dpll_find_unset d) PL_TRUE with
            | none => simp [htry] at h
            | some o =>
              obtain ⟨r2, d2⟩ := o
              rw [dpll_try_mono _ _ ih _ _ _ _ htry]
              simp only [htry] at h
              simp only []
              by_cases hr2 : r2 = 0
              · simp only [hr2, ne_eq, not_true_eq_false, if_false] at h ⊢
                exact dpll_try_mono _ _ ih _ _ _ _ h
              · simp only [ne_eq, hr2, not_false_eq_true, if_true] at h ⊢
                exact h

theorem dpll_step_mono_le (fuel1 fuel2 : Nat) (hle : fuel1 ≤ fuel2) (d : PL_DPLL)
    (out : Nat × PL_DPLL) (h : dpll_step fuel1 d = some out) :
    dpll_step fuel2 d = some out := by
  induction hle with
  | refl => exact h
  | step _ ih => exact dpll_step_mono _ _ _ ih

/-! ## The initial interpretation of `pl_dpll` -/

theorem fill_literals_undefined (ls : List PL_LITERAL) :
    ∀ r : PL_INTERPRETATION, (∀ j, r.dictionary j = PL_UNDEFINED) →
      ∀ j, (fill_literals PL_UNDEFINED ls r).dictionary j = PL_UNDEFINED := by
  induction ls with
  | nil => intro r h; exact h
  | cons l rest ih =>
    intro r h
    apply ih
    intro j
    by_cases hj : j = u8 l.var
    · simp [set_dictionary, hj]
    · simp [set_dictionary, hj, h j]

theorem fill_disjunctions_undefined (ds : List PL_DISJUNCTION) :
    ∀ r : PL_INTERPRETATION, (∀ j, r.dictionary j = PL_UNDEFINED) →
      ∀ j, (fill_disjunctions PL_UNDEFINED ds r).dictionary j = PL_UNDEFINED := by
  induction ds with
  | nil => intro r h; exact h
  | cons d rest ih =>
    intro r h
    exact ih _ (fill_literals_undefined d.literals r h)

/-- The interpretation `pl_dpll` starts from holds `PL_UNDEFINED` everywhere. -/
theorem pl_create_interpretation_undefined (c : PL_CONJUNCTION) (j : Nat) :
    (pl_create_interpretation c PL_UNDEFINED).dictionary j = PL_UNDEFINED :=
  fill_disjunctions_undefined c.disjunctions _ (fun _ => rfl) j

theorem pl_create_interpretation_ternary (c : PL_CONJUNCTION) :
    ternary (pl_create_interpretation c PL_UNDEFINED) := by
  intro j _
  rw [pl_create_interpretation_undefined]

theorem pl_dpll_init_conjunction (conj : PL_CONJUNCTION) :
    (pl_dpll_init conj).conjunction = conj := rfl

theorem pl_dpll_init_interpretation (conj : PL_CONJUNCTION) :
    (pl_dpll_init conj).interpretation = pl_create_interpretation conj PL_UNDEFINED := rfl

theorem pl_dpll_init_ternary (conj : PL_CONJUNCTION) :
    ternary (pl_dpll_init conj).interpretation :=
  pl_create_interpretation_ternary conj

theorem pl_dpll_eq (fuel : Nat) (conj : PL_CONJUNCTION) :
    pl_dpll fuel conj =
      match dpll_step fuel (pl_dpll_init conj) with
      | none => none
      | some (r, d1) => if r ≠ 0 then some (some d1.interpretation) else some none := rfl

/-- An interpretation under which the formula evaluates `PL_TRUE` gives a
two-valued assignment with a true literal in every clause. -/
theorem satisfiable_of_pl_is_satisfied (conj : PL_CONJUNCTION) (inter : PL_INTERPRETATION)
    (h : pl_is_satisfied conj inter = PL_TRUE) :
    satisfies (fun v => decide (inter.dictionary (u8 v) = PL_TRUE)) conj := by
  intro d hd
  have hdt := pl_is_satisfied_loop_true inter conj.disjunctions h d hd
  unfold disj_satisfied at hdt
  obtain ⟨l, hl, hlv⟩ := disj_satisfied_loop_ne_false inter d.literals (by rw [hdt]; decide)
  rw [hdt] at hlv
  refine ⟨l, hl, ?_⟩
  obtain ⟨_, h2⟩ := lit_satisfied_true l inter hlv
  unfold lit_true
  by_cases hn : l.negated = 0
  · simpa [hn] using h2
  · simpa [hn] using h2

/-- With a recursion bound above 128, `pl_dpll` returns. -/
theorem pl_dpll_returns (conj : PL_CONJUNCTION) (hr : vars_in_range conj) (fuel : Nat)
    (hf : PL_MAX_VARS < fuel) : ∃ r, pl_dpll fuel conj = some r := by
  obtain ⟨out, hs⟩ := dpll_step_returns fuel (pl_dpll_init conj) (pl_dpll_init_ternary conj)
    hr (lt_of_le_of_lt (count_undefined_le _) hf)
  obtain ⟨r, d1⟩ := out
  rw [pl_dpll_eq, hs]
  by_cases h0 : r = 0
  · exact ⟨none, by simp [h0]⟩
  · exact ⟨some d1.interpretation, by simp [h0]⟩

/-- An interpretation returned by `pl_dpll` comes from a call of `dpll_step` on
the initial working set that returned a nonzero flag. -/
theorem pl_dpll_some (conj : PL_CONJUNCTION) (fuel : Nat) (inter : PL_INTERPRETATION)
    (h : pl_dpll fuel conj = some (some inter)) :
    ∃ r d1, dpll_step fuel (pl_dpll_init conj) = some (r, d1) ∧ r ≠ 0 ∧
      d1.interpretation = inter := by
  rw [pl_dpll_eq] at h
  cases hs : dpll_step fuel (pl_dpll_init conj) with
  | none => simp [hs] at h
  | some out =>
    obtain ⟨r, d1⟩ := out
    simp only [hs] at h
    by_cases h0 : r = 0
    · simp [h0] at h
    · simp only [ne_eq, h0, not_false_eq_true, if_true, Option.some.injEq] at h
      exact ⟨r, d1, rfl, h0, h⟩

/-- An interpretation returned by `pl_dpll` makes the formula evaluate `PL_TRUE`. -/
theorem pl_dpll_result_satisfied (conj : PL_CONJUNCTION) (fuel : Nat)
    (inter : PL_INTERPRETATION) (h : pl_dpll fuel conj = some (some inter)) :
    pl_is_satisfied conj inter = PL_TRUE := by
  obtain ⟨r, d1, hs, h0, hi⟩ := pl_dpll_some conj fuel inter h
  obtain ⟨_, _, hsat⟩ := dpll_step_sound fuel _ r d1 hs
  rw [← hi]
  exact hsat h0

/-- An interpretation returned by `pl_dpll` is three-valued. -/
theorem pl_dpll_result_ternary (conj : PL_CONJUNCTION) (fuel : Nat)
    (inter : PL_INTERPRETATION) (h : pl_dpll fuel conj = some (some inter)) :
    ternary inter := by
  obtain ⟨r, d1, hs, _, hi⟩ := pl_dpll_some conj fuel inter h
  rw [← hi]
  exact dpll_step_ternary fuel _ r d1 (pl_dpll_init_ternary conj) hs

theorem not_satisfiable_conj_A_notA : ¬ satisfiable conj_A_notA := by
  rintro ⟨a, h⟩
  obtain ⟨l1, hl1, t1⟩ := h ⟨[litA]⟩ (by simp [conj_A_notA])
  obtain ⟨l2, hl2, t2⟩ := h ⟨[litNotA]⟩ (by simp [conj_A_notA])
  simp only [List.mem_singleton] at hl1 hl2
  subst hl1 hl2
  simp [lit_true, litA, litNotA] at t1 t2
  rw [t1] at t2
  cases t2

theorem satisfiable_conj_unit_trap : satisfiable conj_unit_trap := by
  refine ⟨fun v => decide (v = 66), ?_⟩
  intro d hd
  simp only [conj_unit_trap, List.mem_cons, List.mem_singleton, List.not_mem_nil, or_false] at hd
  rcases hd with rfl | rfl | rfl
  · exact ⟨litB, by simp, by simp [lit_true, litB]⟩
  · exact ⟨litB, by simp, by simp [lit_true, litB]⟩
  · exact ⟨litNotA, by simp, by simp [lit_true, litNotA]⟩

/-! ## The claims -/

/-- C1 (soundness of `pl_dpll`): for a conjunction whose variables index into
0..127, `pl_dpll` returns once the recursion bound exceeds 128, and whenever it
returns an interpretation, `pl_is_satisfied` of the conjunction under that
interpretation is `PL_TRUE`. -/
theorem pl_dpll_sound (conj : PL_CONJUNCTION) (hr : vars_in_range conj) :
    (∀ fuel, PL_MAX_VARS < fuel → ∃ r, pl_dpll fuel conj = some r) ∧
    (∀ fuel inter, pl_dpll fuel conj = some (some inter) →
      pl_is_satisfied conj inter = PL_TRUE) :=
  ⟨fun fuel hf => pl_dpll_returns conj hr fuel hf,
   fun fuel inter h => pl_dpll_result_satisfied conj fuel inter h⟩

/-- Witness of C1 on the formula `(A)`: the run returns the interpretation with
`A = PL_TRUE`, and the formula evaluates `PL_TRUE` under it. -/
theorem pl_dpll_sound_witness :
    vars_in_range conj_A ∧
    pl_dpll 129 conj_A =
      some (some ((pl_create_interpretation conj_A PL_UNDEFINED).set 65 PL_TRUE)) ∧
    pl_is_satisfied conj_A ((pl_create_interpretation conj_A PL_UNDEFINED).set 65 PL_TRUE)
      = PL_TRUE :=
  ⟨by decide, rfl, (pl_dpll_sound conj_A (by decide)).2 129 _ rfl⟩

/-- C2 (completeness of `pl_dpll`) fails on `(B) ^ (A v B) ^ (~A)`: the formula
has variables in range and is satisfiable (`A` false, `B` true), the sibling
`pl_brute_force` returns an interpretation for it, and `pl_dpll` returns `NULL`. -/
theorem pl_dpll_misses_solution :
    vars_in_range conj_unit_trap ∧ satisfiable conj_unit_trap ∧
    (∃ inter, pl_brute_force 3 conj_unit_trap = some (some inter)) ∧
    (∀ fuel, PL_MAX_VARS < fuel → pl_dpll fuel conj_unit_trap = some none) := by
  refine ⟨by decide, satisfiable_conj_unit_trap, ⟨_, rfl⟩, ?_⟩
  intro fuel hf
  have h3 : ∃ d1, dpll_step 3 (pl_dpll_init conj_unit_trap) = some (0, d1) := ⟨_, rfl⟩
  obtain ⟨d1, h3⟩ := h3
  have hm := dpll_step_mono_le 3 fuel (by unfold PL_MAX_VARS at hf; omega) _ _ h3
  rw [pl_dpll_eq, hm]
  simp

/-- C3 (unsatisfiability verdict): for a conjunction with variables in 0..127 that
no two-valued assignment satisfies, `pl_dpll` returns `NULL` once the recursion
bound exceeds 128. -/
theorem pl_dpll_unsat (conj : PL_CONJUNCTION) (hr : vars_in_range conj)
    (hun : ¬ satisfiable conj) (fuel : Nat) (hf : PL_MAX_VARS < fuel) :
    pl_dpll fuel conj = some none := by
  obtain ⟨r, h⟩ := pl_dpll_returns conj hr fuel hf
  cases r with
  | none => exact h
  | some inter =>
    exact absurd ⟨_, satisfiable_of_pl_is_satisfied conj inter
      (pl_dpll_result_satisfied conj fuel inter h)⟩ hun

/-- Witness of C3 on the formula `(A) ^ (~A)`. -/
theorem pl_dpll_unsat_witness :
    vars_in_range conj_A_notA ∧ ¬ satisfiable conj_A_notA ∧
      pl_dpll 129 conj_A_notA = some none :=
  ⟨by decide, not_satisfiable_conj_A_notA,
   pl_dpll_unsat conj_A_notA (by decide) not_satisfiable_conj_A_notA 129 (by decide)⟩

theorem mem_all_literals (c : PL_CONJUNCTION) (l : PL_LITERAL) :
    l ∈ c.all_literals ↔ ∃ d ∈ c.disjunctions, l ∈ d.literals := by
  unfold PL_CONJUNCTION.all_literals
  simp [List.mem_flatMap]

/-- The scan of a disjunction stops at the first literal that does not evaluate
`PL_FALSE`. -/
theorem disj_satisfied_loop_append (inter : PL_INTERPRETATION) (pre : List PL_LITERAL)
    (l : PL_LITERAL) (post : List PL_LITERAL)
    (hpre : ∀ x ∈ pre, lit_satisfied x inter = PL_FALSE)
    (hl : lit_satisfied l inter ≠ PL_FALSE) :
    disj_satisfied_loop inter (pre ++ l :: post) = lit_satisfied l inter := by
  induction pre with
  | nil => simp [disj_satisfied_loop, hl]
  | cons x rest ih =>
    have hx := hpre x (List.mem_cons_self _ _)
    simp only [List.cons_append, disj_satisfied_loop, hx, ne_eq, not_true_eq_false, if_false]
    exact ih (fun y hy => hpre y (List.mem_cons_of_mem _ hy))

theorem disj_satisfied_loop_all_false (inter : PL_INTERPRETATION) (ls : List PL_LITERAL)
    (h : ∀ x ∈ ls, lit_satisfied x inter = PL_FALSE) :
    disj_satisfied_loop inter ls = PL_FALSE := by
  induction ls with
  | nil => rfl
  | cons x rest ih =>
    have hx := h x (List.mem_cons_self _ _)
    simp only [disj_satisfied_loop, hx, ne_eq, not_true_eq_false, if_false]
    exact ih (fun y hy => h y (List.mem_cons_of_mem _ hy))

/-- A disjunction that does not evaluate `PL_FALSE` splits at the literal that
decided it: everything before evaluates `PL_FALSE`. -/
theorem disj_satisfied_loop_split (inter : PL_INTERPRETATION) (ls : List PL_LITERAL)
    (h : disj_satisfied_loop inter ls ≠ PL_FALSE) :
    ∃ pre l post, ls = pre ++ l :: post ∧ (∀ x ∈ pre, lit_satisfied x inter = PL_FALSE) ∧
      lit_satisfied l inter = disj_satisfied_loop inter ls := by
  induction ls with
  | nil => exact absurd rfl h
  | cons x rest ih =>
    by_cases hx : lit_satisfied x inter = PL_FALSE
    · have e : disj_satisfied_loop inter (x :: rest) = disj_satisfied_loop inter rest := by
        simp [disj_satisfied_loop, hx]
      rw [e] at h ⊢
      obtain ⟨pre, l, post, h1, h2, h3⟩ := ih h
      refine ⟨x :: pre, l, post, by rw [h1]; rfl, ?_, h3⟩
      intro y hy
      rcases List.mem_cons.mp hy with rfl | hy
      · exact hx
      · exact h2 y hy
    · refine ⟨[], x, rest, rfl, ?_, ?_⟩
      · intro y hy; cases hy
      · simp [disj_satisfied_loop, hx]

/-- The scan of a conjunction stops at the first disjunction that does not
evaluate `PL_TRUE`. -/
theorem pl_is_satisfied_loop_append (inter : PL_INTERPRETATION) (pre : List PL_DISJUNCTION)
    (d : PL_DISJUNCTION) (post : List PL_DISJUNCTION)
    (hpre : ∀ x ∈ pre, disj_satisfied x inter = PL_TRUE)
    (hd : disj_satisfied d inter ≠ PL_TRUE) :
    pl_is_satisfied_loop inter (pre ++ d :: post) = disj_satisfied d inter := by
  induction pre with
  | nil => simp [pl_is_satisfied_loop, hd]
  | cons x rest ih =>
    have hx := hpre x (List.mem_cons_self _ _)
    simp only [List.cons_append, pl_is_satisfied_loop, hx, ne_eq, not_true_eq_false, if_false]
    exact ih (fun y hy => hpre y (List.mem_cons_of_mem _ hy))

theorem pl_is_satisfied_loop_all_true (inter : PL_INTERPRETATION) (ds : List PL_DISJUNCTION)
    (h : ∀ x ∈ ds, disj_satisfied x inter = PL_TRUE) :
    pl_is_satisfied_loop inter ds = PL_TRUE := by
  induction ds with
  | nil => rfl
  | cons x rest ih =>
    have hx := h x (List.mem_cons_self _ _)
    simp only [pl_is_satisfied_loop, hx, ne_eq, not_true_eq_false, if_false]
    exact ih (fun y hy => h y (List.mem_cons_of_mem _ hy))

/-- On an increasing index list, `dpll_find_unset` returns an index no larger than
any visited index holding `PL_UNDEFINED`. -/
theorem dpll_find_unset_loop_le (dpll : PL_DPLL) (idx : List Nat)
    (hs : idx.Pairwise (fun a b => a < b)) (i : Nat) (hi : i ∈ idx)
    (hu : dpll.interpretation.dictionary i = PL_UNDEFINED) :
    dpll_find_unset_loop dpll idx ≤ i := by
  induction idx with
  | nil => cases hi
  | cons j rest ih =>
    obtain ⟨hj, hrest⟩ := List.pairwise_cons.mp hs
    by_cases hju : dpll.interpretation.dictionary j = PL_UNDEFINED
    · have e : dpll_find_unset_loop dpll (j :: rest) = j := by
        simp [dpll_find_unset_loop, hju]
      rw [e]
      rcases List.mem_cons.mp hi with rfl | hi
      · exact le_refl _
      · exact le_of_lt (hj i hi)
    · have e : dpll_find_unset_loop dpll (j :: rest) = dpll_find_unset_loop dpll rest := by
        simp [dpll_find_unset_loop, hju]
      rw [e]
      rcases List.mem_cons.mp hi with rfl | hi
      · exact absurd hu hju
      · exact ih hrest hi

/-- The function `dpll_find_unset` returns the lowest index holding `PL_UNDEFINED`. -/
theorem dpll_find_unset_least (dpll : PL_DPLL) (i : Nat) (hi : i < PL_MAX_VARS)
    (hu : dpll.interpretation.dictionary i = PL_UNDEFINED)
    (hmin : ∀ j, j < i → dpll.interpretation.dictionary j ≠ PL_UNDEFINED) :
    dpll_find_unset dpll = i := by
  have hle := dpll_find_unset_loop_le dpll (List.range PL_MAX_VARS) (List.pairwise_lt_range _) i
    (List.mem_range.mpr hi) hu
  obtain ⟨_, h2⟩ := dpll_find_unset_loop_spec dpll (List.range PL_MAX_VARS)
    ⟨i, List.mem_range.mpr hi, hu⟩
  unfold dpll_find_unset
  by_contra hne
  exact hmin _ (lt_of_le_of_ne hle hne) h2

/-- Assigning a truth value to an in-range index that holds `PL_UNDEFINED` lowers
the number of `PL_UNDEFINED` entries of the working set. -/
theorem assign_decreases (d : PL_DPLL) (var : Nat) (hlt : var < PL_MAX_VARS)
    (hu : d.interpretation.dictionary var = PL_UNDEFINED) :
    d.interpretation.dictionary (u32 var) = PL_UNDEFINED ∧
      ∀ value, value ≠ PL_UNDEFINED →
        count_undefined (d.assign (u32 var) value).interpretation
          < count_undefined d.interpretation := by
  rw [u32_of_lt hlt]
  exact ⟨hu, fun value hv => count_undefined_set_lt _ _ _ hlt hu hv⟩

/-- C4 as stated fails on `(A v B)`: `pl_dpll` returns an interpretation in which
the variable of the literal `B` of the formula still holds `PL_UNDEFINED`. -/
theorem pl_dpll_leaves_variable_undefined :
    ∃ inter, pl_dpll 129 conj_AorB = some (some inter) ∧
      litB ∈ conj_AorB.all_literals ∧ inter.dictionary (u8 litB.var) = PL_UNDEFINED :=
  ⟨_, rfl, by decide, rfl⟩

/-- C4 (amended): when `pl_dpll` returns an interpretation for a conjunction with
variables in 0..127, every entry is `PL_FALSE`, `PL_TRUE` or `PL_UNDEFINED`, and
every clause splits at a literal that evaluates `PL_TRUE` whose variable holds
`PL_TRUE` or `PL_FALSE`, every literal before it evaluating `PL_FALSE` over a
variable that holds `PL_TRUE` or `PL_FALSE`; nothing is said of later literals. -/
theorem pl_dpll_result_defined (conj : PL_CONJUNCTION) (hr : vars_in_range conj)
    (fuel : Nat) (inter : PL_INTERPRETATION) (h : pl_dpll fuel conj = some (some inter)) :
    ternary inter ∧
    ∀ d ∈ conj.disjunctions, ∃ pre l post, d.literals = pre ++ l :: post ∧
      lit_satisfied l inter = PL_TRUE ∧
      (∀ x ∈ pre, lit_satisfied x inter = PL_FALSE) ∧
      (∀ x ∈ pre ++ [l], inter.dictionary (u8 x.var) = PL_TRUE ∨
        inter.dictionary (u8 x.var) = PL_FALSE) := by
  have ht := pl_dpll_result_ternary conj fuel inter h
  refine ⟨ht, ?_⟩
  intro d hd
  have hdt := pl_is_satisfied_loop_true inter conj.disjunctions
    (pl_dpll_result_satisfied conj fuel inter h) d hd
  unfold disj_satisfied at hdt
  obtain ⟨pre, l, post, h1, h2, h3⟩ := disj_satisfied_loop_split inter d.literals
    (by rw [hdt]; decide)
  rw [hdt] at h3
  refine ⟨pre, l, post, h1, h3, h2, ?_⟩
  intro x hx
  have hxd : x ∈ d.literals := by
    rw [h1]
    rcases List.mem_append.mp hx with hx | hx
    · exact List.mem_append_left _ hx
    · exact List.mem_append_right _ (by
        rw [List.mem_singleton] at hx; rw [hx]; exact List.mem_cons_self _ _)
  have hxv : lit_satisfied x inter = PL_TRUE ∨ lit_satisfied x inter = PL_FALSE := by
    rcases List.mem_append.mp hx with hx | hx
    · exact Or.inr (h2 x hx)
    · rw [List.mem_singleton] at hx; rw [hx]; exact Or.inl h3
  have hlt := hr d hd x hxd
  have hle := ht (u8 x.var) (by rw [u8_of_lt hlt]; exact hlt)
  have hne : inter.dictionary (u8 x.var) ≠ PL_UNDEFINED := by
    intro hu
    unfold lit_satisfied at hxv
    simp [hu] at hxv
  unfold PL_UNDEFINED at hle hne
  unfold PL_TRUE PL_FALSE
  omega

/-- Witness of amended C4 on the formula `(A v B)`. -/
theorem pl_dpll_result_defined_witness :
    ternary ((pl_create_interpretation conj_AorB PL_UNDEFINED).set 65 PL_TRUE) ∧
    ∀ d ∈ conj_AorB.disjunctions, ∃ pre l post, d.literals = pre ++ l :: post ∧
      lit_satisfied l ((pl_create_interpretation conj_AorB PL_UNDEFINED).set 65 PL_TRUE)
        = PL_TRUE ∧
      (∀ x ∈ pre, lit_satisfied x
        ((pl_create_interpretation conj_AorB PL_UNDEFINED).set 65 PL_TRUE) = PL_FALSE) ∧
      (∀ x ∈ pre ++ [l],
        ((pl_create_interpretation conj_AorB PL_UNDEFINED).set 65 PL_TRUE).dictionary
          (u8 x.var) = PL_TRUE ∨
        ((pl_create_interpretation conj_AorB PL_UNDEFINED).set 65 PL_TRUE).dictionary
          (u8 x.var) = PL_FALSE) :=
  pl_dpll_result_defined conj_AorB (by decide) 129 _ rfl

/-- C5 (state restoration on failure): for a working set whose interpretation is
three-valued and whose conjunction has variables in 0..127, a call of `dpll_step`
that returns 0 leaves the working set, and so each of the 128 entries of the
interpretation, as it was before the call; and a call of `dpll_try` on a variable
below 128 that held `PL_UNDEFINED`, with value `PL_TRUE` or `PL_FALSE`, that
returns 0 leaves the working set as it was before the call. -/
theorem dpll_failure_restores (fuel : Nat) (d d1 : PL_DPLL)
    (ht : ternary d.interpretation) (hr : vars_in_range d.conjunction) :
    (dpll_step fuel d = some (0, d1) →
      d1 = d ∧ ∀ i, i < PL_MAX_VARS →
        d1.interpretation.dictionary i = d.interpretation.dictionary i) ∧
    (∀ var value, var < PL_MAX_VARS → (value = PL_TRUE ∨ value = PL_FALSE) →
      d.interpretation.dictionary var = PL_UNDEFINED →
      dpll_try (dpll_step fuel) d var value = some (0, d1) →
      d1 = d ∧ ∀ i, i < PL_MAX_VARS →
        d1.interpretation.dictionary i = d.interpretation.dictionary i) := by
  constructor
  · intro h
    have e := dpll_step_restores fuel d d1 ht hr h
    subst e
    exact ⟨rfl, fun _ _ => rfl⟩
  · intro var value hlt hv hu h
    have e := dpll_try_restores _ (dpll_step_restores fuel) d var value d1 ht hr
      (by rcases hv with rfl | rfl <;> decide) (by rw [u32_of_lt hlt]; exact hu) h
    subst e
    exact ⟨rfl, fun _ _ => rfl⟩

/-- Witness of C5 on `(A) ^ (~A)`: the unit `A` is tried, the recursive call
fails, and the undone working set is the initial one. -/
theorem dpll_failure_restores_witness :
    dpll_step 2 (pl_dpll_init conj_A_notA) =
      some (0, ((pl_dpll_init conj_A_notA).assign 65 PL_TRUE).assign 65 PL_UNDEFINED) ∧
    ((pl_dpll_init conj_A_notA).assign 65 PL_TRUE).assign 65 PL_UNDEFINED
      = pl_dpll_init conj_A_notA :=
  ⟨rfl, ((dpll_failure_restores 2 (pl_dpll_init conj_A_notA) _
    (pl_dpll_init_ternary conj_A_notA) (by decide)).1 rfl).1⟩

/-- C6 (termination of the search): for a working set whose interpretation is
three-valued and whose conjunction has variables in 0..127, `dpll_step` returns
one and the same result under every recursion bound above the number of
`PL_UNDEFINED` entries; and the variable chosen by the unit search, by the pure
search, or (when the formula evaluates neither `PL_TRUE` nor `PL_FALSE`) by
`dpll_find_unset` holds `PL_UNDEFINED`, so that the working set handed to the
recursive call by `dpll_try` has strictly fewer `PL_UNDEFINED` entries. -/
theorem dpll_step_terminates (d : PL_DPLL)
    (ht : ternary d.interpretation) (hr : vars_in_range d.conjunction) :
    (∃ out, ∀ fuel, count_undefined d.interpretation < fuel → dpll_step fuel d = some out) ∧
    (∀ var,
      ((∃ l, dpll_find_unit d = some l ∧ l.var = var) ∨
       (∃ l, dpll_find_pure d = some l ∧ l.var = var) ∨
       (pl_is_satisfied d.conjunction d.interpretation ≠ PL_TRUE ∧
        pl_is_satisfied d.conjunction d.interpretation ≠ PL_FALSE ∧
        dpll_find_unset d = var)) →
      d.interpretation.dictionary (u32 var) = PL_UNDEFINED ∧
      ∀ value, value ≠ PL_UNDEFINED →
        count_undefined (d.assign (u32 var) value).interpretation
          < count_undefined d.interpretation) := by
  constructor
  · obtain ⟨out, h⟩ := dpll_step_returns (count_undefined d.interpretation + 1) d ht hr
      (Nat.lt_succ_self _)
    exact ⟨out, fun fuel hf => dpll_step_mono_le _ fuel hf d out h⟩
  · rintro var (⟨l, hu, rfl⟩ | ⟨l, hp, rfl⟩ | ⟨h1, h0, rfl⟩)
    · obtain ⟨c, hc, hl, hud⟩ := dpll_find_unit_loop_some _ _ _ hu
      have hlt := hr c hc l hl
      rw [u8_of_lt hlt] at hud
      exact assign_decreases d l.var hlt hud
    · obtain ⟨hmem, hud, _⟩ := dpll_find_pure_loop_some _ _ _ hp
      exact assign_decreases d l.var (List.mem_range.mp hmem) hud
    · obtain ⟨hmem, hud⟩ := dpll_find_unset_loop_spec d _
        (undefined_of_not_decided _ _ ht hr h1 h0)
      exact assign_decreases d _ (List.mem_range.mp hmem) hud

/-- Witness of C6 on the initial working set of `(A) ^ (~A)`. -/
theorem dpll_step_terminates_witness :
    (∃ out, ∀ fuel, count_undefined (pl_dpll_init conj_A_notA).interpretation < fuel →
      dpll_step fuel (pl_dpll_init conj_A_notA) = some out) ∧
    (∀ var,
      ((∃ l, dpll_find_unit (pl_dpll_init conj_A_notA) = some l ∧ l.var = var) ∨
       (∃ l, dpll_find_pure (pl_dpll_init conj_A_notA) = some l ∧ l.var = var) ∨
       (pl_is_satisfied (pl_dpll_init conj_A_notA).conjunction
          (pl_dpll_init conj_A_notA).interpretation ≠ PL_TRUE ∧
        pl_is_satisfied (pl_dpll_init conj_A_notA).conjunction
          (pl_dpll_init conj_A_notA).interpretation ≠ PL_FALSE ∧
        dpll_find_unset (pl_dpll_init conj_A_notA) = var)) →
      (pl_dpll_init conj_A_notA).interpretation.dictionary (u32 var) = PL_UNDEFINED ∧
      ∀ value, value ≠ PL_UNDEFINED →
        count_undefined ((pl_dpll_init conj_A_notA).assign (u32 var) value).interpretation
          < count_undefined (pl_dpll_init conj_A_notA).interpretation) :=
  dpll_step_terminates (pl_dpll_init conj_A_notA) (pl_dpll_init_ternary conj_A_notA)
    (by decide)

set_option maxRecDepth 100000

/-- From the all-`PL_UNDEFINED` start, the run of `pl_dpll` on
`(A v B) ^ (~A v ~B)` returns an interpretation that holds `PL_TRUE` at the index 0,
which is not the variable of any literal of the formula. -/
theorem pl_dpll_assigns_absent_variable :
    (∀ l ∈ conj_xor.all_literals, u8 l.var ≠ 0 ∧ l.var ≠ 0) ∧
    (pl_dpll 129 conj_xor).map (fun r => r.map (fun i => i.dictionary 0))
      = some (some PL_TRUE) :=
  ⟨by decide, by decide⟩

/-- The unit search and the pure-literal search only return literals of the
conjunction, and `dpll_find_unset` returns the lowest index in 0..127 that holds
`PL_UNDEFINED`. -/
theorem dpll_choice_of_variable (d : PL_DPLL) :
    (∀ l, dpll_find_unit d = some l → l ∈ d.conjunction.all_literals) ∧
    (∀ l, dpll_find_pure d = some l → l ∈ d.conjunction.all_literals) ∧
    (∀ i, i < PL_MAX_VARS → d.interpretation.dictionary i = PL_UNDEFINED →
      (∀ j, j < i → d.interpretation.dictionary j ≠ PL_UNDEFINED) →
      dpll_find_unset d = i) := by
  refine ⟨?_, ?_, ?_⟩
  · intro l h
    obtain ⟨c, hc, hl, _⟩ := dpll_find_unit_loop_some _ _ _ h
    exact (mem_all_literals _ _).mpr ⟨c, hc, hl⟩
  · intro l h
    obtain ⟨_, _, c, hc, hl⟩ := dpll_find_pure_loop_some _ _ _ h
    exact (mem_all_literals _ _).mpr ⟨c, hc, hl⟩
  · intro i hi hu hmin
    exact dpll_find_unset_least d i hi hu hmin

/-- C9 (disjunction evaluation): `disj_satisfied` returns the `lit_satisfied` value
of the first literal, in order, whose value is not `PL_FALSE`; it returns
`PL_FALSE` when every literal evaluates `PL_FALSE`; and the disjunction with zero
literals evaluates `PL_FALSE`. -/
theorem disj_satisfied_first_not_false (disj : PL_DISJUNCTION) (inter : PL_INTERPRETATION) :
    (∀ pre l post, disj.literals = pre ++ l :: post →
      (∀ x ∈ pre, lit_satisfied x inter = PL_FALSE) → lit_satisfied l inter ≠ PL_FALSE →
      disj_satisfied disj inter = lit_satisfied l inter) ∧
    ((∀ x ∈ disj.literals, lit_satisfied x inter = PL_FALSE) →
      disj_satisfied disj inter = PL_FALSE) ∧
    disj_satisfied { literals := [] } inter = PL_FALSE := by
  refine ⟨?_, ?_, rfl⟩
  · intro pre l post h hpre hl
    unfold disj_satisfied
    rw [h]
    exact disj_satisfied_loop_append inter pre l post hpre hl
  · intro h
    exact disj_satisfied_loop_all_false inter disj.literals h

/-- C10 (conjunction evaluation): `pl_is_satisfied` returns the `disj_satisfied`
value of the first disjunction, in order, whose value is not `PL_TRUE`; it returns
`PL_TRUE` when every disjunction evaluates `PL_TRUE`; and the conjunction with
zero disjunctions evaluates `PL_TRUE`. -/
theorem pl_is_satisfied_first_not_true (conj : PL_CONJUNCTION) (inter : PL_INTERPRETATION) :
    (∀ pre d post, conj.disjunctions = pre ++ d :: post →
      (∀ x ∈ pre, disj_satisfied x inter = PL_TRUE) → disj_satisfied d inter ≠ PL_TRUE →
      pl_is_satisfied conj inter = disj_satisfied d inter) ∧
    ((∀ x ∈ conj.disjunctions, disj_satisfied x inter = PL_TRUE) →
      pl_is_satisfied conj inter = PL_TRUE) ∧
    pl_is_satisfied { disjunctions := [] } inter = PL_TRUE := by
  refine ⟨?_, ?_, rfl⟩
  · intro pre d post h hpre hd
    unfold pl_is_satisfied
    rw [h]
    exact pl_is_satisfied_loop_append inter pre d post hpre hd
  · intro h
    exact pl_is_satisfied_loop_all_true inter conj.disjunctions h

/-! ## The binary counter of the brute-force solver -/

theorem counter_value_cons_undefined (inter : PL_INTERPRETATION) (i : Nat) (rest : List Nat)
    (h : inter.dictionary i = PL_UNDEFINED) :
    counter_value inter (i :: rest) = counter_value inter rest := by
  simp [counter_value, h]

theorem counter_value_cons_true (inter : PL_INTERPRETATION) (i : Nat) (rest : List Nat)
    (h : inter.dictionary i = PL_TRUE) :
    counter_value inter (i :: rest) = 1 + 2 * counter_value inter rest := by
  simp [counter_value, h]

theorem counter_value_cons_other (inter : PL_INTERPRETATION) (i : Nat) (rest : List Nat)
    (hu : inter.dictionary i ≠ PL_UNDEFINED) (ht : inter.dictionary i ≠ PL_TRUE) :
    counter_value inter (i :: rest) = 2 * counter_value inter rest := by
  simp [counter_value, hu, ht]

theorem counter_width_cons_undefined (inter : PL_INTERPRETATION) (i : Nat) (rest : List Nat)
    (h : inter.dictionary i = PL_UNDEFINED) :
    counter_width inter (i :: rest) = counter_width inter rest := by
  simp [counter_width, h]

theorem counter_width_cons_defined (inter : PL_INTERPRETATION) (i : Nat) (rest : List Nat)
    (h : inter.dictionary i ≠ PL_UNDEFINED) :
    counter_width inter (i :: rest) = counter_width inter rest + 1 := by
  simp [counter_width, h]

theorem counter_value_lt (inter : PL_INTERPRETATION) (idx : List Nat) :
    counter_value inter idx < 2 ^ counter_width inter idx := by
  induction idx with
  | nil => simp [counter_value, counter_width]
  | cons i rest ih =>
    by_cases hu : inter.dictionary i = PL_UNDEFINED
    · rw [counter_value_cons_undefined _ _ _ hu, counter_width_cons_undefined _ _ _ hu]
      exact ih
    · rw [counter_width_cons_defined _ _ _ hu, pow_succ]
      by_cases ht : inter.dictionary i = PL_TRUE
      · rw [counter_value_cons_true _ _ _ ht]; omega
      · rw [counter_value_cons_other _ _ _ hu ht]; omega

theorem counter_value_congr (a b : PL_INTERPRETATION) (idx : List Nat)
    (h : ∀ i ∈ idx, a.dictionary i = b.dictionary i) :
    counter_value a idx = counter_value b idx := by
  induction idx with
  | nil => rfl
  | cons i rest ih =>
    have hi := h i (List.mem_cons_self _ _)
    have hr := ih (fun j hj => h j (List.mem_cons_of_mem _ hj))
    simp only [counter_value, hi, hr]

theorem counter_width_congr (a b : PL_INTERPRETATION) (idx : List Nat)
    (h : ∀ i ∈ idx, (a.dictionary i = PL_UNDEFINED ↔ b.dictionary i = PL_UNDEFINED)) :
    counter_width a idx = counter_width b idx := by
  induction idx with
  | nil => rfl
  | cons i rest ih =>
    have hi := h i (List.mem_cons_self _ _)
    have hr := ih (fun j hj => h j (List.mem_cons_of_mem _ hj))
    by_cases hu : b.dictionary i = PL_UNDEFINED
    · rw [counter_width_cons_undefined _ _ _ hu, counter_width_cons_undefined _ _ _ (hi.mpr hu),
        hr]
    · have hu2 : a.dictionary i ≠ PL_UNDEFINED := fun x => hu (hi.mp x)
      rw [counter_width_cons_defined _ _ _ hu, counter_width_cons_defined _ _ _ hu2, hr]

theorem counter_width_le (inter : PL_INTERPRETATION) (idx : List Nat) :
    counter_width inter idx ≤ idx.length := by
  induction idx with
  | nil => simp [counter_width]
  | cons i rest ih =>
    by_cases hu : inter.dictionary i = PL_UNDEFINED
    · rw [counter_width_cons_undefined _ _ _ hu, List.length_cons]; omega
    · rw [counter_width_cons_defined _ _ _ hu, List.length_cons]; omega

/-- When no listed entry is `PL_TRUE`, the counter reads zero. -/
theorem counter_value_zero (inter : PL_INTERPRETATION) (idx : List Nat)
    (h : ∀ i ∈ idx, inter.dictionary i ≠ PL_TRUE) : counter_value inter idx = 0 := by
  induction idx with
  | nil => rfl
  | cons i rest ih =>
    have hi := h i (List.mem_cons_self _ _)
    have hr := ih (fun j hj => h j (List.mem_cons_of_mem _ hj))
    by_cases hu : inter.dictionary i = PL_UNDEFINED
    · rw [counter_value_cons_undefined _ _ _ hu, hr]
    · rw [counter_value_cons_other _ _ _ hu hi, hr]

/-- Two three-valued interpretations with the same `PL_UNDEFINED` entries and the
same counter reading agree on every listed index. -/
theorem counter_value_inj (a b : PL_INTERPRETATION) (idx : List Nat)
    (ha : ∀ i ∈ idx, a.dictionary i ≤ PL_UNDEFINED)
    (hb : ∀ i ∈ idx, b.dictionary i ≤ PL_UNDEFINED)
    (hs : ∀ i ∈ idx, (a.dictionary i = PL_UNDEFINED ↔ b.dictionary i = PL_UNDEFINED))
    (hv : counter_value a idx = counter_value b idx) :
    ∀ i ∈ idx, a.dictionary i = b.dictionary i := by
  induction idx with
  | nil => intro i hi; cases hi
  | cons j rest ih =>
    have haj := ha j (List.mem_cons_self _ _)
    have hbj := hb j (List.mem_cons_self _ _)
    have hsj := hs j (List.mem_cons_self _ _)
    have ih2 := ih (fun i hi => ha i (List.mem_cons_of_mem _ hi))
      (fun i hi => hb i (List.mem_cons_of_mem _ hi))
      (fun i hi => hs i (List.mem_cons_of_mem _ hi))
    by_cases hu : a.dictionary j = PL_UNDEFINED
    · have hu2 := hsj.mp hu
      rw [counter_value_cons_undefined _ _ _ hu, counter_value_cons_undefined _ _ _ hu2] at hv
      intro i hi
      rcases List.mem_cons.mp hi with rfl | hi
      · rw [hu, hu2]
      · exact ih2 hv i hi
    · have hu2 : b.dictionary j ≠ PL_UNDEFINED := fun x => hu (hsj.mpr x)
      have key : a.dictionary j = b.dictionary j ∧
          counter_value a rest = counter_value b rest := by
        by_cases hta : a.dictionary j = PL_TRUE
        · by_cases htb : b.dictionary j = PL_TRUE
          · rw [counter_value_cons_true _ _ _ hta, counter_value_cons_true _ _ _ htb] at hv
            exact ⟨by rw [hta, htb], by omega⟩
          · rw [counter_value_cons_true _ _ _ hta, counter_value_cons_other _ _ _ hu2 htb] at hv
            omega
        · by_cases htb : b.dictionary j = PL_TRUE
          · rw [counter_value_cons_other _ _ _ hu hta, counter_value_cons_true _ _ _ htb] at hv
            omega
          · rw [counter_value_cons_other _ _ _ hu hta, counter_value_cons_other _ _ _ hu2 htb]
              at hv
            unfold PL_UNDEFINED at haj hbj hu hu2
            unfold PL_TRUE at hta htb
            exact ⟨by omega, by omega⟩
      intro i hi
      rcases List.mem_cons.mp hi with rfl | hi
      · exact key.1
      · exact ih2 key.2 i hi

/-- The function `step_brute_force` adds one to the counter: it returns 0 or 1,
keeps the `PL_UNDEFINED` entries, leaves unlisted indices alone, writes only
`PL_TRUE` or `PL_FALSE`; on 0 the reading went up by one, on 1 every bit was set. -/
theorem step_brute_force_loop_spec (idx : List Nat) (hnd : idx.Nodup) :
    ∀ inter : PL_INTERPRETATION,
      ((step_brute_force_loop idx inter).1 = 0 ∨ (step_brute_force_loop idx inter).1 = 1) ∧
      (∀ j, (step_brute_force_loop idx inter).2.dictionary j = PL_UNDEFINED ↔
        inter.dictionary j = PL_UNDEFINED) ∧
      (∀ j, j ∉ idx → (step_brute_force_loop idx inter).2.dictionary j = inter.dictionary j) ∧
      (∀ j, (step_brute_force_loop idx inter).2.dictionary j = inter.dictionary j ∨
        (step_brute_force_loop idx inter).2.dictionary j = PL_TRUE ∨
        (step_brute_force_loop idx inter).2.dictionary j = PL_FALSE) ∧
      ((step_brute_force_loop idx inter).1 = 0 →
        counter_value (step_brute_force_loop idx inter).2 idx = counter_value inter idx + 1) ∧
      ((step_brute_force_loop idx inter).1 ≠ 0 →
        counter_value inter idx + 1 = 2 ^ counter_width inter idx) := by
  induction idx with
  | nil =>
    intro inter
    simp [step_brute_force_loop, counter_value, counter_width]
  | cons i rest ih =>
    intro inter
    obtain ⟨hi, hrest⟩ := List.nodup_cons.mp hnd
    have hne : ∀ j ∈ rest, j ≠ i := fun j hj hji => hi (hji ▸ hj)
    by_cases hu : inter.dictionary i = PL_UNDEFINED
    · have e : step_brute_force_loop (i :: rest) inter = step_brute_force_loop rest inter := by
        simp [step_brute_force_loop, hu]
      obtain ⟨h1, h2, h3, h4, h5, h6⟩ := ih hrest inter
      rw [e]
      refine ⟨h1, h2, ?_, h4, ?_, ?_⟩
      · intro j hj
        exact h3 j (fun hm => hj (List.mem_cons_of_mem _ hm))
      · intro h0
        have hui := (h2 i).mpr hu
        rw [counter_value_cons_undefined _ _ _ hu, counter_value_cons_undefined _ _ _ hui]
        exact h5 h0
      · intro h0
        rw [counter_value_cons_undefined _ _ _ hu, counter_width_cons_undefined _ _ _ hu]
        exact h6 h0
    · by_cases ht : inter.dictionary i = PL_TRUE
      · have e : step_brute_force_loop (i :: rest) inter =
            step_brute_force_loop rest (inter.set i PL_FALSE) := by
          simp [step_brute_force_loop, hu, ht]
        obtain ⟨h1, h2, h3, h4, h5, h6⟩ := ih hrest (inter.set i PL_FALSE)
        have hout : (step_brute_force_loop rest (inter.set i PL_FALSE)).2.dictionary i
            = PL_FALSE := by
          rw [h3 i hi, set_dictionary_same]
        have hval : counter_value (inter.set i PL_FALSE) rest = counter_value inter rest :=
          counter_value_congr _ _ _ (fun j hj => set_dictionary_other inter _ (hne j hj))
        have hwid : counter_width (inter.set i PL_FALSE) rest = counter_width inter rest :=
          counter_width_congr _ _ _ (fun j hj => by
            rw [set_dictionary_other inter _ (hne j hj)])
        rw [e]
        refine ⟨h1, ?_, ?_, ?_, ?_, ?_⟩
        · intro j
          rw [h2 j]
          by_cases hj : j = i
          · subst hj
            simp [set_dictionary, hu]
          · rw [set_dictionary_other inter _ hj]
        · intro j hj
          have hji : j ≠ i := fun x => hj (x ▸ List.mem_cons_self _ _)
          rw [h3 j (fun hm => hj (List.mem_cons_of_mem _ hm)), set_dictionary_other inter _ hji]
        · intro j
          by_cases hj : j = i
          · subst hj
            exact Or.inr (Or.inr hout)
          · rcases h4 j with h | h | h
            · exact Or.inl (by rw [h, set_dictionary_other inter _ hj])
            · exact Or.inr (Or.inl h)
            · exact Or.inr (Or.inr h)
        · intro h0
          have := h5 h0
          rw [hval] at this
          rw [counter_value_cons_true _ _ _ ht,
            counter_value_cons_other _ _ _ (by rw [hout]; decide) (by rw [hout]; decide)]
          omega
        · intro h0
          have := h6 h0
          rw [hval, hwid] at this
          rw [counter_value_cons_true _ _ _ ht, counter_width_cons_defined _ _ _ hu, pow_succ]
          omega
      · have e : step_brute_force_loop (i :: rest) inter = (0, inter.set i PL_TRUE) := by
          simp [step_brute_force_loop, hu, ht]
        have hval : counter_value (inter.set i PL_TRUE) rest = counter_value inter rest :=
          counter_value_congr _ _ _ (fun j hj => set_dictionary_other inter _ (hne j hj))
        rw [e]
        refine ⟨Or.inl rfl, ?_, ?_, ?_, ?_, ?_⟩
        · intro j
          by_cases hj : j = i
          · subst hj
            simp [set_dictionary, hu]
          · simp only []
            rw [set_dictionary_other inter _ hj]
        · intro j hj
          have hji : j ≠ i := fun x => hj (x ▸ List.mem_cons_self _ _)
          simp only []
          rw [set_dictionary_other inter _ hji]
        · intro j
          by_cases hj : j = i
          · subst hj
            exact Or.inr (Or.inl (set_dictionary_same _ _ _))
          · exact Or.inl (set_dictionary_other inter _ hj)
        · intro _
          simp only []
          rw [counter_value_cons_true _ _ _ (set_dictionary_same _ _ _),
            counter_value_cons_other _ _ _ hu ht, hval]
          omega
        · intro h0
          exact absurd rfl h0

/-! ## The brute-force search -/

theorem lit_satisfied_congr (l : PL_LITERAL) (a b : PL_INTERPRETATION)
    (h : a.dictionary (u8 l.var) = b.dictionary (u8 l.var)) :
    lit_satisfied l a = lit_satisfied l b := by
  unfold lit_satisfied
  rw [h]

theorem disj_satisfied_loop_congr (a b : PL_INTERPRETATION) (ls : List PL_LITERAL)
    (h : ∀ l ∈ ls, a.dictionary (u8 l.var) = b.dictionary (u8 l.var)) :
    disj_satisfied_loop a ls = disj_satisfied_loop b ls := by
  induction ls with
  | nil => rfl
  | cons l rest ih =>
    have hl := lit_satisfied_congr l a b (h l (List.mem_cons_self _ _))
    have hr := ih (fun x hx => h x (List.mem_cons_of_mem _ hx))
    simp only [disj_satisfied_loop, hl, hr]

/-- The verdict of `pl_is_satisfied` depends only on the entries at the variables
of the conjunction. -/
theorem pl_is_satisfied_congr (conj : PL_CONJUNCTION) (a b : PL_INTERPRETATION)
    (h : ∀ d ∈ conj.disjunctions, ∀ l ∈ d.literals,
      a.dictionary (u8 l.var) = b.dictionary (u8 l.var)) :
    pl_is_satisfied conj a = pl_is_satisfied conj b := by
  unfold pl_is_satisfied
  generalize conj.disjunctions = ds at h
  induction ds with
  | nil => rfl
  | cons d rest ih =>
    have hd : disj_satisfied d a = disj_satisfied d b :=
      disj_satisfied_loop_congr a b d.literals (h d (List.mem_cons_self _ _))
    have hr := ih (fun x hx => h x (List.mem_cons_of_mem _ hx))
    simp only [pl_is_satisfied_loop, hd, hr]

theorem fill_literals_cases (v : Nat) (ls : List PL_LITERAL) :
    ∀ (r : PL_INTERPRETATION) (j : Nat),
      (fill_literals v ls r).dictionary j = v ∨
        (fill_literals v ls r).dictionary j = r.dictionary j := by
  induction ls with
  | nil => intro r j; exact Or.inr rfl
  | cons l rest ih =>
    intro r j
    rcases ih (r.set (u8 l.var) v) j with h | h
    · exact Or.inl h
    · by_cases hj : j = u8 l.var
      · left
        rw [show fill_literals v (l :: rest) r = fill_literals v rest (r.set (u8 l.var) v)
          from rfl, h, hj, set_dictionary_same]
      · right
        rw [show fill_literals v (l :: rest) r = fill_literals v rest (r.set (u8 l.var) v)
          from rfl, h, set_dictionary_other r v hj]

theorem fill_literals_mem (v : Nat) (ls : List PL_LITERAL) :
    ∀ (r : PL_INTERPRETATION) (l : PL_LITERAL), l ∈ ls →
      (fill_literals v ls r).dictionary (u8 l.var) = v := by
  induction ls with
  | nil => intro r l hl; cases hl
  | cons x rest ih =>
    intro r l hl
    rcases List.mem_cons.mp hl with rfl | hl
    · rcases fill_literals_cases v rest (r.set (u8 l.var) v) (u8 l.var) with h | h
      · exact h
      · rw [show fill_literals v (l :: rest) r = fill_literals v rest (r.set (u8 l.var) v)
          from rfl, h, set_dictionary_same]
    · exact ih _ l hl

theorem fill_disjunctions_cases (v : Nat) (ds : List PL_DISJUNCTION) :
    ∀ (r : PL_INTERPRETATION) (j : Nat),
      (fill_disjunctions v ds r).dictionary j = v ∨
        (fill_disjunctions v ds r).dictionary j = r.dictionary j := by
  induction ds with
  | nil => intro r j; exact Or.inr rfl
  | cons d rest ih =>
    intro r j
    rcases ih (fill_literals v d.literals r) j with h | h
    · exact Or.inl h
    · rcases fill_literals_cases v d.literals r j with h2 | h2
      · exact Or.inl (by
          rw [show fill_disjunctions v (d :: rest) r =
            fill_disjunctions v rest (fill_literals v d.literals r) from rfl, h, h2])
      · exact Or.inr (by
          rw [show fill_disjunctions v (d :: rest) r =
            fill_disjunctions v rest (fill_literals v d.literals r) from rfl, h, h2])

theorem fill_disjunctions_mem (v : Nat) (ds : List PL_DISJUNCTION) :
    ∀ (r : PL_INTERPRETATION) (d : PL_DISJUNCTION) (l : PL_LITERAL), d ∈ ds → l ∈ d.literals →
      (fill_disjunctions v ds r).dictionary (u8 l.var) = v := by
  induction ds with
  | nil => intro r d l hd; cases hd
  | cons x rest ih =>
    intro r d l hd hl
    rcases List.mem_cons.mp hd with rfl | hd
    · rcases fill_disjunctions_cases v rest (fill_literals v d.literals r) (u8 l.var) with h | h
      · exact h
      · rw [show fill_disjunctions v (d :: rest) r =
          fill_disjunctions v rest (fill_literals v d.literals r) from rfl, h,
          fill_literals_mem v d.literals r l hl]
    · exact ih _ d l hd hl

/-- Every entry of the interpretation built by `create_interpretation` is
`PL_FALSE` or `PL_UNDEFINED`. -/
theorem create_interpretation_cases (conj : PL_CONJUNCTION) (j : Nat) :
    (create_interpretation conj).dictionary j = PL_FALSE ∨
      (create_interpretation conj).dictionary j = PL_UNDEFINED :=
  fill_disjunctions_cases PL_FALSE conj.disjunctions _ j

/-- The interpretation built by `create_interpretation` holds `PL_FALSE` at every
variable of the conjunction. -/
theorem create_interpretation_mem (conj : PL_CONJUNCTION) (d : PL_DISJUNCTION)
    (l : PL_LITERAL) (hd : d ∈ conj.disjunctions) (hl : l ∈ d.literals) :
    (create_interpretation conj).dictionary (u8 l.var) = PL_FALSE :=
  fill_disjunctions_mem PL_FALSE conj.disjunctions _ d l hd hl

theorem pl_brute_force_loop_succ (conj : PL_CONJUNCTION) (fuel : Nat)
    (inter : PL_INTERPRETATION) :
    pl_brute_force_loop conj (fuel + 1) inter =
      if pl_is_satisfied conj inter ≠ PL_TRUE then
        if (step_brute_force conj inter).1 ≠ 0 then some none
        else pl_brute_force_loop conj fuel (step_brute_force conj inter).2
      else some (some inter) := rfl

/-- Two three-valued interpretations with the same `PL_UNDEFINED` entries and the
same counter reading get the same verdict. -/
theorem same_counter_same_verdict (conj : PL_CONJUNCTION) (hr : vars_in_range conj)
    (a b : PL_INTERPRETATION) (ha : ternary a) (hb : ternary b)
    (hs : ∀ j, a.dictionary j = PL_UNDEFINED ↔ b.dictionary j = PL_UNDEFINED)
    (hv : counter_value a (List.range PL_MAX_VARS) = counter_value b (List.range PL_MAX_VARS)) :
    pl_is_satisfied conj a = pl_is_satisfied conj b := by
  have hagree := counter_value_inj a b (List.range PL_MAX_VARS)
    (fun i hi => ha i (List.mem_range.mp hi)) (fun i hi => hb i (List.mem_range.mp hi))
    (fun i _ => hs i) hv
  apply pl_is_satisfied_congr
  intro d hd l hl
  have hlt := hr d hd l hl
  rw [u8_of_lt hlt]
  exact hagree _ (List.mem_range.mpr hlt)

/-- The loop of `pl_brute_force` returns once the bound covers the remaining
counter readings; a returned interpretation gets the verdict `PL_TRUE`, and `NULL`
is returned only when no interpretation of the same shape with a counter reading
at or above the current one gets the verdict `PL_TRUE`. -/
theorem pl_brute_force_loop_spec (conj : PL_CONJUNCTION) (hr : vars_in_range conj) :
    ∀ (fuel : Nat) (inter : PL_INTERPRETATION), ternary inter →
      2 ^ counter_width inter (List.range PL_MAX_VARS)
        ≤ counter_value inter (List.range PL_MAX_VARS) + fuel →
      ∃ r, pl_brute_force_loop conj fuel inter = some r ∧
        (∀ J, r = some J → pl_is_satisfied conj J = PL_TRUE ∧ ternary J ∧
          ∀ j, (J.dictionary j = PL_UNDEFINED ↔ inter.dictionary j = PL_UNDEFINED)) ∧
        (r = none → ∀ K, ternary K →
          (∀ j, (K.dictionary j = PL_UNDEFINED ↔ inter.dictionary j = PL_UNDEFINED)) →
          counter_value inter (List.range PL_MAX_VARS)
            ≤ counter_value K (List.range PL_MAX_VARS) →
          pl_is_satisfied conj K ≠ PL_TRUE) := by
  intro fuel
  induction fuel with
  | zero =>
    intro inter _ h
    have := counter_value_lt inter (List.range PL_MAX_VARS)
    omega
  | succ fuel ih =>
    intro inter ht hfuel
    rw [pl_brute_force_loop_succ]
    by_cases hsat : pl_is_satisfied conj inter = PL_TRUE
    · refine ⟨some inter, by simp [hsat], ?_, ?_⟩
      · intro J hJ
        simp only [Option.some.injEq] at hJ
        subst hJ
        exact ⟨hsat, ht, fun _ => Iff.rfl⟩
      · intro h; cases h
    · obtain ⟨h1, h2, _, h4, h5, h6⟩ :=
        step_brute_force_loop_spec (List.range PL_MAX_VARS) (List.nodup_range _) inter
      have hwK : ∀ K : PL_INTERPRETATION,
          (∀ j, (K.dictionary j = PL_UNDEFINED ↔ inter.dictionary j = PL_UNDEFINED)) →
          counter_value K (List.range PL_MAX_VARS)
            < 2 ^ counter_width inter (List.range PL_MAX_VARS) := by
        intro K hK
        rw [← counter_width_congr K inter _ (fun j _ => hK j)]
        exact counter_value_lt K _
      rw [if_pos hsat]
      by_cases hout : (step_brute_force conj inter).1 = 0
      · rw [if_neg (not_not.mpr hout)]
        have hout2 : (step_brute_force_loop (List.range PL_MAX_VARS) inter).1 = 0 := hout
        have hval := h5 hout2
        have hwid := counter_width_congr
          (step_brute_force_loop (List.range PL_MAX_VARS) inter).2 inter
          (List.range PL_MAX_VARS) (fun j _ => h2 j)
        have ht2 : ternary (step_brute_force conj inter).2 := by
          intro j hj
          rcases h4 j with h | h | h
          · exact le_of_eq_of_le h (ht j hj)
          · exact le_of_eq_of_le h (by decide)
          · exact le_of_eq_of_le h (by decide)
        obtain ⟨r, hres, hsome, hnone⟩ := ih (step_brute_force conj inter).2 ht2 (by
          show 2 ^ counter_width (step_brute_force_loop (List.range PL_MAX_VARS) inter).2 _ ≤
            counter_value (step_brute_force_loop (List.range PL_MAX_VARS) inter).2 _ + fuel
          rw [hwid, hval]; omega)
        refine ⟨r, hres, ?_, ?_⟩
        · intro J hJ
          obtain ⟨k1, k2, k3⟩ := hsome J hJ
          exact ⟨k1, k2, fun j => (k3 j).trans (h2 j)⟩
        · intro hrn K hKt hKs hKv
          by_cases hEq : counter_value K (List.range PL_MAX_VARS)
              = counter_value inter (List.range PL_MAX_VARS)
          · rw [same_counter_same_verdict conj hr K inter hKt ht hKs hEq]
            exact hsat
          · apply hnone hrn K hKt (fun j => (hKs j).trans (h2 j).symm)
            show counter_value (step_brute_force_loop (List.range PL_MAX_VARS) inter).2 _ ≤ _
            rw [hval]
            omega
      · rw [if_pos hout]
        refine ⟨none, rfl, ?_, ?_⟩
        · intro J hJ; cases hJ
        · intro _ K hKt hKs hKv
          have hfull := h6 hout
          have hlt := hwK K hKs
          rw [same_counter_same_verdict conj hr K inter hKt ht hKs (by omega)]
          exact hsat

/-- C8 (correctness of the brute-force solver): for a conjunction with variables
in 0..127, `pl_brute_force` returns once the iteration bound exceeds 2^128; it
returns `NULL` if and only if no interpretation giving `PL_TRUE` or `PL_FALSE` to
every variable of the conjunction makes `pl_is_satisfied` return `PL_TRUE`; and an
interpretation it returns makes `pl_is_satisfied` return `PL_TRUE`. -/
theorem pl_brute_force_correct (conj : PL_CONJUNCTION) (hr : vars_in_range conj)
    (fuel : Nat) (hf : 2 ^ PL_MAX_VARS < fuel) :
    ∃ r, pl_brute_force fuel conj = some r ∧
      (r = none ↔
        ¬ ∃ J, assigns_variables J conj ∧ pl_is_satisfied conj J = PL_TRUE) ∧
      (∀ inter, r = some inter → pl_is_satisfied conj inter = PL_TRUE) := by
  have ht0 : ternary (create_interpretation conj) := by
    intro j _
    rcases create_interpretation_cases conj j with h | h
    · rw [h]; decide
    · exact le_of_eq h
  have hv0 : counter_value (create_interpretation conj) (List.range PL_MAX_VARS) = 0 :=
    counter_value_zero _ _ (fun j _ => by
      rcases create_interpretation_cases conj j with h | h <;> (rw [h]; decide))
  have hw0 : 2 ^ counter_width (create_interpretation conj) (List.range PL_MAX_VARS)
      ≤ 2 ^ PL_MAX_VARS := by
    apply Nat.pow_le_pow_right (by decide)
    have := counter_width_le (create_interpretation conj) (List.range PL_MAX_VARS)
    rwa [List.length_range] at this
  obtain ⟨r, hres, hsome, hnone⟩ := pl_brute_force_loop_spec conj hr fuel
    (create_interpretation conj) ht0 (by omega)
  refine ⟨r, hres, ⟨?_, ?_⟩, fun inter hi => (hsome inter hi).1⟩
  · rintro hrn ⟨J, hJa, hJs⟩
    have hK := hnone hrn
      { dictionary := fun j =>
          if (create_interpretation conj).dictionary j = PL_UNDEFINED then PL_UNDEFINED
          else if J.dictionary j = PL_TRUE then PL_TRUE else PL_FALSE }
      (by
        intro j _
        show (if _ then _ else if _ then _ else _) ≤ _
        split
        · decide
        · split <;> decide)
      (by
        intro j
        show (if _ then _ else if _ then _ else _) = _ ↔ _
        by_cases hu : (create_interpretation conj).dictionary j = PL_UNDEFINED
        · simp [hu]
        · by_cases hJ : J.dictionary j = PL_TRUE <;> simp [hu, hJ])
      (by rw [hv0]; exact Nat.zero_le _)
    refine hK (Eq.trans (pl_is_satisfied_congr conj _ J ?_) hJs)
    intro d hd l hl
    have hmem := create_interpretation_mem conj d l hd hl
    have hJl := hJa l ((mem_all_literals conj l).mpr ⟨d, hd, hl⟩)
    show (if _ then _ else if _ then _ else _) = _
    rw [hmem]
    rcases hJl with h | h <;> simp [h]
  · intro hno
    cases r with
    | none => rfl
    | some inter =>
      exfalso
      obtain ⟨k1, k2, k3⟩ := hsome inter rfl
      apply hno
      refine ⟨inter, ?_, k1⟩
      intro l hl
      obtain ⟨d, hd, hld⟩ := (mem_all_literals conj l).mp hl
      have hmem := create_interpretation_mem conj d l hd hld
      have hlt := hr d hd l hld
      have hne : inter.dictionary (u8 l.var) ≠ PL_UNDEFINED := by
        intro hu
        have := (k3 _).mp hu
        rw [hmem] at this
        exact absurd this (by decide)
      have hle := k2 (u8 l.var) (by rw [u8_of_lt hlt]; exact hlt)
      unfold PL_UNDEFINED at hle hne
      unfold PL_TRUE PL_FALSE
      omega

/-- Witness of C8 on the formula `(B) ^ (A v B) ^ (~A)`. -/
theorem pl_brute_force_correct_witness :
    vars_in_range conj_unit_trap ∧ 2 ^ PL_MAX_VARS < 2 ^ PL_MAX_VARS + 1 ∧
    ∃ r, pl_brute_force (2 ^ PL_MAX_VARS + 1) conj_unit_trap = some r ∧
      (r = none ↔
        ¬ ∃ J, assigns_variables J conj_unit_trap ∧
          pl_is_satisfied conj_unit_trap J = PL_TRUE) ∧
      (∀ inter, r = some inter → pl_is_satisfied conj_unit_trap inter = PL_TRUE) :=
  ⟨by decide, Nat.lt_succ_self _,
   pl_brute_force_correct conj_unit_trap (by decide) (2 ^ PL_MAX_VARS + 1) (Nat.lt_succ_self _)⟩


/-! ## Literal evaluation and stability of verdicts -/

/-- A literal that evaluates `PL_TRUE` or `PL_FALSE` has a variable that does not
hold `PL_UNDEFINED`. -/
theorem lit_satisfied_defined (l : PL_LITERAL) (inter : PL_INTERPRETATION)
    (h : lit_satisfied l inter ≠ PL_UNDEFINED) :
    inter.dictionary (u8 l.var) ≠ PL_UNDEFINED := by
  intro hu
  apply h
  unfold lit_satisfied
  simp [hu]

theorem lit_true_of_lit_satisfied (l : PL_LITERAL) (inter : PL_INTERPRETATION)
    (h : lit_satisfied l inter = PL_TRUE) :
    lit_true (fun v => decide (inter.dictionary (u8 v) = PL_TRUE)) l := by
  obtain ⟨_, h2⟩ := lit_satisfied_true l inter h
  unfold lit_true
  by_cases hn : l.negated = 0
  · simpa [hn] using h2
  · simpa [hn] using h2

/-- A literal with a definite value keeps it under an interpretation that agrees
on the entries that are not `PL_UNDEFINED`. -/
theorem lit_satisfied_stable (l : PL_LITERAL) (a b : PL_INTERPRETATION)
    (hlt : l.var < PL_MAX_VARS) (hext : extends_defined a b)
    (h : lit_satisfied l a ≠ PL_UNDEFINED) :
    lit_satisfied l b = lit_satisfied l a := by
  have hd := lit_satisfied_defined l a h
  rw [u8_of_lt hlt] at hd
  apply lit_satisfied_congr
  rw [u8_of_lt hlt]
  exact hext l.var hlt hd

theorem disj_satisfied_loop_false_all (inter : PL_INTERPRETATION) (ls : List PL_LITERAL)
    (h : disj_satisfied_loop inter ls = PL_FALSE) :
    ∀ x ∈ ls, lit_satisfied x inter = PL_FALSE := by
  induction ls with
  | nil => intro x hx; cases hx
  | cons l rest ih =>
    by_cases hl : lit_satisfied l inter = PL_FALSE
    · have e : disj_satisfied_loop inter (l :: rest) = disj_satisfied_loop inter rest := by
        simp [disj_satisfied_loop, hl]
      rw [e] at h
      intro x hx
      rcases List.mem_cons.mp hx with rfl | hx
      · exact hl
      · exact ih h x hx
    · have e : disj_satisfied_loop inter (l :: rest) = lit_satisfied l inter := by
        simp [disj_satisfied_loop, hl]
      rw [e] at h
      exact absurd h hl

/-- A conjunction that does not evaluate `PL_TRUE` splits at the disjunction that
decided it: everything before evaluates `PL_TRUE`. -/
theorem pl_is_satisfied_loop_split (inter : PL_INTERPRETATION) (ds : List PL_DISJUNCTION)
    (h : pl_is_satisfied_loop inter ds ≠ PL_TRUE) :
    ∃ pre d post, ds = pre ++ d :: post ∧ (∀ x ∈ pre, disj_satisfied x inter = PL_TRUE) ∧
      disj_satisfied d inter = pl_is_satisfied_loop inter ds := by
  induction ds with
  | nil => exact absurd rfl h
  | cons x rest ih =>
    by_cases hx : disj_satisfied x inter = PL_TRUE
    · have e : pl_is_satisfied_loop inter (x :: rest) = pl_is_satisfied_loop inter rest := by
        simp [pl_is_satisfied_loop, hx]
      rw [e] at h ⊢
      obtain ⟨pre, d, post, h1, h2, h3⟩ := ih h
      refine ⟨x :: pre, d, post, by rw [h1]; rfl, ?_, h3⟩
      intro y hy
      rcases List.mem_cons.mp hy with rfl | hy
      · exact hx
      · exact h2 y hy
    · refine ⟨[], x, rest, rfl, ?_, ?_⟩
      · intro y hy; cases hy
      · simp [pl_is_satisfied_loop, hx]

/-- A definite verdict of `disj_satisfied` is kept by an interpretation that agrees
on the entries that are not `PL_UNDEFINED`. -/
theorem disj_satisfied_stable (d : PL_DISJUNCTION) (a b : PL_INTERPRETATION)
    (hr : ∀ l ∈ d.literals, l.var < PL_MAX_VARS) (hext : extends_defined a b) :
    (disj_satisfied d a = PL_TRUE → disj_satisfied d b = PL_TRUE) ∧
    (disj_satisfied d a = PL_FALSE → disj_satisfied d b = PL_FALSE) := by
  constructor
  · intro h
    unfold disj_satisfied at h ⊢
    obtain ⟨pre, l, post, h1, h2, h3⟩ := disj_satisfied_loop_split a d.literals
      (by rw [h]; decide)
    rw [h] at h3
    have hl : l ∈ d.literals := by rw [h1]; simp
    have hlb : lit_satisfied l b = PL_TRUE := by
      rw [lit_satisfied_stable l a b (hr l hl) hext (by rw [h3]; decide), h3]
    rw [h1, disj_satisfied_loop_append b pre l post ?_ (by rw [hlb]; decide), hlb]
    intro x hx
    have hxd : x ∈ d.literals := by rw [h1]; exact List.mem_append_left _ hx
    rw [lit_satisfied_stable x a b (hr x hxd) hext (by rw [h2 x hx]; decide), h2 x hx]
  · intro h
    unfold disj_satisfied at h ⊢
    have hall := disj_satisfied_loop_false_all a d.literals h
    apply disj_satisfied_loop_all_false
    intro x hx
    rw [lit_satisfied_stable x a b (hr x hx) hext (by rw [hall x hx]; decide), hall x hx]

/-- A definite verdict of `pl_is_satisfied` is kept by an interpretation that
agrees on the entries that are not `PL_UNDEFINED`. -/
theorem pl_is_satisfied_stable (conj : PL_CONJUNCTION) (hr : vars_in_range conj)
    (a b : PL_INTERPRETATION) (hext : extends_defined a b) :
    (pl_is_satisfied conj a = PL_TRUE → pl_is_satisfied conj b = PL_TRUE) ∧
    (pl_is_satisfied conj a = PL_FALSE → pl_is_satisfied conj b = PL_FALSE) := by
  constructor
  · intro h
    unfold pl_is_satisfied at h ⊢
    have hall := pl_is_satisfied_loop_true a conj.disjunctions h
    apply pl_is_satisfied_loop_all_true
    intro d hd
    exact (disj_satisfied_stable d a b (hr d hd) hext).1 (hall d hd)
  · intro h
    unfold pl_is_satisfied at h ⊢
    obtain ⟨pre, d, post, h1, h2, h3⟩ := pl_is_satisfied_loop_split a conj.disjunctions
      (by rw [h]; decide)
    rw [h] at h3
    have hd : d ∈ conj.disjunctions := by rw [h1]; simp
    have hdb := (disj_satisfied_stable d a b (hr d hd) hext).2 h3
    rw [h1, pl_is_satisfied_loop_append b pre d post ?_ (by rw [hdb]; decide), hdb]
    intro x hx
    have hxd : x ∈ conj.disjunctions := by rw [h1]; exact List.mem_append_left _ hx
    exact (disj_satisfied_stable x a b (hr x hxd) hext).1 (h2 x hx)

/-- C11 (literal evaluation): for a literal whose variable is in 0..127,
`lit_satisfied` returns `PL_UNDEFINED` when the variable's entry is
`PL_UNDEFINED`; otherwise, for a literal that is not negated it returns the entry,
and for a negated literal it returns `PL_FALSE` on the entry `PL_TRUE` and
`PL_TRUE` on the entry `PL_FALSE`. -/
theorem lit_satisfied_spec (lit : PL_LITERAL) (inter : PL_INTERPRETATION)
    (hlt : lit.var < PL_MAX_VARS) :
    (inter.dictionary lit.var = PL_UNDEFINED → lit_satisfied lit inter = PL_UNDEFINED) ∧
    (inter.dictionary lit.var ≠ PL_UNDEFINED → lit.negated = 0 →
      lit_satisfied lit inter = inter.dictionary lit.var) ∧
    (lit.negated ≠ 0 → inter.dictionary lit.var = PL_TRUE →
      lit_satisfied lit inter = PL_FALSE) ∧
    (lit.negated ≠ 0 → inter.dictionary lit.var = PL_FALSE →
      lit_satisfied lit inter = PL_TRUE) := by
  unfold lit_satisfied
  rw [u8_of_lt hlt]
  refine ⟨?_, ?_, ?_, ?_⟩
  · intro h; simp [h]
  · intro h hn; simp [h, hn]
  · intro hn h; simp [h, hn]
  · intro hn h; simp [h, hn]

/-- Witness of C11: the literal `~A` under `A = PL_TRUE` evaluates `PL_FALSE`. -/
theorem lit_satisfied_spec_witness :
    litNotA.var < PL_MAX_VARS ∧
    lit_satisfied litNotA ((pl_create_interpretation conj_A PL_UNDEFINED).set 65 PL_TRUE)
      = PL_FALSE :=
  ⟨by decide,
   (lit_satisfied_spec litNotA ((pl_create_interpretation conj_A PL_UNDEFINED).set 65 PL_TRUE)
     (by decide)).2.2.1 (by decide) rfl⟩

/-- C12 (forced variables): for a conjunction and a variable `x` below 128, if `pl_dpll` returns an interpretation, then `x` holds
`PL_TRUE` in it when every satisfying two-valued assignment makes `x` true, and
`PL_FALSE` when every satisfying two-valued assignment makes `x` false. -/
theorem pl_dpll_forced (conj : PL_CONJUNCTION) (x : Nat)
    (hx : x < PL_MAX_VARS) (fuel : Nat) (inter : PL_INTERPRETATION)
    (h : pl_dpll fuel conj = some (some inter)) :
    ((∀ a, satisfies a conj → a x = true) → inter.dictionary x = PL_TRUE) ∧
    ((∀ a, satisfies a conj → a x = false) → inter.dictionary x = PL_FALSE) := by
  have hsat := pl_dpll_result_satisfied conj fuel inter h
  have ht := pl_dpll_result_ternary conj fuel inter h
  have hsa := satisfiable_of_pl_is_satisfied conj inter hsat
  constructor
  · intro hf
    have := hf _ hsa
    simpa [u8_of_lt hx] using this
  · intro hf
    have hnt : inter.dictionary x ≠ PL_TRUE := by
      have := hf _ hsa
      simpa [u8_of_lt hx] using this
    have hnu : inter.dictionary x ≠ PL_UNDEFINED := by
      intro hu
      have hsat2 : satisfies
          (fun v => if v = x then true else decide (inter.dictionary (u8 v) = PL_TRUE)) conj := by
        intro d hd
        have hdt := pl_is_satisfied_loop_true inter conj.disjunctions hsat d hd
        unfold disj_satisfied at hdt
        obtain ⟨l, hl, hlv⟩ := disj_satisfied_loop_ne_false inter d.literals
          (by rw [hdt]; decide)
        rw [hdt] at hlv
        refine ⟨l, hl, ?_⟩
        have hdef := lit_satisfied_defined l inter (by rw [hlv]; decide)
        have hne : l.var ≠ x := by
          intro e
          rw [e, u8_of_lt hx] at hdef
          exact hdef hu
        have := lit_true_of_lit_satisfied l inter hlv
        unfold lit_true at this ⊢
        simpa [hne] using this
      have := hf _ hsat2
      simp at this
    have hle := ht x hx
    unfold PL_UNDEFINED at hle hnu
    unfold PL_TRUE at hnt
    unfold PL_FALSE
    omega

/-- Witness of C12 on `(A v B) ^ (~A v B)`: every satisfying assignment makes `B`
true, and the interpretation returned by `pl_dpll` holds `PL_TRUE` at `B`. -/
theorem pl_dpll_forced_witness :
    (∀ a, satisfies a conj_forced_B → a 66 = true) ∧
    pl_dpll 129 conj_forced_B =
      some (some (((pl_dpll_init conj_forced_B).assign 66 PL_TRUE).assign 65 PL_TRUE).interpretation) ∧
    (((pl_dpll_init conj_forced_B).assign 66 PL_TRUE).assign 65 PL_TRUE).interpretation.dictionary 66
      = PL_TRUE := by
  have hforce : ∀ a, satisfies a conj_forced_B → a 66 = true := by
    intro a hs
    obtain ⟨l1, hl1, t1⟩ := hs ⟨[litA, litB]⟩ (by simp [conj_forced_B])
    obtain ⟨l2, hl2, t2⟩ := hs ⟨[litNotA, litB]⟩ (by simp [conj_forced_B])
    simp only [List.mem_cons, List.mem_singleton, List.not_mem_nil, or_false] at hl1 hl2
    rcases hl1 with rfl | rfl
    · rcases hl2 with rfl | rfl
      · simp [lit_true, litA, litNotA] at t1 t2
        rw [t1] at t2
        cases t2
      · simpa [lit_true, litB] using t2
    · simpa [lit_true, litB] using t1
  exact ⟨hforce, rfl,
    (pl_dpll_forced conj_forced_B 66 (by decide) 129 _ rfl).1 hforce⟩

/-- C13 (empty formula): for the conjunction with zero clauses `pl_dpll` returns,
under every positive recursion bound, an interpretation in which all 128 entries
are `PL_UNDEFINED`. -/
theorem pl_dpll_empty (fuel : Nat) :
    ∃ inter, pl_dpll (fuel + 1) { disjunctions := [] } = some (some inter) ∧
      ∀ i, i < PL_MAX_VARS → inter.dictionary i = PL_UNDEFINED :=
  ⟨_, rfl, fun _ _ => rfl⟩

/-- C19 (definite verdicts are stable under extension): for a conjunction with
variables in 0..127 and interpretations `a`, `b` such that `b` agrees with `a` on
every one of the 128 entries where `a` is not `PL_UNDEFINED`, a verdict `PL_TRUE`
or `PL_FALSE` of `pl_is_satisfied` under `a` is its verdict under `b`, the same
holds for `disj_satisfied` on every clause, and after a verdict `PL_TRUE` under
`a` the two-valued reading of `b` makes every clause contain a true literal. -/
theorem verdict_stable_under_extension (conj : PL_CONJUNCTION) (hr : vars_in_range conj)
    (a b : PL_INTERPRETATION) (hext : extends_defined a b) :
    (pl_is_satisfied conj a = PL_TRUE → pl_is_satisfied conj b = PL_TRUE) ∧
    (pl_is_satisfied conj a = PL_FALSE → pl_is_satisfied conj b = PL_FALSE) ∧
    (∀ d ∈ conj.disjunctions,
      (disj_satisfied d a = PL_TRUE → disj_satisfied d b = PL_TRUE) ∧
      (disj_satisfied d a = PL_FALSE → disj_satisfied d b = PL_FALSE)) ∧
    (pl_is_satisfied conj a = PL_TRUE →
      satisfies (fun v => decide (b.dictionary (u8 v) = PL_TRUE)) conj) := by
  obtain ⟨h1, h0⟩ := pl_is_satisfied_stable conj hr a b hext
  exact ⟨h1, h0, fun d hd => disj_satisfied_stable d a b (hr d hd) hext,
    fun h => satisfiable_of_pl_is_satisfied conj b (h1 h)⟩

/-- Witness of C19 on `(A v B)`: the verdict `PL_TRUE` under `A = PL_TRUE` is kept
when `B` is set as well. -/
theorem verdict_stable_under_extension_witness :
    pl_is_satisfied conj_AorB ((pl_dpll_init conj_AorB).interpretation.set 65 PL_TRUE)
      = PL_TRUE ∧
    pl_is_satisfied conj_AorB
      (((pl_dpll_init conj_AorB).interpretation.set 65 PL_TRUE).set 66 PL_FALSE) = PL_TRUE :=
  ⟨rfl, (verdict_stable_under_extension conj_AorB (by decide)
    ((pl_dpll_init conj_AorB).interpretation.set 65 PL_TRUE)
    (((pl_dpll_init conj_AorB).interpretation.set 65 PL_TRUE).set 66 PL_FALSE)
    (by
      intro i _ hne
      by_cases hi : i = 66
      · subst hi
        exact absurd rfl hne
      · exact set_dictionary_other _ _ hi)).1 rfl⟩

/-! ## The brute-force step as an increment -/

/-- When `step_brute_force` reports exhaustion, the counter reads zero afterwards. -/
theorem step_brute_force_loop_overflow (idx : List Nat) (hnd : idx.Nodup) :
    ∀ inter : PL_INTERPRETATION, (step_brute_force_loop idx inter).1 ≠ 0 →
      counter_value (step_brute_force_loop idx inter).2 idx = 0 := by
  induction idx with
  | nil => intro inter _; rfl
  | cons i rest ih =>
    intro inter h0
    obtain ⟨hi, hrest⟩ := List.nodup_cons.mp hnd
    by_cases hu : inter.dictionary i = PL_UNDEFINED
    · have e : step_brute_force_loop (i :: rest) inter = step_brute_force_loop rest inter := by
        simp [step_brute_force_loop, hu]
      rw [e] at h0 ⊢
      obtain ⟨_, h2, _⟩ := step_brute_force_loop_spec rest hrest inter
      rw [counter_value_cons_undefined _ _ _ ((h2 i).mpr hu)]
      exact ih hrest inter h0
    · by_cases ht : inter.dictionary i = PL_TRUE
      · have e : step_brute_force_loop (i :: rest) inter =
            step_brute_force_loop rest (inter.set i PL_FALSE) := by
          simp [step_brute_force_loop, hu, ht]
        rw [e] at h0 ⊢
        obtain ⟨_, _, h3, _⟩ := step_brute_force_loop_spec rest hrest (inter.set i PL_FALSE)
        have hout : (step_brute_force_loop rest (inter.set i PL_FALSE)).2.dictionary i
            = PL_FALSE := by
          rw [h3 i hi, set_dictionary_same]
        rw [counter_value_cons_other _ _ _ (by rw [hout]; decide) (by rw [hout]; decide),
          ih hrest _ h0]
      · have e : step_brute_force_loop (i :: rest) inter = (0, inter.set i PL_TRUE) := by
          simp [step_brute_force_loop, hu, ht]
        rw [e] at h0
        exact absurd rfl h0

/-- The function `step_brute_force` reports exhaustion exactly when every listed
entry that is not `PL_UNDEFINED` is `PL_TRUE`. -/
theorem step_brute_force_loop_flag (idx : List Nat) (hnd : idx.Nodup) :
    ∀ inter : PL_INTERPRETATION, (step_brute_force_loop idx inter).1 = 1 ↔
      ∀ i ∈ idx, inter.dictionary i ≠ PL_UNDEFINED → inter.dictionary i = PL_TRUE := by
  induction idx with
  | nil => intro inter; simp [step_brute_force_loop]
  | cons i rest ih =>
    intro inter
    obtain ⟨hi, hrest⟩ := List.nodup_cons.mp hnd
    have hne : ∀ j ∈ rest, j ≠ i := fun j hj hji => hi (hji ▸ hj)
    by_cases hu : inter.dictionary i = PL_UNDEFINED
    · have e : step_brute_force_loop (i :: rest) inter = step_brute_force_loop rest inter := by
        simp [step_brute_force_loop, hu]
      rw [e, ih hrest inter]
      constructor
      · intro h j hj
        rcases List.mem_cons.mp hj with rfl | hj
        · intro hx; exact absurd hu hx
        · exact h j hj
      · intro h j hj
        exact h j (List.mem_cons_of_mem _ hj)
    · by_cases ht : inter.dictionary i = PL_TRUE
      · have e : step_brute_force_loop (i :: rest) inter =
            step_brute_force_loop rest (inter.set i PL_FALSE) := by
          simp [step_brute_force_loop, hu, ht]
        rw [e, ih hrest (inter.set i PL_FALSE)]
        constructor
        · intro h j hj
          rcases List.mem_cons.mp hj with rfl | hj
          · intro _; exact ht
          · have := h j hj
            rwa [set_dictionary_other inter _ (hne j hj)] at this
        · intro h j hj
          rw [set_dictionary_other inter _ (hne j hj)]
          exact h j (List.mem_cons_of_mem _ hj)
      · have e : step_brute_force_loop (i :: rest) inter = (0, inter.set i PL_TRUE) := by
          simp [step_brute_force_loop, hu, ht]
        rw [e]
        constructor
        · intro h; cases h
        · intro h
          exact absurd (h i (List.mem_cons_self _ _) hu) ht

/-- On an increasing index list, `step_brute_force` turns every `PL_TRUE` entry
below the first listed entry that is neither `PL_UNDEFINED` nor `PL_TRUE` into
`PL_FALSE`, turns that entry into `PL_TRUE`, and leaves every entry above it as it
was. -/
theorem step_brute_force_loop_entries (idx : List Nat)
    (hs : idx.Pairwise (fun a b => a < b)) :
    ∀ inter : PL_INTERPRETATION,
      (∀ i ∈ idx, inter.dictionary i = PL_TRUE →
        (∀ j ∈ idx, j < i →
          inter.dictionary j = PL_UNDEFINED ∨ inter.dictionary j = PL_TRUE) →
        (step_brute_force_loop idx inter).2.dictionary i = PL_FALSE) ∧
      (∀ i ∈ idx, inter.dictionary i ≠ PL_UNDEFINED → inter.dictionary i ≠ PL_TRUE →
        (∀ j ∈ idx, j < i →
          inter.dictionary j = PL_UNDEFINED ∨ inter.dictionary j = PL_TRUE) →
        (step_brute_force_loop idx inter).2.dictionary i = PL_TRUE) ∧
      (∀ i, (∃ j ∈ idx, j < i ∧ inter.dictionary j ≠ PL_UNDEFINED ∧
          inter.dictionary j ≠ PL_TRUE) →
        (step_brute_force_loop idx inter).2.dictionary i = inter.dictionary i) := by
  induction idx with
  | nil =>
    intro inter
    refine ⟨?_, ?_, ?_⟩
    · intro i hi; cases hi
    · intro i hi; cases hi
    · rintro i ⟨j, hj, _⟩
      cases hj
  | cons k rest ih =>
    intro inter
    obtain ⟨hk, hrest⟩ := List.pairwise_cons.mp hs
    have hkn : k ∉ rest := fun hm => lt_irrefl k (hk k hm)
    have hne : ∀ j ∈ rest, j ≠ k := fun j hj hjk => hkn (hjk ▸ hj)
    have hnd : rest.Nodup := hrest.imp (fun h => ne_of_lt h)
    by_cases hu : inter.dictionary k = PL_UNDEFINED
    · have e : step_brute_force_loop (k :: rest) inter = step_brute_force_loop rest inter := by
        simp [step_brute_force_loop, hu]
      obtain ⟨a1, a2, a3⟩ := ih hrest inter
      rw [e]
      refine ⟨?_, ?_, ?_⟩
      · intro i hi ht hlow
        rcases List.mem_cons.mp hi with rfl | hi
        · rw [hu] at ht; exact absurd ht (by decide)
        · exact a1 i hi ht (fun j hj hji => hlow j (List.mem_cons_of_mem _ hj) hji)
      · intro i hi h1 h2 hlow
        rcases List.mem_cons.mp hi with rfl | hi
        · exact absurd hu h1
        · exact a2 i hi h1 h2 (fun j hj hji => hlow j (List.mem_cons_of_mem _ hj) hji)
      · rintro i ⟨j, hj, hji, h1, h2⟩
        rcases List.mem_cons.mp hj with rfl | hj
        · exact absurd hu h1
        · exact a3 i ⟨j, hj, hji, h1, h2⟩
    · by_cases ht : inter.dictionary k = PL_TRUE
      · have e : step_brute_force_loop (k :: rest) inter =
            step_brute_force_loop rest (inter.set k PL_FALSE) := by
          simp [step_brute_force_loop, hu, ht]
        obtain ⟨a1, a2, a3⟩ := ih hrest (inter.set k PL_FALSE)
        obtain ⟨_, _, h3, _⟩ := step_brute_force_loop_spec rest hnd (inter.set k PL_FALSE)
        rw [e]
        refine ⟨?_, ?_, ?_⟩
        · intro i hi hti hlow
          rcases List.mem_cons.mp hi with rfl | hi
          · rw [h3 i hkn, set_dictionary_same]
          · apply a1 i hi
            · rw [set_dictionary_other inter _ (hne i hi)]; exact hti
            · intro j hj hji
              rw [set_dictionary_other inter _ (hne j hj)]
              exact hlow j (List.mem_cons_of_mem _ hj) hji
        · intro i hi h1 h2 hlow
          rcases List.mem_cons.mp hi with rfl | hi
          · exact absurd ht h2
          · apply a2 i hi
            · rw [set_dictionary_other inter _ (hne i hi)]; exact h1
            · rw [set_dictionary_other inter _ (hne i hi)]; exact h2
            · intro j hj hji
              rw [set_dictionary_other inter _ (hne j hj)]
              exact hlow j (List.mem_cons_of_mem _ hj) hji
        · rintro i ⟨j, hj, hji, h1, h2⟩
          rcases List.mem_cons.mp hj with rfl | hj
          · exact absurd ht h2
          · have hik : i ≠ k := fun x => lt_asymm (hk j hj) (x ▸ hji)
            rw [a3 i ⟨j, hj, hji, by rw [set_dictionary_other inter _ (hne j hj)]; exact h1,
              by rw [set_dictionary_other inter _ (hne j hj)]; exact h2⟩,
              set_dictionary_other inter _ hik]
      · have e : step_brute_force_loop (k :: rest) inter = (0, inter.set k PL_TRUE) := by
          simp [step_brute_force_loop, hu, ht]
        rw [e]
        refine ⟨?_, ?_, ?_⟩
        · intro i hi hti hlow
          rcases List.mem_cons.mp hi with rfl | hi
          · exact absurd hti ht
          · rcases hlow k (List.mem_cons_self _ _) (hk i hi) with h | h
            · exact absurd h hu
            · exact absurd h ht
        · intro i hi _ _ hlow
          rcases List.mem_cons.mp hi with rfl | hi
          · exact set_dictionary_same _ _ _
          · rcases hlow k (List.mem_cons_self _ _) (hk i hi) with h | h
            · exact absurd h hu
            · exact absurd h ht
        · rintro i ⟨j, hj, hji, _, _⟩
          have hik : i ≠ k := by
            intro x
            rcases List.mem_cons.mp hj with rfl | hj
            · exact lt_irrefl _ (x ▸ hji)
            · exact lt_asymm (hk j hj) (x ▸ hji)
          exact set_dictionary_other inter _ hik

/-- C18 (the brute-force step is a binary increment): reading the entries among
the 128 that are not `PL_UNDEFINED` as the bits of a number (lowest index least
significant, `PL_TRUE` the bit 1), `step_brute_force` replaces the number `n` by
`(n + 1) mod 2^k`, `k` being the count of such entries; an entry is `PL_UNDEFINED`
after the call exactly when it was before, and `k` is unchanged; the call returns
0 or 1, and it returns 1 exactly when all `k` bits were 1 before the call. Entry by
entry: every `PL_TRUE` entry below the first entry that is neither `PL_UNDEFINED`
nor `PL_TRUE` becomes `PL_FALSE`, that entry becomes `PL_TRUE`, every entry above it
stays as it was, every entry is unchanged or becomes `PL_TRUE` or `PL_FALSE`, and
three-valued entries stay three-valued. -/
theorem step_brute_force_increments (conj : PL_CONJUNCTION) (inter : PL_INTERPRETATION) :
    counter_value (step_brute_force conj inter).2 (List.range PL_MAX_VARS) =
      (counter_value inter (List.range PL_MAX_VARS) + 1)
        % 2 ^ counter_width inter (List.range PL_MAX_VARS) ∧
    (∀ j, (step_brute_force conj inter).2.dictionary j = PL_UNDEFINED ↔
      inter.dictionary j = PL_UNDEFINED) ∧
    counter_width (step_brute_force conj inter).2 (List.range PL_MAX_VARS) =
      counter_width inter (List.range PL_MAX_VARS) ∧
    ((step_brute_force conj inter).1 = 0 ∨ (step_brute_force conj inter).1 = 1) ∧
    ((step_brute_force conj inter).1 = 1 ↔
      ∀ i, i < PL_MAX_VARS → inter.dictionary i ≠ PL_UNDEFINED →
        inter.dictionary i = PL_TRUE) ∧
    ((step_brute_force conj inter).1 = 1 ↔
      counter_value inter (List.range PL_MAX_VARS) + 1 =
        2 ^ counter_width inter (List.range PL_MAX_VARS)) ∧
    (∀ i, i < PL_MAX_VARS → inter.dictionary i = PL_TRUE →
      (∀ j, j < i → inter.dictionary j = PL_UNDEFINED ∨ inter.dictionary j = PL_TRUE) →
      (step_brute_force conj inter).2.dictionary i = PL_FALSE) ∧
    (∀ i, i < PL_MAX_VARS → inter.dictionary i ≠ PL_UNDEFINED →
      inter.dictionary i ≠ PL_TRUE →
      (∀ j, j < i → inter.dictionary j = PL_UNDEFINED ∨ inter.dictionary j = PL_TRUE) →
      (step_brute_force conj inter).2.dictionary i = PL_TRUE) ∧
    (∀ i, (∃ j, j < i ∧ j < PL_MAX_VARS ∧ inter.dictionary j ≠ PL_UNDEFINED ∧
        inter.dictionary j ≠ PL_TRUE) →
      (step_brute_force conj inter).2.dictionary i = inter.dictionary i) ∧
    (∀ j, (step_brute_force conj inter).2.dictionary j = inter.dictionary j ∨
      (step_brute_force conj inter).2.dictionary j = PL_TRUE ∨
      (step_brute_force conj inter).2.dictionary j = PL_FALSE) ∧
    (ternary inter → ternary (step_brute_force conj inter).2) := by
  unfold step_brute_force
  obtain ⟨h1, h2, _, h4, h5, h6⟩ :=
    step_brute_force_loop_spec (List.range PL_MAX_VARS) (List.nodup_range _) inter
  obtain ⟨e1, e2, e3⟩ :=
    step_brute_force_loop_entries (List.range PL_MAX_VARS) (List.pairwise_lt_range _) inter
  have hw := counter_width_congr (step_brute_force_loop (List.range PL_MAX_VARS) inter).2 inter
    (List.range PL_MAX_VARS) (fun j _ => h2 j)
  have hlt := counter_value_lt (step_brute_force_loop (List.range PL_MAX_VARS) inter).2
    (List.range PL_MAX_VARS)
  rw [hw] at hlt
  have hflag := step_brute_force_loop_flag (List.range PL_MAX_VARS) (List.nodup_range _) inter
  refine ⟨?_, h2, hw, h1, ?_, ?_, ?_, ?_, ?_, h4, ?_⟩
  · rcases h1 with h | h
    · have hv := h5 h
      rw [hv] at hlt ⊢
      exact (Nat.mod_eq_of_lt hlt).symm
    · have hne : (step_brute_force_loop (List.range PL_MAX_VARS) inter).1 ≠ 0 := by
        rw [h]; decide
      rw [h6 hne, Nat.mod_self]
      exact step_brute_force_loop_overflow _ (List.nodup_range _) inter hne
  · rw [hflag]
    constructor
    · intro h i hi
      exact h i (List.mem_range.mpr hi)
    · intro h i hi
      exact h i (List.mem_range.mp hi)
  · constructor
    · intro h
      exact h6 (by rw [h]; decide)
    · intro h
      rcases h1 with h0 | h0
      · have hv := h5 h0
        rw [hv, h] at hlt
        exact absurd hlt (lt_irrefl _)
      · exact h0
  · intro i hi ht hlow
    exact e1 i (List.mem_range.mpr hi) ht (fun j _ hji => hlow j hji)
  · intro i hi hu ht hlow
    exact e2 i (List.mem_range.mpr hi) hu ht (fun j _ hji => hlow j hji)
  · rintro i ⟨j, hji, hj, hu, ht⟩
    exact e3 i ⟨j, List.mem_range.mpr hj, hji, hu, ht⟩
  · intro ht j hj
    rcases h4 j with h | h | h
    · exact le_of_eq_of_le h (ht j hj)
    · exact le_of_eq_of_le h (by decide)
    · exact le_of_eq_of_le h (by decide)

/-! ## The selection made by the unit search -/

theorem dpll_find_unit_count_snd (inter : PL_INTERPRETATION) (ls : List PL_LITERAL) :
    ∀ acc : Option PL_LITERAL × Nat,
      (dpll_find_unit_count inter ls acc).2 =
        acc.2 + (ls.filter
          (fun l => decide (inter.dictionary (u8 l.var) = PL_UNDEFINED))).length := by
  induction ls with
  | nil => intro acc; rfl
  | cons x rest ih =>
    intro acc
    by_cases hx : inter.dictionary (u8 x.var) = PL_UNDEFINED
    · simp only [dpll_find_unit_count, hx, if_true, List.filter_cons, decide_True,
        List.length_cons]
      rw [ih]
      simp only []
      omega
    · simp only [dpll_find_unit_count, hx, if_false, List.filter_cons, decide_False]
      rw [ih]
      simp

theorem dpll_find_unit_count_none (inter : PL_INTERPRETATION) (ls : List PL_LITERAL) :
    ∀ acc : Option PL_LITERAL × Nat,
      ls.filter (fun l => decide (inter.dictionary (u8 l.var) = PL_UNDEFINED)) = [] →
      (dpll_find_unit_count inter ls acc).1 = acc.1 := by
  induction ls with
  | nil => intro acc _; rfl
  | cons x rest ih =>
    intro acc h
    by_cases hx : inter.dictionary (u8 x.var) = PL_UNDEFINED
    · simp [List.filter_cons, hx] at h
    · simp only [List.filter_cons, hx, decide_False] at h
      simp only [dpll_find_unit_count, hx, if_false]
      exact ih acc (by simpa using h)

theorem dpll_find_unit_count_single (inter : PL_INTERPRETATION) (ls : List PL_LITERAL)
    (l : PL_LITERAL) :
    ∀ acc : Option PL_LITERAL × Nat,
      ls.filter (fun l => decide (inter.dictionary (u8 l.var) = PL_UNDEFINED)) = [l] →
      (dpll_find_unit_count inter ls acc).1 = some l := by
  induction ls with
  | nil => intro acc h; simp at h
  | cons x rest ih =>
    intro acc h
    by_cases hx : inter.dictionary (u8 x.var) = PL_UNDEFINED
    · simp only [List.filter_cons, hx, decide_True, if_true, List.cons.injEq] at h
      simp only [dpll_find_unit_count, hx, if_true]
      rw [dpll_find_unit_count_none inter rest _ h.2, h.1]
    · simp only [List.filter_cons, hx, decide_False] at h
      simp only [dpll_find_unit_count, hx, if_false]
      exact ih acc (by simpa using h)

/-- The unit search returns the single unset literal of a unit clause it reaches. -/
theorem dpll_find_unit_loop_cons_unit (inter : PL_INTERPRETATION) (d : PL_DISJUNCTION)
    (rest : List PL_DISJUNCTION) (h : unit_clause inter d) :
    ∃ l, unset_literals inter d = [l] ∧ dpll_find_unit_loop inter (d :: rest) = some l := by
  obtain ⟨hne, hlen⟩ := h
  obtain ⟨l, hl⟩ := List.length_eq_one.mp hlen
  refine ⟨l, hl, ?_⟩
  unfold unset_literals at hl hlen
  have h1 := dpll_find_unit_count_single inter d.literals l (none, 0) hl
  have h2 := dpll_find_unit_count_snd inter d.literals (none, 0)
  rw [hlen] at h2
  simp only [dpll_find_unit_loop, hne, if_false]
  rw [if_pos ⟨by rw [h1]; rfl, by rw [h2]⟩, h1]

/-- The unit search passes over a clause that is not a unit clause. -/
theorem dpll_find_unit_loop_cons_skip (inter : PL_INTERPRETATION) (d : PL_DISJUNCTION)
    (rest : List PL_DISJUNCTION) (h : ¬ unit_clause inter d) :
    dpll_find_unit_loop inter (d :: rest) = dpll_find_unit_loop inter rest := by
  by_cases hd : pl_is_disjunction_satisfied d inter = PL_TRUE
  · simp only [dpll_find_unit_loop, hd, if_true]
  · have hlen : (unset_literals inter d).length ≠ 1 := fun hl => h ⟨hd, hl⟩
    unfold unset_literals at hlen
    have h2 := dpll_find_unit_count_snd inter d.literals (none, 0)
    simp only [dpll_find_unit_loop, hd, if_false]
    rw [if_neg]
    rintro ⟨_, hc⟩
    rw [h2] at hc
    exact hlen (by simpa using hc)

theorem dpll_find_unit_loop_first (inter : PL_INTERPRETATION) (pre : List PL_DISJUNCTION)
    (d : PL_DISJUNCTION) (post : List PL_DISJUNCTION)
    (hpre : ∀ x ∈ pre, ¬ unit_clause inter x) (hd : unit_clause inter d) :
    ∃ l, unset_literals inter d = [l] ∧
      dpll_find_unit_loop inter (pre ++ d :: post) = some l := by
  induction pre with
  | nil => exact dpll_find_unit_loop_cons_unit inter d post hd
  | cons x rest ih =>
    obtain ⟨l, h1, h2⟩ := ih (fun y hy => hpre y (List.mem_cons_of_mem _ hy))
    refine ⟨l, h1, ?_⟩
    rw [List.cons_append, dpll_find_unit_loop_cons_skip inter x _
      (hpre x (List.mem_cons_self _ _))]
    exact h2

theorem dpll_find_unit_loop_none (inter : PL_INTERPRETATION) (ds : List PL_DISJUNCTION) :
    dpll_find_unit_loop inter ds = none ↔ ∀ d ∈ ds, ¬ unit_clause inter d := by
  induction ds with
  | nil => simp [dpll_find_unit_loop]
  | cons d rest ih =>
    by_cases hd : unit_clause inter d
    · obtain ⟨l, _, h2⟩ := dpll_find_unit_loop_cons_unit inter d rest hd
      rw [h2]
      constructor
      · intro h; cases h
      · intro h; exact absurd hd (h d (List.mem_cons_self _ _))
    · rw [dpll_find_unit_loop_cons_skip inter d rest hd, ih]
      constructor
      · intro h x hx
        rcases List.mem_cons.mp hx with rfl | hx
        · exact hd
        · exact h x hx
      · intro h x hx
        exact h x (List.mem_cons_of_mem _ hx)

/-- C15 fails at the working set reached by `pl_dpll` on `(B) ^ (A v B) ^ (~A)`
after the unit `B` was assigned: `dpll_find_unit` returns the literal `A` of the
clause `(A v B)`, yet the two-valued assignment with `A` false and `B` true extends
the interpretation and makes that clause true while making `A` false. -/
theorem dpll_find_unit_not_forced :
    dpll_find_unit (pl_dpll_init conj_unit_trap) = some litB ∧
    dpll_after_B = (pl_dpll_init conj_unit_trap).assign (u32 litB.var) PL_TRUE ∧
    dpll_find_unit dpll_after_B = some litA ∧
    ({ literals := [litA, litB] } : PL_DISJUNCTION) ∈ dpll_after_B.conjunction.disjunctions ∧
    completes (fun v => decide (v = 66)) dpll_after_B.interpretation ∧
    (∃ x ∈ [litA, litB], lit_true (fun v => decide (v = 66)) x) ∧
    ¬ lit_true (fun v => decide (v = 66)) litA := by
  refine ⟨by decide, rfl, by decide, by decide, ?_, ⟨litB, by decide, by decide⟩, by decide⟩
  intro i _ hne
  by_cases hi : i = 66
  · subst hi
    exact ⟨fun _ => rfl, fun _ => rfl⟩
  · exfalso
    apply hne
    show ((pl_create_interpretation conj_unit_trap PL_UNDEFINED).set 66 PL_TRUE).dictionary i = _
    rw [set_dictionary_other _ _ hi]
    exact pl_create_interpretation_undefined _ _

/-- C16 (unit search selection): `dpll_find_unit` returns the one literal with a
`PL_UNDEFINED` variable of the first clause, in clause order, that is not reported
`PL_TRUE` and has exactly one literal whose variable is `PL_UNDEFINED`; it returns
`NULL` exactly when no clause has both properties. -/
theorem dpll_find_unit_selects (dpll : PL_DPLL) :
    (∀ pre d post, dpll.conjunction.disjunctions = pre ++ d :: post →
      (∀ x ∈ pre, ¬ unit_clause dpll.interpretation x) →
      unit_clause dpll.interpretation d →
      ∃ l, unset_literals dpll.interpretation d = [l] ∧ dpll_find_unit dpll = some l) ∧
    (dpll_find_unit dpll = none ↔
      ∀ d ∈ dpll.conjunction.disjunctions, ¬ unit_clause dpll.interpretation d) := by
  constructor
  · intro pre d post h hpre hd
    unfold dpll_find_unit
    rw [h]
    exact dpll_find_unit_loop_first dpll.interpretation pre d post hpre hd
  · exact dpll_find_unit_loop_none dpll.interpretation dpll.conjunction.disjunctions

/-! ## The selection made by the pure-literal search -/

theorem mem_occurrences (inter : PL_INTERPRETATION) (c : PL_CONJUNCTION) (v : Nat)
    (x : PL_LITERAL) :
    x ∈ occurrences inter c v ↔
      ∃ d ∈ c.disjunctions, pl_is_disjunction_satisfied d inter ≠ PL_TRUE ∧
        x ∈ d.literals ∧ x.var = v := by
  unfold occurrences open_literals
  simp only [List.mem_filter, List.mem_flatMap, decide_eq_true_eq]
  constructor
  · rintro ⟨⟨d, ⟨hd, hne⟩, hx⟩, hv⟩
    exact ⟨d, hd, hne, hx, hv⟩
  · rintro ⟨d, hd, hne, hx, hv⟩
    exact ⟨⟨d, ⟨hd, hne⟩, hx⟩, hv⟩

theorem dpll_find_pure_literals_append (var : Nat) (l1 l2 : List PL_LITERAL) :
    ∀ m : Option PL_LITERAL,
      dpll_find_pure_literals var (l1 ++ l2) m =
        (dpll_find_pure_literals var l1 m).bind (fun m1 => dpll_find_pure_literals var l2 m1) := by
  induction l1 with
  | nil => intro m; rfl
  | cons x rest ih =>
    intro m
    by_cases hx : x.var = var
    · cases m with
      | none =>
        simp only [List.cons_append, dpll_find_pure_literals, hx, ne_eq, not_true_eq_false,
          if_false]
        exact ih _
      | some found =>
        by_cases hn : found.negated = x.negated
        · simp only [List.cons_append, dpll_find_pure_literals, hx, hn, ne_eq,
            not_true_eq_false, if_false]
          exact ih _
        · simp [dpll_find_pure_literals, hx, hn]
    · simp only [List.cons_append, dpll_find_pure_literals, ne_eq, hx, not_false_eq_true,
        if_true]
      exact ih _

theorem dpll_find_pure_literals_filter (var : Nat) (ls : List PL_LITERAL) :
    ∀ m : Option PL_LITERAL,
      dpll_find_pure_literals var ls m =
        dpll_find_pure_literals var (ls.filter (fun l => decide (l.var = var))) m := by
  induction ls with
  | nil => intro m; rfl
  | cons x rest ih =>
    intro m
    by_cases hx : x.var = var
    · cases m with
      | none =>
        simp only [List.filter_cons, hx, decide_True, if_true, dpll_find_pure_literals, ne_eq,
          not_true_eq_false, if_false]
        exact ih _
      | some found =>
        by_cases hn : found.negated = x.negated
        · simp only [List.filter_cons, hx, decide_True, if_true, dpll_find_pure_literals, hn,
            ne_eq, not_true_eq_false, if_false]
          exact ih _
        · simp [List.filter_cons, dpll_find_pure_literals, hx, hn]
    · simp only [List.filter_cons, hx, decide_False, dpll_find_pure_literals, ne_eq,
        not_false_eq_true, if_true]
      rw [ih]
      simp

/-- With a match in hand, the scan keeps it when every later occurrence carries the
same flag. -/
theorem dpll_find_pure_literals_keep (var : Nat) (f : PL_LITERAL) (ls : List PL_LITERAL)
    (h : ∀ x ∈ ls, x.var = var → x.negated = f.negated) :
    dpll_find_pure_literals var ls (some f) = some (some f) := by
  induction ls with
  | nil => rfl
  | cons x rest ih =>
    have ihr := ih (fun y hy => h y (List.mem_cons_of_mem _ hy))
    by_cases hx : x.var = var
    · have hn := h x (List.mem_cons_self _ _) hx
      simp only [dpll_find_pure_literals, hx, hn, ne_eq, not_true_eq_false, if_false]
      exact ihr
    · simp only [dpll_find_pure_literals, ne_eq, hx, not_false_eq_true, if_true]
      exact ihr

/-- With a match in hand, a scan that does not return early kept the match, and
every later occurrence carried the same flag. -/
theorem dpll_find_pure_literals_kept (var : Nat) (f : PL_LITERAL) (ls : List PL_LITERAL)
    (r : Option PL_LITERAL) (h : dpll_find_pure_literals var ls (some f) = some r) :
    r = some f ∧ ∀ x ∈ ls, x.var = var → x.negated = f.negated := by
  induction ls with
  | nil =>
    simp only [dpll_find_pure_literals, Option.some.injEq] at h
    exact ⟨h.symm, fun x hx => by cases hx⟩
  | cons x rest ih =>
    by_cases hx : x.var = var
    · by_cases hn : f.negated = x.negated
      · simp only [dpll_find_pure_literals, hx, hn, ne_eq, not_true_eq_false, if_false] at h
        obtain ⟨h1, h2⟩ := ih h
        refine ⟨h1, ?_⟩
        intro y hy hyv
        rcases List.mem_cons.mp hy with rfl | hy
        · exact hn.symm
        · exact h2 y hy hyv
      · simp [dpll_find_pure_literals, hx, hn] at h
    · simp only [dpll_find_pure_literals, ne_eq, hx, not_false_eq_true, if_true] at h
      obtain ⟨h1, h2⟩ := ih h
      refine ⟨h1, ?_⟩
      intro y hy hyv
      rcases List.mem_cons.mp hy with rfl | hy
      · exact absurd hyv hx
      · exact h2 y hy hyv

theorem dpll_find_pure_for_variable_loop_join (inter : PL_INTERPRETATION) (var : Nat)
    (ds : List PL_DISJUNCTION) :
    ∀ m : Option PL_LITERAL,
      dpll_find_pure_for_variable_loop inter var ds m =
        (dpll_find_pure_literals var
          ((ds.filter (fun d => decide (pl_is_disjunction_satisfied d inter ≠ PL_TRUE))).flatMap
            (fun d => d.literals)) m).join := by
  induction ds with
  | nil => intro m; rfl
  | cons d rest ih =>
    intro m
    by_cases hd : pl_is_disjunction_satisfied d inter = PL_TRUE
    · simp only [dpll_find_pure_for_variable_loop, hd, if_true, List.filter_cons, ne_eq,
        not_true_eq_false, decide_False]
      rw [ih]
      simp
    · simp only [dpll_find_pure_for_variable_loop, hd, if_false, List.filter_cons, ne_eq,
        not_false_eq_true, decide_True, if_true, List.flatMap_cons]
      rw [dpll_find_pure_literals_append]
      cases hm : dpll_find_pure_literals var d.literals m with
      | none => rfl
      | some m1 =>
        simp only [Option.some_bind]
        exact ih m1

/-- The function `dpll_find_pure_for_variable` scans the occurrences of the
variable in the clauses not reported `PL_TRUE`. -/
theorem dpll_find_pure_for_variable_eq (dpll : PL_DPLL) (v : Nat) :
    dpll_find_pure_for_variable dpll v =
      (dpll_find_pure_literals v (occurrences dpll.interpretation dpll.conjunction v)
        none).join := by
  unfold dpll_find_pure_for_variable occurrences open_literals
  rw [dpll_find_pure_for_variable_loop_join, dpll_find_pure_literals_filter]

theorem occurrences_var (inter : PL_INTERPRETATION) (c : PL_CONJUNCTION) (v : Nat)
    (x : PL_LITERAL) (h : x ∈ occurrences inter c v) : x.var = v := by
  obtain ⟨_, _, _, _, hv⟩ := (mem_occurrences inter c v x).mp h
  exact hv

/-- A literal returned by `dpll_find_pure_for_variable` is the first occurrence of
a pure variable. -/
theorem dpll_find_pure_for_variable_some (dpll : PL_DPLL) (v : Nat) (l : PL_LITERAL)
    (h : dpll_find_pure_for_variable dpll v = some l) :
    pure_variable dpll.interpretation dpll.conjunction v ∧
      ∃ t, occurrences dpll.interpretation dpll.conjunction v = l :: t := by
  rw [dpll_find_pure_for_variable_eq] at h
  cases hocc : occurrences dpll.interpretation dpll.conjunction v with
  | nil =>
    rw [hocc] at h
    simp [dpll_find_pure_literals] at h
  | cons f t =>
    have hfv : f.var = v := occurrences_var _ _ _ f (by rw [hocc]; exact List.mem_cons_self _ _)
    have htv : ∀ x ∈ t, x.var = v := fun x hx =>
      occurrences_var _ _ _ x (by rw [hocc]; exact List.mem_cons_of_mem _ hx)
    rw [hocc] at h
    have e : dpll_find_pure_literals v (f :: t) none =
        dpll_find_pure_literals v t (some f) := by
      simp [dpll_find_pure_literals, hfv]
    rw [e] at h
    cases hr : dpll_find_pure_literals v t (some f) with
    | none => rw [hr] at h; simp at h
    | some r =>
      obtain ⟨h1, h2⟩ := dpll_find_pure_literals_kept v f t r hr
      rw [hr, h1] at h
      simp only [Option.join, Option.some_bind, id_eq, Option.some.injEq] at h
      subst h
      unfold pure_variable
      rw [hocc]
      refine ⟨⟨by simp, ?_⟩, t, rfl⟩
      have hall : ∀ x ∈ f :: t, x.negated = f.negated := by
        intro x hx
        rcases List.mem_cons.mp hx with rfl | hx
        · rfl
        · exact h2 x hx (htv x hx)
      intro x hx y hy
      rw [hall x hx, hall y hy]

/-- On a pure variable `dpll_find_pure_for_variable` returns a literal. -/
theorem dpll_find_pure_for_variable_pure (dpll : PL_DPLL) (v : Nat)
    (h : pure_variable dpll.interpretation dpll.conjunction v) :
    ∃ l, dpll_find_pure_for_variable dpll v = some l := by
  obtain ⟨hne, hsame⟩ := h
  rw [dpll_find_pure_for_variable_eq]
  cases hocc : occurrences dpll.interpretation dpll.conjunction v with
  | nil => exact absurd hocc hne
  | cons f t =>
    rw [hocc] at hsame
    have hfv : f.var = v := occurrences_var _ _ _ f (by rw [hocc]; exact List.mem_cons_self _ _)
    have e : dpll_find_pure_literals v (f :: t) none =
        dpll_find_pure_literals v t (some f) := by
      simp [dpll_find_pure_literals, hfv]
    rw [e, dpll_find_pure_literals_keep v f t
      (fun x hx _ => hsame x (List.mem_cons_of_mem _ hx) f (List.mem_cons_self _ _))]
    exact ⟨f, rfl⟩

theorem dpll_find_pure_for_variable_none (dpll : PL_DPLL) (v : Nat) :
    dpll_find_pure_for_variable dpll v = none ↔
      ¬ pure_variable dpll.interpretation dpll.conjunction v := by
  constructor
  · intro h hp
    obtain ⟨l, hl⟩ := dpll_find_pure_for_variable_pure dpll v hp
    rw [h] at hl
    cases hl
  · intro h
    cases hf : dpll_find_pure_for_variable dpll v with
    | none => rfl
    | some l => exact absurd (dpll_find_pure_for_variable_some dpll v l hf).1 h

theorem dpll_find_pure_loop_none (dpll : PL_DPLL) (idx : List Nat) :
    dpll_find_pure_loop dpll idx = none ↔
      ∀ w ∈ idx, dpll.interpretation.dictionary w = PL_UNDEFINED →
        ¬ pure_variable dpll.interpretation dpll.conjunction w := by
  induction idx with
  | nil => simp [dpll_find_pure_loop]
  | cons i rest ih =>
    by_cases hi : dpll.interpretation.dictionary i = PL_UNDEFINED
    · cases hp : dpll_find_pure_for_variable dpll i with
      | none =>
        have e : dpll_find_pure_loop dpll (i :: rest) = dpll_find_pure_loop dpll rest := by
          simp [dpll_find_pure_loop, hi, hp]
        rw [e, ih]
        constructor
        · intro h w hw
          rcases List.mem_cons.mp hw with rfl | hw
          · intro _; exact (dpll_find_pure_for_variable_none dpll w).mp hp
          · exact h w hw
        · intro h w hw
          exact h w (List.mem_cons_of_mem _ hw)
      | some l =>
        have e : dpll_find_pure_loop dpll (i :: rest) = some l := by
          simp [dpll_find_pure_loop, hi, hp]
        rw [e]
        constructor
        · intro h; cases h
        · intro h
          exact absurd (dpll_find_pure_for_variable_some dpll i l hp).1
            (h i (List.mem_cons_self _ _) hi)
    · have e : dpll_find_pure_loop dpll (i :: rest) = dpll_find_pure_loop dpll rest := by
        simp [dpll_find_pure_loop, hi]
      rw [e, ih]
      constructor
      · intro h w hw
        rcases List.mem_cons.mp hw with rfl | hw
        · intro hu; exact absurd hu hi
        · exact h w hw
      · intro h w hw
        exact h w (List.mem_cons_of_mem _ hw)

/-- On an increasing index list, the literal returned by the pure-literal search
was returned by `dpll_find_pure_for_variable` for an index holding `PL_UNDEFINED`,
and no smaller listed index holding `PL_UNDEFINED` is a pure variable. -/
theorem dpll_find_pure_loop_result (dpll : PL_DPLL) (idx : List Nat)
    (hs : idx.Pairwise (fun a b => a < b)) (l : PL_LITERAL)
    (h : dpll_find_pure_loop dpll idx = some l) :
    ∃ i ∈ idx, dpll.interpretation.dictionary i = PL_UNDEFINED ∧
      dpll_find_pure_for_variable dpll i = some l ∧
      ∀ w ∈ idx, w < i → dpll.interpretation.dictionary w = PL_UNDEFINED →
        ¬ pure_variable dpll.interpretation dpll.conjunction w := by
  induction idx with
  | nil => simp [dpll_find_pure_loop] at h
  | cons j rest ih =>
    obtain ⟨hj, hrest⟩ := List.pairwise_cons.mp hs
    have skip : dpll_find_pure_loop dpll rest = some l →
        (dpll.interpretation.dictionary j = PL_UNDEFINED →
          ¬ pure_variable dpll.interpretation dpll.conjunction j) →
        ∃ i ∈ j :: rest, dpll.interpretation.dictionary i = PL_UNDEFINED ∧
          dpll_find_pure_for_variable dpll i = some l ∧
          ∀ w ∈ j :: rest, w < i → dpll.interpretation.dictionary w = PL_UNDEFINED →
            ¬ pure_variable dpll.interpretation dpll.conjunction w := by
      intro hr hnot
      obtain ⟨i, hi, h1, h2, h3⟩ := ih hrest hr
      refine ⟨i, List.mem_cons_of_mem _ hi, h1, h2, ?_⟩
      intro w hw hlt
      rcases List.mem_cons.mp hw with rfl | hw
      · exact hnot
      · exact h3 w hw hlt
    by_cases hu : dpll.interpretation.dictionary j = PL_UNDEFINED
    · cases hp : dpll_find_pure_for_variable dpll j with
      | none =>
        have e : dpll_find_pure_loop dpll (j :: rest) = dpll_find_pure_loop dpll rest := by
          simp [dpll_find_pure_loop, hu, hp]
        rw [e] at h
        exact skip h (fun _ => (dpll_find_pure_for_variable_none dpll j).mp hp)
      | some x =>
        have e : dpll_find_pure_loop dpll (j :: rest) = some x := by
          simp [dpll_find_pure_loop, hu, hp]
        rw [e, Option.some.injEq] at h
        subst h
        refine ⟨j, List.mem_cons_self _ _, hu, hp, ?_⟩
        intro w hw hlt
        rcases List.mem_cons.mp hw with rfl | hw
        · exact absurd hlt (lt_irrefl _)
        · exact absurd hlt (not_lt_of_gt (hj w hw))
    · have e : dpll_find_pure_loop dpll (j :: rest) = dpll_find_pure_loop dpll rest := by
        simp [dpll_find_pure_loop, hu]
      rw [e] at h
      exact skip h (fun hx => absurd hx hu)

/-- What `dpll_find_pure` returns: a first occurrence of the lowest-index pure
variable that holds `PL_UNDEFINED`. -/
theorem dpll_find_pure_some (dpll : PL_DPLL) (l : PL_LITERAL)
    (h : dpll_find_pure dpll = some l) :
    l.var < PL_MAX_VARS ∧ dpll.interpretation.dictionary l.var = PL_UNDEFINED ∧
    pure_variable dpll.interpretation dpll.conjunction l.var ∧
    l ∈ occurrences dpll.interpretation dpll.conjunction l.var ∧
    ∀ w, w < l.var → dpll.interpretation.dictionary w = PL_UNDEFINED →
      ¬ pure_variable dpll.interpretation dpll.conjunction w := by
  obtain ⟨i, hi, h1, h2, h3⟩ := dpll_find_pure_loop_result dpll (List.range PL_MAX_VARS)
    (List.pairwise_lt_range _) l h
  obtain ⟨hp, t, ht⟩ := dpll_find_pure_for_variable_some dpll i l h2
  have hmem : l ∈ occurrences dpll.interpretation dpll.conjunction i := by
    rw [ht]; exact List.mem_cons_self _ _
  have hv := occurrences_var _ _ _ l hmem
  subst hv
  have hlt := List.mem_range.mp hi
  exact ⟨hlt, h1, hp, hmem, fun w hw => h3 w (List.mem_range.mpr (lt_trans hw hlt)) hw⟩

/-- C17 (pure-literal search selection): `dpll_find_pure` returns an occurrence of
the lowest-index variable that holds `PL_UNDEFINED`, occurs in a clause not reported
`PL_TRUE`, and carries one and the same `negated` flag at all its occurrences in
such clauses; it returns `NULL` exactly when no variable holding `PL_UNDEFINED` has
this property; and the variable of a returned literal never occurs with two flags
in such clauses. -/
theorem dpll_find_pure_selects (dpll : PL_DPLL) :
    (∀ v, v < PL_MAX_VARS → dpll.interpretation.dictionary v = PL_UNDEFINED →
      pure_variable dpll.interpretation dpll.conjunction v →
      (∀ w, w < v → dpll.interpretation.dictionary w = PL_UNDEFINED →
        ¬ pure_variable dpll.interpretation dpll.conjunction w) →
      ∃ l, dpll_find_pure dpll = some l ∧ l.var = v ∧
        l ∈ occurrences dpll.interpretation dpll.conjunction v) ∧
    (dpll_find_pure dpll = none ↔
      ∀ v, v < PL_MAX_VARS → dpll.interpretation.dictionary v = PL_UNDEFINED →
        ¬ pure_variable dpll.interpretation dpll.conjunction v) ∧
    (∀ l, dpll_find_pure dpll = some l →
      dpll.interpretation.dictionary l.var = PL_UNDEFINED ∧
      ∀ x ∈ occurrences dpll.interpretation dpll.conjunction l.var,
        ∀ y ∈ occurrences dpll.interpretation dpll.conjunction l.var,
          x.negated = y.negated) := by
  have hnone : dpll_find_pure dpll = none ↔
      ∀ v, v < PL_MAX_VARS → dpll.interpretation.dictionary v = PL_UNDEFINED →
        ¬ pure_variable dpll.interpretation dpll.conjunction v := by
    unfold dpll_find_pure
    rw [dpll_find_pure_loop_none]
    constructor
    · intro h v hv
      exact h v (List.mem_range.mpr hv)
    · intro h v hv
      exact h v (List.mem_range.mp hv)
  refine ⟨?_, hnone, ?_⟩
  · intro v hv hu hp hmin
    cases hf : dpll_find_pure dpll with
    | none => exact absurd hp (hnone.mp hf v hv hu)
    | some l =>
      obtain ⟨hlt, hlu, hlp, hmem, hlmin⟩ := dpll_find_pure_some dpll l hf
      have e : l.var = v := by
        rcases Nat.lt_trichotomy l.var v with h | h | h
        · exact absurd hlp (hmin l.var h hlu)
        · exact h
        · exact absurd hp (hlmin v h hu)
      exact ⟨l, rfl, e, e ▸ hmem⟩
  · intro l hf
    obtain ⟨_, hlu, hlp, _, _⟩ := dpll_find_pure_some dpll l hf
    exact ⟨hlu, hlp.2⟩

/-! ## The pure-literal branch keeps a solution -/

/-- C20 (pure-literal assignment preserves satisfiability): for a working set
whose conjunction has variables in 0..127, if `dpll_find_pure` returns the literal
`l` and some two-valued assignment extending the interpretation makes every clause
contain a true literal, then some two-valued assignment extending the
interpretation makes `l` true and every clause contain a true literal. -/
theorem dpll_find_pure_preserves (dpll : PL_DPLL) (hr : vars_in_range dpll.conjunction)
    (l : PL_LITERAL) (h : dpll_find_pure dpll = some l) (a : Nat → Bool)
    (hc : completes a dpll.interpretation) (hs : satisfies a dpll.conjunction) :
    ∃ a1 : Nat → Bool, completes a1 dpll.interpretation ∧ lit_true a1 l ∧
      satisfies a1 dpll.conjunction := by
  obtain ⟨_, hlu, hlp, _, _⟩ := dpll_find_pure_some dpll l h
  refine ⟨fun i => if i = l.var then decide (l.negated = 0) else a i, ?_, ?_, ?_⟩
  · intro i hi hne
    have hil : i ≠ l.var := fun e => hne (e ▸ hlu)
    simp only [hil, if_false]
    exact hc i hi hne
  · unfold lit_true
    by_cases hn : l.negated = 0 <;> simp [hn]
  · intro d hd
    by_cases hdt : pl_is_disjunction_satisfied d dpll.interpretation = PL_TRUE
    · unfold pl_is_disjunction_satisfied disj_satisfied at hdt
      obtain ⟨x, hx, hxv⟩ := disj_satisfied_loop_ne_false dpll.interpretation d.literals
        (by rw [hdt]; decide)
      rw [hdt] at hxv
      refine ⟨x, hx, ?_⟩
      have hlt := hr d hd x hx
      obtain ⟨hdef, hval⟩ := lit_satisfied_true x dpll.interpretation hxv
      rw [u8_of_lt hlt] at hdef hval
      have hxl : x.var ≠ l.var := fun e => hdef (e ▸ hlu)
      have hca := hc x.var hlt hdef
      unfold lit_true
      simp only [hxl, if_false]
      by_cases hn : x.negated = 0
      · simp only [hn, ne_eq, not_true_eq_false, if_false] at hval ⊢
        exact hca.mpr hval
      · simp only [ne_eq, hn, not_false_eq_true, if_true] at hval ⊢
        cases hax : a x.var with
        | false => rfl
        | true => exact absurd (hca.mp hax) hval
    · obtain ⟨x, hx, hxt⟩ := hs d hd
      refine ⟨x, hx, ?_⟩
      by_cases hxl : x.var = l.var
      · have hmem : x ∈ occurrences dpll.interpretation dpll.conjunction l.var :=
          (mem_occurrences _ _ _ _).mpr ⟨d, hd, hdt, hx, hxl⟩
        have hlmem : ∃ y ∈ occurrences dpll.interpretation dpll.conjunction l.var,
            y.negated = l.negated := by
          obtain ⟨_, _, _, hm, _⟩ := dpll_find_pure_some dpll l h
          exact ⟨l, hm, rfl⟩
        obtain ⟨y, hy, hyn⟩ := hlmem
        have hneg : x.negated = l.negated := by rw [← hyn]; exact hlp.2 x hmem y hy
        unfold lit_true
        simp only [hxl, if_true, hneg]
        by_cases hn : l.negated = 0 <;> simp [hn]
      · unfold lit_true at hxt ⊢
        simp only [hxl, if_false]
        exact hxt

/-- Witness of C20 on the initial working set of `(A v B)`: the pure literal `A`
is returned, the assignment with only `B` true is a solution, and a solution with
`A` true exists. -/
theorem dpll_find_pure_preserves_witness :
    dpll_find_pure (pl_dpll_init conj_AorB) = some litA ∧
    satisfies (fun v => decide (v = 66)) conj_AorB ∧
    ∃ a1 : Nat → Bool, completes a1 (pl_dpll_init conj_AorB).interpretation ∧
      lit_true a1 litA ∧ satisfies a1 (pl_dpll_init conj_AorB).conjunction := by
  have hs : satisfies (fun v => decide (v = 66)) conj_AorB := by
    intro d hd
    simp only [conj_AorB, List.mem_singleton] at hd
    subst hd
    exact ⟨litB, by simp, by simp [lit_true, litB]⟩
  have hc : completes (fun v => decide (v = 66)) (pl_dpll_init conj_AorB).interpretation := by
    intro i _ hne
    exact absurd (pl_create_interpretation_undefined conj_AorB i) hne
  exact ⟨by decide, hs,
    dpll_find_pure_preserves (pl_dpll_init conj_AorB) (by decide) litA (by decide) _ hc hs⟩

/-! ## The parser on empty tokens -/

/-- C14 fails on the text `A^^B`: `strtok_r` yields the two clauses `A` and `B`
and then `NULL`, while `count_tokens` reports 3, so the parsed conjunction has
count 3 and a third disjunction with count 0, for which `pl_brute_force` finds no
solution; likewise the text `AvvB` yields a disjunction of count 3 whose third
literal is the zero-filled slot. -/
theorem pl_parse_counts_empty_tokens :
    strtok_r text_A_hat_hat_B [94] = some ([65], [94, 66]) ∧
    strtok_r [94, 66] [94] = some ([66], []) ∧
    strtok_r [] [94] = none ∧
    count_tokens text_A_hat_hat_B 94 = 3 ∧
    (∀ fuel, pl_parse (fuel + 3) text_A_hat_hat_B =
      some { disjunctions := [⟨[litA]⟩, ⟨[litB]⟩, ⟨[]⟩] }) ∧
    pl_brute_force 5 { disjunctions := [⟨[litA]⟩, ⟨[litB]⟩, ⟨[]⟩] } = some none ∧
    (∀ fuel, pl_parse (fuel + 3) [65, 118, 118, 66] =
      some { disjunctions := [⟨[litA, litB, { var := 0, negated := 0 }]⟩] }) :=
  ⟨rfl, rfl, rfl, rfl, fun _ => rfl, rfl, fun _ => rfl⟩

/-! ## Entries that `dpll_step` may assign -/

theorem used_ternary_set (inter : PL_INTERPRETATION) (c : PL_CONJUNCTION) (i v : Nat)
    (h : used_ternary inter c) (hv : v ≤ PL_UNDEFINED) : used_ternary (inter.set i v) c := by
  intro d hd l hl
  by_cases hli : l.var = i
  · simp [set_dictionary, hli, hv]
  · simpa [set_dictionary, hli] using h d hd l hl

/-- When the formula evaluates neither `PL_TRUE` nor `PL_FALSE` and the entries at
its variables are three-valued, some literal of the formula has a `PL_UNDEFINED`
variable, whatever the other entries hold. -/
theorem undefined_of_not_decided_used (conj : PL_CONJUNCTION) (inter : PL_INTERPRETATION)
    (ht : used_ternary inter conj) (hr : vars_in_range conj)
    (h1 : pl_is_satisfied conj inter ≠ PL_TRUE) (h0 : pl_is_satisfied conj inter ≠ PL_FALSE) :
    ∃ i ∈ List.range PL_MAX_VARS, inter.dictionary i = PL_UNDEFINED := by
  unfold pl_is_satisfied at h1 h0
  obtain ⟨d, hd, hv⟩ := pl_is_satisfied_loop_ne_true inter conj.disjunctions h1
  rw [← hv] at h0 h1
  unfold disj_satisfied at h0 h1
  obtain ⟨l, hl, hlv⟩ := disj_satisfied_loop_ne_false inter d.literals h0
  have hlt := hr d hd l hl
  have e := u8_of_lt hlt
  rcases lit_satisfied_cases l inter (by rw [e]; exact ht d hd l hl) with h | h | h
  · exact absurd (hlv ▸ h) h1
  · exact absurd (hlv ▸ h) h0
  · exact ⟨l.var, List.mem_range.mpr hlt, e ▸ h⟩

/-- A returning `dpll_try` on an index that holds `PL_UNDEFINED` changes only
entries that held `PL_UNDEFINED`, and writes three-valued bytes there, provided the
recursive call does. -/
theorem dpll_try_touches_undefined (step : PL_DPLL → Option (Nat × PL_DPLL))
    (hstep : ∀ d r d1, vars_in_range d.conjunction →
      used_ternary d.interpretation d.conjunction → step d = some (r, d1) →
      ∀ i, d1.interpretation.dictionary i = d.interpretation.dictionary i ∨
        (d.interpretation.dictionary i = PL_UNDEFINED ∧
          d1.interpretation.dictionary i ≤ PL_UNDEFINED))
    (dpll : PL_DPLL) (var value r : Nat) (d1 : PL_DPLL)
    (hr : vars_in_range dpll.conjunction)
    (ht : used_ternary dpll.interpretation dpll.conjunction)
    (hv : value ≤ PL_UNDEFINED)
    (hu : dpll.interpretation.dictionary (u32 var) = PL_UNDEFINED)
    (h : dpll_try step dpll var value = some (r, d1)) :
    (∀ i, d1.interpretation.dictionary i = dpll.interpretation.dictionary i ∨
      (dpll.interpretation.dictionary i = PL_UNDEFINED ∧
        d1.interpretation.dictionary i ≤ PL_UNDEFINED)) ∧
    (r = 0 → d1.interpretation.dictionary (u32 var) = PL_UNDEFINED) := by
  rw [dpll_try_eq] at h
  cases hs : step (dpll.assign (u32 var) value) with
  | none => simp [hs] at h
  | some out =>
    obtain ⟨r2, d2⟩ := out
    have hq := hstep (dpll.assign (u32 var) value) r2 d2 hr
      (used_ternary_set _ _ _ _ ht hv) hs
    have hq2 : ∀ i, d2.interpretation.dictionary i = dpll.interpretation.dictionary i ∨
        (dpll.interpretation.dictionary i = PL_UNDEFINED ∧
          d2.interpretation.dictionary i ≤ PL_UNDEFINED) := by
      intro i
      by_cases hi : i = u32 var
      · subst hi
        right
        refine ⟨hu, ?_⟩
        rcases hq (u32 var) with e | ⟨_, e⟩
        · rw [e, assign_interpretation, set_dictionary_same]; exact hv
        · exact e
      · rcases hq i with e | ⟨e1, e2⟩
        · left
          rw [e, assign_interpretation, set_dictionary_other _ _ hi]
        · right
          rw [assign_interpretation, set_dictionary_other _ _ hi] at e1
          exact ⟨e1, e2⟩
    simp only [hs] at h
    by_cases h0 : r2 = 0
    · simp only [h0, ne_eq, not_true_eq_false, if_false, Option.some.injEq, Prod.mk.injEq] at h
      obtain ⟨e1, e2⟩ := h
      subst e1 e2
      refine ⟨?_, fun _ => by rw [assign_interpretation, set_dictionary_same]⟩
      intro i
      by_cases hi : i = u32 var
      · subst hi
        left
        rw [assign_interpretation, set_dictionary_same, hu]
      · rw [assign_interpretation, set_dictionary_other _ _ hi]
        exact hq2 i
    · simp only [ne_eq, h0, not_false_eq_true, if_true, Option.some.injEq, Prod.mk.injEq] at h
      obtain ⟨e1, e2⟩ := h
      subst e1 e2
      exact ⟨hq2, fun h1 => absurd h1 (by decide)⟩

/-- A returning `dpll_step` changes only entries that held `PL_UNDEFINED` when it
was called, and leaves three-valued bytes there. -/
theorem dpll_step_touches_undefined : ∀ (fuel : Nat) (d : PL_DPLL) (r : Nat) (d1 : PL_DPLL),
    vars_in_range d.conjunction → used_ternary d.interpretation d.conjunction →
    dpll_step fuel d = some (r, d1) →
    ∀ i, d1.interpretation.dictionary i = d.interpretation.dictionary i ∨
      (d.interpretation.dictionary i = PL_UNDEFINED ∧
        d1.interpretation.dictionary i ≤ PL_UNDEFINED) := by
  intro fuel
  induction fuel with
  | zero => intro d r d1 _ _ h; simp [dpll_step_zero] at h
  | succ fuel ih =>
    intro d r d1 hr ht h
    have hval : ∀ l : PL_LITERAL,
        (if l.negated ≠ 0 then PL_FALSE else PL_TRUE) ≤ PL_UNDEFINED := by
      intro l; split <;> decide
    rw [dpll_step_succ] at h
    by_cases h1 : pl_is_satisfied d.conjunction d.interpretation = PL_TRUE
    · rw [if_pos h1] at h
      simp only [Option.some.injEq, Prod.mk.injEq] at h
      intro i; left; rw [← h.2]
    · by_cases h0 : pl_is_satisfied d.conjunction d.interpretation = PL_FALSE
      · rw [if_neg h1, if_pos h0] at h
        simp only [Option.some.injEq, Prod.mk.injEq] at h
        intro i; left; rw [← h.2]
      · rw [if_neg h1, if_neg h0] at h
        cases hu : dpll_find_unit d with
        | some l =>
          simp only [hu] at h
          obtain ⟨c, hc, hl, hud⟩ := dpll_find_unit_loop_some _ _ _ hu
          have hlt := hr c hc l hl
          rw [u8_of_lt hlt] at hud
          exact (dpll_try_touches_undefined _ ih d _ _ r d1 hr ht (hval l)
            (by rw [u32_of_lt hlt]; exact hud) h).1
        | none =>
          simp only [hu] at h
          cases hp : dpll_find_pure d with
          | some l =>
            simp only [hp] at h
            obtain ⟨hmem, hud, _⟩ := dpll_find_pure_loop_some _ _ _ hp
            have hlt := List.mem_range.mp hmem
            exact (dpll_try_touches_undefined _ ih d _ _ r d1 hr ht (hval l)
              (by rw [u32_of_lt hlt]; exact hud) h).1
          | none =>
            simp only [hp] at h
            obtain ⟨hmem, hud⟩ := dpll_find_unset_loop_spec d _
              (undefined_of_not_decided_used _ _ ht hr h1 h0)
            have hlt := List.mem_range.mp hmem
            have hud2 : d.interpretation.dictionary (u32 (dpll_find_unset d)) = PL_UNDEFINED := by
              unfold dpll_find_unset
              rw [u32_of_lt hlt]; exact hud
            cases htry : dpll_try (dpll_step fuel) d (dpll_find_unset d) PL_TRUE with
            | none => simp [htry] at h
            | some out =>
              obtain ⟨r2, d2⟩ := out
              obtain ⟨q1, q1u⟩ := dpll_try_touches_undefined _ ih d _ _ r2 d2 hr ht
                (by decide) hud2 htry
              obtain ⟨_, hc2, _⟩ := dpll_try_sound _ (dpll_step_sound fuel) d _ _ r2 d2 htry
              simp only [htry] at h
              by_cases hr2 : r2 = 0
              · simp only [hr2, ne_eq, not_true_eq_false, if_false] at h
                have ht2 : used_ternary d2.interpretation d2.conjunction := by
                  rw [hc2]
                  intro c hc l hl
                  rcases q1 l.var with e | ⟨_, e⟩
                  · rw [e]; exact ht c hc l hl
                  · exact e
                obtain ⟨q2, _⟩ := dpll_try_touches_undefined _ ih d2 _ _ r d1
                  (by rw [hc2]; exact hr) ht2 (by decide) (q1u hr2) h
                intro i
                rcases q2 i with e | ⟨e1, e2⟩
                · rw [e]; exact q1 i
                · rcases q1 i with f | ⟨f1, _⟩
                  · right; exact ⟨by rw [← f]; exact e1, e2⟩
                  · right; exact ⟨f1, e2⟩
              · simp only [ne_eq, hr2, not_false_eq_true, if_true, Option.some.injEq,
                  Prod.mk.injEq] at h
                rw [← h.2]
                exact q1

